import Mathlib

/-!
# Verification of the `agent2` tool-calling codec

Shallow embedding of the `agent2.tool_api` package: the tool-call
extractors/builders (tag-delimited XML-like, JSON-fenced, Markdown-heading),
the literal-coercion routine, the tool validator, the schema builders and the
pipeline's conversation-merging phase.  Python strings are modelled as
`List Char` (ASCII scope); Python values as the inductive `Value`; Python
floats as sign/digit-list/exponent decimals (CPython's `repr` round-trip
guarantee is reflected by canonical decimal forms).  Each definition is a
direct translation of the corresponding Python function.
-/

namespace Agent2

/-- Python strings, modelled as lists of characters. -/
abbrev Str := List Char

/-- Coerce a Lean string literal to the `Str` model. -/
def pystr (s : String) : Str := s.data

/-- Python `str.isspace` / whitespace set used by `str.strip()` (ASCII scope). -/
def isPySpace (c : Char) : Bool :=
  c = ' ' || c = '\t' || c = '\n' || c = '\x0d' || c = '\x0b' || c = '\x0c'

/-- Python `str.lstrip()` (default whitespace). -/
def pyLstrip (s : Str) : Str := s.dropWhile isPySpace

/-- Python `str.rstrip()` (default whitespace). -/
def pyRstrip (s : Str) : Str := (s.reverse.dropWhile isPySpace).reverse

/-- Python `str.strip()` (default whitespace). -/
def pyStrip (s : Str) : Str := pyRstrip (pyLstrip s)

/-- Python `str.lower()` (ASCII scope). -/
def pyLower (s : Str) : Str := s.map Char.toLower

/-- Python `pat in text` (substring containment). -/
def pyContains (pat : Str) (text : Str) : Bool :=
  match text with
  | [] => pat.isEmpty
  | _ :: rest => pat.isPrefixOf text || pyContains pat rest

/-- Scanner for `pyCount`: walk the text one character at a time; `skip`
counts characters still covered by the previous match (non-overlapping
semantics). -/
def pyCountAux (pat : Str) : Str → Nat → Nat
  | [], _ => 0
  | _ :: rest, skip + 1 => pyCountAux pat rest skip
  | c :: rest, 0 =>
    if pat.isPrefixOf (c :: rest) then 1 + pyCountAux pat rest (pat.length - 1)
    else pyCountAux pat rest 0

/-- Python `text.count(pat)`: number of non-overlapping occurrences, scanning
left to right (Python returns `len+1` for empty `pat`). -/
def pyCount (pat : Str) (text : Str) : Nat :=
  if pat.isEmpty then text.length + 1 else pyCountAux pat text 0

/-- Python `text.find(pat, start)`: index of the first occurrence of `pat` at
position `≥ start`, or `none` (Python returns `-1`). -/
def pyFindFrom (pat : Str) (text : Str) (start : Nat) : Option Nat :=
  go (text.drop start) start
where
  go : Str → Nat → Option Nat
  | t, i =>
    if pat.isPrefixOf t then some i
    else match t with
      | [] => none
      | _ :: rest => go rest (i + 1)

/-- Scanner for `pyReplace`: characters under `skip` were already replaced
and are dropped. -/
def pyReplaceAux (pat rep : Str) : Str → Nat → Str
  | [], _ => []
  | _ :: rest, skip + 1 => pyReplaceAux pat rep rest skip
  | c :: rest, 0 =>
    if pat.isPrefixOf (c :: rest) ∧ ¬pat.isEmpty then
      rep ++ pyReplaceAux pat rep rest (pat.length - 1)
    else c :: pyReplaceAux pat rep rest 0

/-- Python `text.replace(pat, rep)` for nonempty `pat`: replace
non-overlapping occurrences left to right. -/
def pyReplace (pat rep : Str) (text : Str) : Str :=
  pyReplaceAux pat rep text 0

/-- Python `text.split('\n')` (as used by `str.split` with an explicit
newline separator: no collapsing of empty parts). -/
def splitNl (s : Str) : List Str :=
  match s with
  | [] => [[]]
  | c :: rest =>
    let parts := splitNl rest
    if c = '\n' then [] :: parts
    else match parts with
      | [] => [[c]]
      | p :: ps => (c :: p) :: ps

/-- Python `'\n'.join(parts)`. -/
def joinNl (parts : List Str) : Str :=
  match parts with
  | [] => []
  | [p] => p
  | p :: rest => p ++ '\n' :: joinNl rest

/-- Python `sep.join(parts)`. -/
def pyJoin (sep : Str) (parts : List Str) : Str :=
  match parts with
  | [] => []
  | [p] => p
  | p :: rest => p ++ sep ++ pyJoin sep rest

/-- Python `text.startswith(pat)`. -/
def pyStarts (pat : Str) (text : Str) : Bool := pat.isPrefixOf text

/-! ## The Python value model

`Value` models the Python values flowing through the codec: strings, ints,
floats, booleans, `None`, lists, tuples, dicts and sets (tuples/`None`/sets
only arise from `ast.literal_eval`).  Python floats are modelled as signed
decimal significand/exponent pairs (`digits × 10^e`); CPython's shortest-repr
printing is reflected by canonical digit strings with no leading or trailing
zeros. -/

/-- Model of a Python float: sign, decimal significand digits (most
significant first), and a power-of-ten exponent, plus infinities and NaN. -/
inductive PyFloat
  | fin (neg : Bool) (digits : Str) (e : Int)
  | inf (neg : Bool)
  | nan
deriving DecidableEq

/-- Model of a Python value. -/
inductive Value
  | vstr (s : Str)
  | vint (n : Int)
  | vfloat (f : PyFloat)
  | vbool (b : Bool)
  | vnone
  | vlist (xs : List Value)
  | vtuple (xs : List Value)
  | vdict (xs : List (Value × Value))
  | vset (xs : List Value)

/-! ### Decimal digits -/

/-- The decimal digit character for `d < 10`. -/
def digitChar (d : Nat) : Char := Char.ofNat (48 + d)

/-- Numeric value of a decimal digit character. -/
def digitVal (c : Char) : Nat := c.toNat - 48

/-- Fueled digit emitter for `natDigits` (any fuel above the digit count
gives the digits; `natDigits` supplies `n + 1`). -/
def natDigitsAux : Nat → Nat → Str
  | 0, _ => []
  | fuel + 1, n =>
    if n < 10 then [digitChar n]
    else natDigitsAux fuel (n / 10) ++ [digitChar (n % 10)]

/-- Decimal digit string of a natural number, most significant first. -/
def natDigits (n : Nat) : Str := natDigitsAux (n + 1) n

/-- Value of a decimal digit string, most significant first. -/
def digitsToNat (ds : Str) : Nat :=
  ds.foldl (fun acc c => acc * 10 + digitVal c) 0

/-- Python `str(n)` for an int. -/
def intStr (n : Int) : Str :=
  if n < 0 then '-' :: natDigits n.natAbs else natDigits n.natAbs

/-! ### Python `int()` parsing

`int(s)` strips whitespace, accepts an optional sign and a nonempty digit
string in which single underscores may appear between digits (ASCII scope). -/

/-- Valid `int()` digit body: digits with single underscores strictly between
digits. -/
def digitsUnderscoreOk (s : Str) : Bool :=
  match s with
  | [] => false
  | c :: _ =>
    c.isDigit && (s.getLast?.all Char.isDigit) &&
    s.all (fun c => c.isDigit || c = '_') && !pyContains (pystr "__") s

/-- Split an optional leading sign off a numeric text (the sign handling
shared by `int()` and `float()`). -/
def signSplit (t : Str) : Bool × Str :=
  match t with
  | '-' :: rest => (true, rest)
  | '+' :: rest => (false, rest)
  | _ => (false, t)

/-- Python `int(s)`: `none` models a raised `ValueError`. -/
def pyIntParse (s : Str) : Option Int :=
  let t := pyStrip s
  let (neg, body) := signSplit t
  if digitsUnderscoreOk body then
    let n : Int := digitsToNat (body.filter (· ≠ '_'))
    some (if neg then -n else n)
  else none

/-! ### Python `float()` parsing and `str()` printing -/

/-- Normalize a raw parsed decimal (`digits × 10^e`) into canonical form:
no leading zeros, no trailing zeros (absorbed into the exponent), zero as
`['0']` with exponent 0. -/
def normFloat (neg : Bool) (digits : Str) (e : Int) : PyFloat :=
  let ds := digits.dropWhile (· = '0')
  if ds.isEmpty then .fin neg ['0'] 0
  else
    let rev := ds.reverse
    let z := rev.takeWhile (· = '0')
    .fin neg ((rev.dropWhile (· = '0')).reverse) (e + z.length)

/-- Split a digit-with-underscores group, validating underscore placement. -/
def digitGroup (s : Str) : Option Str :=
  if digitsUnderscoreOk s then some (s.filter (· ≠ '_')) else none

/-- The exponent handling of `float()` (`none` anywhere models the raised
`ValueError`; ASCII scope; the grammar is
`digits[.digits][e[+|-]digits]`, `.digits`, `digits.`, plus the special
spellings `inf`/`infinity`/`nan`): split off `e[+|-]digits`, reporting the
mantissa text, whether the exponent part (if any) is well formed, and its
value. -/
def expSplit (body : Str) : Str × Bool × Int :=
  match pyFindFrom (pystr "e") (pyLower body) 0 with
  | some i =>
    let epart := body.drop (i + 1)
    let (eneg, edigits) := signSplit epart
    match digitGroup edigits with
    | some ds => (body.take i, true, if eneg then -(digitsToNat ds : Int) else (digitsToNat ds : Int))
    | none => (body.take i, false, (0 : Int))
  | none => (body, true, (0 : Int))

/-- The mantissa handling of `float()`: digits around an optional decimal
point (at least one digit overall). -/
def mantissaParse (neg : Bool) (mant : Str) (expVal : Int) : Option PyFloat :=
  match pyFindFrom (pystr ".") mant 0 with
  | some i =>
    let ip := mant.take i
    let fp := mant.drop (i + 1)
    if ip.isEmpty ∧ fp.isEmpty then none
    else
      match (if ip.isEmpty then some [] else digitGroup ip),
            (if fp.isEmpty then some [] else digitGroup fp) with
      | some ids, some fds =>
        some (normFloat neg (ids ++ fds) (expVal - fds.length))
      | _, _ => none
  | none =>
    match digitGroup mant with
    | some ds => some (normFloat neg ds expVal)
    | none => none

/-- Python `float(s)` (see the grammar note above): strip, split the sign,
check the special spellings, split off the exponent, parse the mantissa. -/
def pyFloatParse (s : Str) : Option PyFloat :=
  let t := pyStrip s
  let (neg, body) := signSplit t
  let low := pyLower body
  if low = pystr "inf" ∨ low = pystr "infinity" then some (.inf neg)
  else if low = pystr "nan" then some .nan
  else
    let (mant, expOk, expVal) := expSplit body
    if !expOk then none
    else mantissaParse neg mant expVal

/-- Pad a digit string to at least two digits (exponent field of `repr`). -/
def pad2 (s : Str) : Str := if s.length < 2 then '0' :: s else s

/-- Python `str(x)` for a float in canonical form, following CPython's
shortest-repr formatting: plain decimal when the decimal exponent is in
`[-4, 15]`, scientific notation otherwise. -/
def pyFloatStr (f : PyFloat) : Str :=
  match f with
  | .nan => pystr "nan"
  | .inf neg => if neg then pystr "-inf" else pystr "inf"
  | .fin neg ds e =>
    let sign : Str := if neg then ['-'] else []
    if ds = ['0'] then sign ++ pystr "0.0"
    else
      let pointPos : Int := ds.length + e
      let ex : Int := pointPos - 1
      if -4 ≤ ex ∧ ex ≤ 15 then
        if 0 ≤ e then sign ++ ds ++ List.replicate e.toNat '0' ++ pystr ".0"
        else if 0 < pointPos then
          sign ++ ds.take pointPos.toNat ++ '.' :: ds.drop pointPos.toNat
        else sign ++ pystr "0." ++ List.replicate (-pointPos).toNat '0' ++ ds
      else
        sign ++ (ds.head?).toList ++
          (if ds.tail.isEmpty then [] else '.' :: ds.tail) ++
          'e' :: (if ex < 0 then '-' else '+') :: pad2 (natDigits ex.natAbs)

/-! ### Python `repr` / `str` printing of values -/

/-- Lowercase hex digit character for `d < 16`. -/
def hexChar (d : Nat) : Char := if d < 10 then digitChar d else Char.ofNat (87 + d)

/-- Escape one character inside a Python string literal quoted by `q`. -/
def escChar (q : Char) (c : Char) : Str :=
  if c = '\\' then pystr "\\\\"
  else if c = q then ['\\', q]
  else if c = '\n' then pystr "\\n"
  else if c = '\x0d' then pystr "\\r"
  else if c = '\t' then pystr "\\t"
  else if c.toNat < 32 ∨ c.toNat = 127 then
    '\\' :: 'x' :: hexChar (c.toNat / 16) :: [hexChar (c.toNat % 16)]
  else [c]

/-- Python `repr` of a string (ASCII scope): single quotes by default, double
quotes when the text contains `'` but no `"`. -/
def reprStr (s : Str) : Str :=
  let q : Char := if s.contains '\'' ∧ ¬s.contains '"' then '"' else '\''
  q :: s.flatMap (escChar q) ++ [q]

mutual

/-- Python `repr(v)` (ASCII scope; containers use `repr` of elements). -/
def pyRepr : Value → Str
  | .vstr s => reprStr s
  | .vint n => intStr n
  | .vfloat f => pyFloatStr f
  | .vbool b => if b then pystr "True" else pystr "False"
  | .vnone => pystr "None"
  | .vlist xs => '[' :: (pyReprSeq xs ++ [']'])
  | .vtuple [] => pystr "()"
  | .vtuple [x] => '(' :: (pyRepr x ++ pystr ",)")
  | .vtuple (x :: y :: rest) => '(' :: (pyReprSeq (x :: y :: rest) ++ [')'])
  | .vdict xs => '{' :: (pyReprPairs xs ++ ['}'])
  | .vset [] => pystr "set()"
  | .vset (x :: rest) => '{' :: (pyReprSeq (x :: rest) ++ ['}'])

/-- Comma-separated `repr`s of a sequence's elements. -/
def pyReprSeq : List Value → Str
  | [] => []
  | [x] => pyRepr x
  | x :: y :: rest => pyRepr x ++ pystr ", " ++ pyReprSeq (y :: rest)

/-- Comma-separated `repr(k): repr(v)` pairs of a dict. -/
def pyReprPairs : List (Value × Value) → Str
  | [] => []
  | [(k, v)] => pyRepr k ++ pystr ": " ++ pyRepr v
  | (k, v) :: p :: rest =>
    pyRepr k ++ pystr ": " ++ pyRepr v ++ pystr ", " ++ pyReprPairs (p :: rest)

end

/-- Python `str(v)`: the string itself for strings, `repr` otherwise. -/
def pyStr (v : Value) : Str :=
  match v with
  | .vstr s => s
  | _ => pyRepr v

/-! ### `ast.literal_eval` model

A recursive-descent parser for Python literal expressions: numbers (with an
optional single unary sign), quoted strings (single-line, `'`/`"` quotes,
the usual backslash escapes), `True`/`False`/`None`, lists, tuples, dicts
and sets, with trailing commas.  Fuel makes nesting recursion structural;
`literalEval` supplies enough fuel for its input.  `none` models a raised
`ValueError`/`SyntaxError` (both are caught by every caller in the source). -/

/-- Skip whitespace (the tokenizer's inter-token whitespace). -/
def skipWs (s : Str) : Str := s.dropWhile isPySpace

/-- The numeric-token scanner, split into pieces: a token is
digits/underscores, an optional decimal point with more
digits/underscores, and an optional exponent part; `scanNumber` returns
the token and the rest of the input.  `dotSplit` takes the optional
decimal point. -/
def dotSplit (s1 : Str) : Str × Str :=
  match s1 with
  | '.' :: r => (['.'] , r)
  | _ => ([], s1)

/-- The optional sign of an exponent part, kept as text. -/
def expSign (r : Str) : Str × Str :=
  match r with
  | '+' :: r2 => (['+'], r2)
  | '-' :: r2 => (['-'], r2)
  | _ => ([], r)

/-- The optional exponent part of a numeric token (`e`/`E`, an optional
sign, then at least one digit/underscore). -/
def expScan (s3 : Str) : Str × Str :=
  match s3 with
  | 'e' :: r | 'E' :: r =>
    let (sgn, r1) := expSign r
    let eds := r1.takeWhile (fun c => c.isDigit || c = '_')
    if eds.isEmpty then ([], s3)
    else ((s3.take 1) ++ sgn ++ eds, r1.drop eds.length)
  | _ => ([], s3)

/-- Scan a numeric token (see the doc comment above): integer part,
optional decimal point and fraction part, optional exponent part. -/
def scanNumber (s : Str) : Str × Str :=
  let isd : Char → Bool := fun c => c.isDigit || c = '_'
  let ip := s.takeWhile isd
  let s1 := s.drop ip.length
  let (dot, s2) := dotSplit s1
  let fp := s2.takeWhile isd
  let s3 := s2.drop fp.length
  let (ep, s4) := expScan s3
  (ip ++ dot ++ fp ++ ep, s4)

/-- Parse a numeric token into an int or float value. -/
def parseNumToken (tok : Str) : Option Value :=
  if tok.isEmpty then none
  else if tok.contains '.' ∨ tok.contains 'e' ∨ tok.contains 'E' then
    (pyFloatParse tok).map .vfloat
  else (pyIntParse tok).map .vint

/-- Parse the body of a quoted string literal (after the opening quote `q`)
up to the closing quote, decoding backslash escapes; unknown escapes keep
the backslash, as in Python. -/
def scanStrBody (q : Char) : Nat → Str → Option (Str × Str)
  | 0, _ => none
  | _ + 1, [] => none
  | _ + 1, '\n' :: _ => none
  | fuel + 1, '\\' :: rest =>
    (match rest with
     | [] => none
     | e :: r2 =>
       let dec : Option Str :=
         if e = 'n' then some (pystr "\n")
         else if e = 't' then some (pystr "\t")
         else if e = 'r' then some (pystr "\x0d")
         else if e = '\\' then some (pystr "\\")
         else if e = '\'' then some (pystr "'")
         else if e = '"' then some (pystr "\"")
         else if e = 'a' then some [Char.ofNat 7]
         else if e = 'b' then some [Char.ofNat 8]
         else if e = 'f' then some [Char.ofNat 12]
         else if e = 'v' then some [Char.ofNat 11]
         else if e = '0' then some [Char.ofNat 0]
         else none
       match dec with
       | some d => (scanStrBody q fuel r2).map fun (b, r) => (d ++ b, r)
       | none =>
         if e = 'x' then
           match r2 with
           | h1 :: h2 :: r3 =>
             let isHex : Char → Bool := fun c =>
               c.isDigit || ('a' ≤ c.toLower ∧ c.toLower ≤ 'f')
             if isHex h1 ∧ isHex h2 then
               let n := (if h1.isDigit then digitVal h1 else h1.toLower.toNat - 87) * 16 +
                        (if h2.isDigit then digitVal h2 else h2.toLower.toNat - 87)
               (scanStrBody q fuel r3).map fun (b, r) => (Char.ofNat n :: b, r)
             else none
           | _ => none
         else (scanStrBody q fuel r2).map fun (b, r) => ('\\' :: e :: b, r))
  | fuel + 1, c :: rest =>
    if c = q then some ([], rest)
    else (scanStrBody q fuel rest).map fun (b, r) => (c :: b, r)

mutual

/-- Parse one literal expression from the front of the input. -/
def parseLit : Nat → Str → Option (Value × Str)
  | 0, _ => none
  | fuel + 1, s =>
    let t := skipWs s
    match t with
    | [] => none
    | '-' :: r | '+' :: r =>
      -- a single unary sign applied to a numeric literal
      let r1 := skipWs r
      let (tok, rest) := scanNumber r1
      match parseNumToken tok with
      | some v =>
        if t.head? = some '-' then
          match v with
          | .vint n => some (.vint (-n), rest)
          | .vfloat (.fin ng ds e) => some (.vfloat (.fin (!ng) ds e), rest)
          | .vfloat (.inf ng) => some (.vfloat (.inf (!ng)), rest)
          | .vfloat .nan => some (.vfloat .nan, rest)
          | _ => none
        else some (v, rest)
      | none => none
    | '\'' :: r => (scanStrBody '\'' (r.length + 1) r).map fun (b, rest) => (.vstr b, rest)
    | '"' :: r => (scanStrBody '"' (r.length + 1) r).map fun (b, rest) => (.vstr b, rest)
    | '[' :: r =>
      (match skipWs r with
       | ']' :: r2 => some (.vlist [], r2)
       | _ => (parseSeq fuel ']' r).map fun (xs, rest) => (.vlist xs, rest))
    | '(' :: r =>
      (match skipWs r with
       | ')' :: r2 => some (.vtuple [], r2)
       | _ =>
         match parseLit fuel r with
         | none => none
         | some (x, r2) =>
           match skipWs r2 with
           | ')' :: r3 => some (x, r3)  -- parenthesized expression, not a tuple
           | ',' :: r3 =>
             (match skipWs r3 with
              | ')' :: r4 => some (.vtuple [x], r4)
              | _ => (parseSeq fuel ')' r3).map fun (xs, rest) => (.vtuple (x :: xs), rest))
           | _ => none)
    | '{' :: r =>
      (match skipWs r with
       | '}' :: r2 => some (.vdict [], r2)
       | _ =>
         match parseLit fuel r with
         | none => none
         | some (k, r2) =>
           match skipWs r2 with
           | ':' :: r3 =>
             (match parseLit fuel r3 with
              | none => none
              | some (v, r4) =>
                match skipWs r4 with
                | '}' :: r5 => some (.vdict [(k, v)], r5)
                | ',' :: r5 =>
                  (match skipWs r5 with
                   | '}' :: r6 => some (.vdict [(k, v)], r6)
                   | _ => (parsePairs fuel r5).map fun (ps, rest) => (.vdict ((k, v) :: ps), rest))
                | _ => none)
           | '}' :: r3 => some (.vset [k], r3)
           | ',' :: r3 =>
             (match skipWs r3 with
              | '}' :: r4 => some (.vset [k], r4)
              | _ => (parseSeq fuel '}' r3).map fun (xs, rest) => (.vset (k :: xs), rest))
           | _ => none)
    | _ =>
      if pyStarts (pystr "True") t then some (.vbool true, t.drop 4)
      else if pyStarts (pystr "False") t then some (.vbool false, t.drop 5)
      else if pyStarts (pystr "None") t then some (.vnone, t.drop 4)
      else
        let (tok, rest) := scanNumber t
        match parseNumToken tok with
        | some v => some (v, rest)
        | none => none

/-- Parse the remaining comma-separated elements of a sequence up to the
closing bracket `close` (trailing comma allowed). -/
def parseSeq : Nat → Char → Str → Option (List Value × Str)
  | 0, _, _ => none
  | fuel + 1, close, s =>
    match parseLit fuel s with
    | none => none
    | some (x, r) =>
      match skipWs r with
      | c :: r2 =>
        if c = close then some ([x], r2)
        else if c = ',' then
          match skipWs r2 with
          | c2 :: r3 =>
            if c2 = close then some ([x], r3)
            else (parseSeq fuel close r2).map fun (xs, rest) => (x :: xs, rest)
          | [] => none
        else none
      | [] => none

/-- Parse the remaining `key: value` pairs of a dict display (trailing comma
allowed). -/
def parsePairs : Nat → Str → Option (List (Value × Value) × Str)
  | 0, _ => none
  | fuel + 1, s =>
    match parseLit fuel s with
    | none => none
    | some (k, r) =>
      match skipWs r with
      | ':' :: r2 =>
        (match parseLit fuel r2 with
         | none => none
         | some (v, r3) =>
           match skipWs r3 with
           | '}' :: r4 => some ([(k, v)], r4)
           | ',' :: r4 =>
             (match skipWs r4 with
              | '}' :: r5 => some ([(k, v)], r5)
              | _ => (parsePairs fuel r4).map fun (ps, rest) => ((k, v) :: ps, rest))
           | _ => none)
      | _ => none

end

/-- `ast.literal_eval(s)`: parse a complete literal expression, requiring
only whitespace afterwards. -/
def literalEval (s : Str) : Option Value :=
  match parseLit (s.length + 1) s with
  | some (v, rest) => if (skipWs rest).isEmpty then some v else none
  | none => none

/-! ### Literal coercion (`parse_value`)

Defined identically, inline, in `XMLToolCallExtractor._parse_single_call`
and `MDToolCallExtractor._parse_single_call`; embedded once. -/

/-- `parse_value(s)` from `xml_tool_call_extractor.py` /
`md_tool_call_extractor.py`: strip, then try booleans, int, float, a literal
structure (kept only when it is a list or dict), and finally fall back to
the stripped string itself. -/
def parseValue (s : Str) : Value :=
  let t := pyStrip s
  if pyLower t = pystr "true" then .vbool true
  else if pyLower t = pystr "false" then .vbool false
  else
    match pyIntParse t with
    | some n => .vint n
    | none =>
      match pyFloatParse t with
      | some f => .vfloat f
      | none =>
        match literalEval t with
        | some (.vlist xs) => .vlist xs
        | some (.vdict xs) => .vdict xs
        | _ => .vstr t

/-! ## Shared extractor machinery

`ToolError` from `abc/tool_call_extractor.py`; block discovery is the
`re.finditer(start + "(.*?)" + end, text, re.DOTALL)` loop shared by the
XML and MD extractors (and strategy 1 of the JSON extractor). -/

/-- The closed error enum from `abc/tool_call_extractor.py`. -/
inductive ToolError
  | TOOL_START_MISSING
  | TOOL_END_MISSING
  | TOOL_MALFORMATTED
  | TOOL_DUPLICATE_ARGUMENT
deriving DecidableEq

/-- A parsed tool call: the `{"name": ..., "arguments": {...}}` dict produced
by `_parse_single_call` (arguments keep insertion order, as Python dicts do). -/
structure ToolCall where
  name : Str
  args : List (Str × Value)

/-- `pyFindFrom` only finds positions at or after the start index. -/
theorem pyFindFrom_go_ge (pat : Str) : ∀ (t : Str) (i j : Nat),
    pyFindFrom.go pat t i = some j → i ≤ j := by
  intro t
  induction t with
  | nil =>
    intro i j h
    unfold pyFindFrom.go at h
    by_cases hp : pat.isPrefixOf [] <;> simp [hp] at h
    omega
  | cons c rest ih =>
    intro i j h
    unfold pyFindFrom.go at h
    by_cases hp : pat.isPrefixOf (c :: rest)
    · simp [hp] at h; omega
    · simp [hp] at h
      have := ih (i + 1) j h
      omega

/-- A successful `pyFindFrom.go` finds an actual occurrence of the pattern. -/
theorem pyFindFrom_go_prefix (pat : Str) : ∀ (t : Str) (i j : Nat),
    pyFindFrom.go pat t i = some j → pat.isPrefixOf (t.drop (j - i)) := by
  intro t
  induction t with
  | nil =>
    intro i j h
    unfold pyFindFrom.go at h
    by_cases hp : pat.isPrefixOf [] <;> simp [hp] at h
    · obtain rfl := h; simpa using hp
  | cons c rest ih =>
    intro i j h
    unfold pyFindFrom.go at h
    by_cases hp : pat.isPrefixOf (c :: rest)
    · simp [hp] at h; obtain rfl := h; simpa using hp
    · simp [hp] at h
      have h2 := ih (i + 1) j h
      have hge := pyFindFrom_go_ge pat rest (i + 1) j h
      have : j - i = (j - (i + 1)) + 1 := by omega
      rw [this]
      simpa using h2

/-- Occurrences found by `pyFindFrom` start at or after the start index. -/
theorem pyFindFrom_ge (pat t : Str) (s j : Nat) (h : pyFindFrom pat t s = some j) :
    s ≤ j :=
  pyFindFrom_go_ge pat (t.drop s) s j h

/-- Occurrences found by `pyFindFrom` are genuine: the pattern is a prefix of
the text dropped at the found index. -/
theorem pyFindFrom_prefix (pat t : Str) (s j : Nat) (h : pyFindFrom pat t s = some j) :
    pat.isPrefixOf (t.drop j) := by
  have h1 := pyFindFrom_go_prefix pat (t.drop s) s j h
  have h2 := pyFindFrom_go_ge pat (t.drop s) s j h
  rw [List.drop_drop] at h1
  have : s + (j - s) = j := by omega
  rwa [this] at h1

/-- A prefix is no longer than the whole. -/
theorem isPrefixOf_length {p t : Str} (h : p.isPrefixOf t) : p.length ≤ t.length := by
  have := List.isPrefixOf_iff_prefix.mp h
  exact this.length_le

/-- A found occurrence of a nonempty pattern ends within the text. -/
theorem pyFindFrom_bound (pat t : Str) (s j : Nat) (hne : ¬pat.isEmpty)
    (h : pyFindFrom pat t s = some j) : j + pat.length ≤ t.length := by
  have hp := pyFindFrom_prefix pat t s j h
  have hl := isPrefixOf_length hp
  rw [List.length_drop] at hl
  rcases pat with _ | ⟨c, rest⟩
  · simp at hne
  · simp at hl ⊢
    by_cases hj : j ≤ t.length
    · omega
    · rw [List.drop_eq_nil_of_le (by omega)] at hp
      simp [List.isPrefixOf] at hp

/-- All `start ... end` spans found by
`re.finditer(escape(start) + "(.*?)" + escape(end), text, re.DOTALL)`, in
order, as `(span start, inner content, span end)` triples, scanning from
`pos`.  The lazy `(.*?)` pairs each start-marker occurrence with the first
end-marker occurrence after it; spans do not overlap.  Fueled: each step
advances the scan position, so `text.length + 1` fuel always suffices. -/
def findBlocksF (ts te text : Str) : Nat → Nat → List (Nat × Str × Nat)
  | 0, _ => []
  | fuel + 1, pos =>
    if ts.isEmpty ∨ te.isEmpty then []
    else
      match pyFindFrom ts text pos with
      | none => []
      | some i =>
        match pyFindFrom te text (i + ts.length) with
        | none => []
        | some j =>
          let inner := (text.take j).drop (i + ts.length)
          (i, inner, j + te.length) :: findBlocksF ts te text fuel (j + te.length)

/-- `re.finditer` over the whole text. -/
def findBlocks (ts te text : Str) : List (Nat × Str × Nat) :=
  findBlocksF ts te text (text.length + 1) 0

/-- The contiguity merge: keep following spans while the text strictly
between consecutive kept spans has no non-whitespace characters. -/
def takeContiguous (text : Str) (prevEnd : Nat) : List (Nat × Str × Nat) → List (Nat × Str × Nat)
  | [] => []
  | m :: rest =>
    let intervening := (text.take m.1).drop prevEnd
    if (pyStrip intervening).isEmpty then m :: takeContiguous text m.2.2 rest
    else []

/-- The adjusted end-marker count of the mismatched-tag pre-check: when the
end marker is a substring of the start marker, each start occurrence's
embedded end occurrences are subtracted. -/
def adjEnds (ts te text : Str) : Int :=
  if 0 < (pyCount ts text : Int) ∧ pyContains te ts then
    (pyCount te text : Int) - (pyCount ts text : Int) * pyCount te ts
  else (pyCount te text : Int)

/-- The mismatched-tag pre-check shared verbatim by `XMLToolCallExtractor`
and `MDToolCallExtractor` (`extract`, first lines): count markers, adjust
for end markers embedded in the start marker, and report
`TOOL_END_MISSING`/`TOOL_START_MISSING` on imbalance. -/
def tagBalance (ts te text : Str) : Option ToolError :=
  if (pyCount ts text : Int) > adjEnds ts te text then some .TOOL_END_MISSING
  else if adjEnds ts te text > (pyCount ts text : Int) then some .TOOL_START_MISSING
  else none

/-! ## The XML (tag-delimited) extractor and builder -/

/-- The builder's XML escaping (`xml_tool_call_builder.py`): five sequential
`str.replace` calls. -/
def xmlEscape (s : Str) : Str :=
  pyReplace (pystr "'") (pystr "&apos;")
    (pyReplace (pystr "\"") (pystr "&quot;")
      (pyReplace (pystr ">") (pystr "&gt;")
        (pyReplace (pystr "<") (pystr "&lt;")
          (pyReplace (pystr "&") (pystr "&amp;") s))))

/-- The extractor's `unescape_xml` (`xml_tool_call_extractor.py`): five
sequential `str.replace` calls, in dict insertion order. -/
def xmlUnescape (s : Str) : Str :=
  pyReplace (pystr "&apos;") (pystr "'")
    (pyReplace (pystr "&quot;") (pystr "\"")
      (pyReplace (pystr "&gt;") (pystr ">")
        (pyReplace (pystr "&lt;") (pystr "<")
          (pyReplace (pystr "&amp;") (pystr "&") s))))

/-- `XMLToolCallBuilder.build` for a single call: `<name>` line then one
`<key>escaped(str(value))</key>` line per argument, wrapped in the
start/end markers. -/
def xmlBuildCall (ts te : Str) (c : ToolCall) : Str :=
  let argLines : List Str :=
    c.args.map fun kv =>
      '<' :: kv.1 ++ '>' :: xmlEscape (pyStr kv.2) ++ '<' :: '/' :: kv.1 ++ [ '>' ]
  let lines : List Str :=
    (pystr "<name>" ++ c.name ++ pystr "</name>") :: argLines
  ts ++ '\n' :: joinNl lines ++ '\n' :: te

/-- `XMLToolCallBuilder.build`: each call rendered and joined by newlines. -/
def xmlBuild (ts te : Str) (calls : List ToolCall) : Str :=
  joinNl (calls.map (xmlBuildCall ts te))

/-- `[a-zA-Z0-9_]`, the tag-name character class of the element regex. -/
def isTagChar (c : Char) : Bool := c.isAlphanum || c = '_'

/-- `re.findall(r"<([a-zA-Z0-9_]+)>(.*?)</\1>", input, re.DOTALL)`: scan left
to right; at each `<`, read a maximal nonempty tag-name run followed by `>`,
then pair it with the first matching close tag; on failure advance one
character; matches do not overlap. -/
def findElementsAux : Str → Nat → List (Str × Str)
  | [], _ => []
  | _ :: rest, skip + 1 => findElementsAux rest skip
  | c :: rest, 0 =>
    if c = '<' then
      let tag := rest.takeWhile isTagChar
      if tag.isEmpty then findElementsAux rest 0
      else
        match rest.drop tag.length with
        | '>' :: r2 =>
          let closeTag := '<' :: '/' :: tag ++ [ '>' ]
          match pyFindFrom closeTag r2 0 with
          | some j =>
            (tag, r2.take j) :: findElementsAux rest (tag.length + 1 + j + closeTag.length)
          | none => findElementsAux rest 0
        | _ => findElementsAux rest 0
    else findElementsAux rest 0

/-- The element regex scan over the whole block interior. -/
def findElements (s : Str) : List (Str × Str) := findElementsAux s 0

/-- Errors raised by `_parse_single_call`: `DuplicateArgumentError` or any
other exception (`ValueError`/`KeyError`), which `extract` maps to
`TOOL_DUPLICATE_ARGUMENT` / `TOOL_MALFORMATTED` respectively. -/
inductive ParseErr
  | dup
  | other
deriving DecidableEq

/-- Argument-collection loop of `XMLToolCallExtractor._parse_single_call`:
walk the elements after `<name>`, raising on a repeated tag, coercing each
unescaped content. -/
def xmlCollectArgs (nm : Str) : List (Str × Str) → List Str → List (Str × Value) →
    Except ParseErr ToolCall
  | [], _, acc => .ok ⟨nm, acc⟩
  | (tag, content) :: rest, seen, acc =>
    if seen.contains tag then .error .dup
    else xmlCollectArgs nm rest (tag :: seen) (acc ++ [(tag, parseValue (xmlUnescape content))])

/-- `XMLToolCallExtractor._parse_single_call`. -/
def xmlParseSingleCall (input : Str) : Except ParseErr ToolCall :=
  match findElements input with
  | [] => .error .other
  | (tag0, content0) :: restEls =>
    if tag0 ≠ pystr "name" then .error .other
    else
      let nameValue := xmlUnescape (pyStrip content0)
      if nameValue.isEmpty then .error .other
      else xmlCollectArgs nameValue restEls [] []

/-- Per-match loop of `XMLToolCallExtractor.extract`: empty content is
`TOOL_MALFORMATTED` (and the loop continues), parse failures map to their
error kind, successes accumulate in order. -/
def xmlProcessMatches : List (Nat × Str × Nat) → List ToolCall × List ToolError
  | [] => ([], [])
  | m :: rest =>
    let (calls, errs) := xmlProcessMatches rest
    let content := pyStrip m.2.1
    if content.isEmpty then (calls, .TOOL_MALFORMATTED :: errs)
    else
      match xmlParseSingleCall content with
      | .ok c => (c :: calls, errs)
      | .error .dup => (calls, .TOOL_DUPLICATE_ARGUMENT :: errs)
      | .error .other => (calls, .TOOL_MALFORMATTED :: errs)

/-- `XMLToolCallExtractor.extract`. -/
def xmlExtract (ts te : Str) (responseStr : Str) : Str × List ToolCall × List ToolError :=
  match tagBalance ts te responseStr with
  | some e => (responseStr, [], [e])
  | none =>
    match findBlocks ts te responseStr with
    | [] => (responseStr, [], [])
    | m0 :: rest =>
      let contiguous := m0 :: takeContiguous responseStr m0.2.2 rest
      let cleaned := pyStrip (responseStr.take m0.1)
      let (calls, errs) := xmlProcessMatches contiguous
      if errs.isEmpty then (cleaned, calls, [])
      else (responseStr, [], errs)

/-! ## The Markdown-heading extractor -/

/-- State of the line loop in `MDToolCallExtractor._parse_single_call`:
the current parameter (if any), its value lines so far, and the collected
arguments in insertion order. -/
structure MDState where
  currentParam : Option Str
  currentValue : List Str
  args : List (Str × Value)

/-- Save the pending parameter: join its lines, strip, coerce. -/
def mdSave (st : MDState) : List (Str × Value) :=
  match st.currentParam with
  | none => st.args
  | some p => st.args ++ [(p, parseValue (pyStrip (joinNl st.currentValue)))]

/-- One line of the parameter loop of `MDToolCallExtractor._parse_single_call`. -/
def mdStep (st : MDState) (line : Str) : Except ParseErr MDState :=
  if pyStarts (pystr "### ") line then
    let args' := mdSave st
    let paramLine := line.drop 4
    match
      (if pyContains (pystr ":") paramLine then
        match pyFindFrom (pystr ":") paramLine 0 with
        | some i => some (paramLine.take i, paramLine.drop (i + 1))
        | none => none
      else if (pyStrip paramLine).getLast? = some ':' then
        some ((pyStrip paramLine).dropLast, [])
      else none) with
    | none => .error .other
    | some (pname, pval) =>
      let p := pyStrip pname
      if (args'.map Prod.fst).contains p then .error .dup
      else .ok ⟨some p, [pval], args'⟩
  else
    match st.currentParam with
    | none =>
      if (pyStrip line).isEmpty then .ok st else .error .other
    | some _ => .ok { st with currentValue := st.currentValue ++ [line] }

/-- Fold `mdStep` over the remaining lines. -/
def mdLoop (st : MDState) : List Str → Except ParseErr MDState
  | [] => .ok st
  | l :: rest =>
    match mdStep st l with
    | .ok st' => mdLoop st' rest
    | .error e => .error e

/-- `MDToolCallExtractor._parse_single_call`. -/
def mdParseSingleCall (input : Str) : Except ParseErr ToolCall :=
  let lines := splitNl input
  let rest := lines.dropWhile (fun l => (pyStrip l).isEmpty)
  match rest with
  | [] => .error .other
  | first :: others =>
    if ¬pyStarts (pystr "## Name: ") first then .error .other
    else
      let nm := pyStrip (first.drop (pystr "## Name: ").length)
      match mdLoop ⟨none, [], []⟩ others with
      | .error e => .error e
      | .ok st => .ok ⟨nm, mdSave st⟩

/-- Per-match loop of `MDToolCallExtractor.extract`. -/
def mdProcessMatches : List (Nat × Str × Nat) → List ToolCall × List ToolError
  | [] => ([], [])
  | m :: rest =>
    let (calls, errs) := mdProcessMatches rest
    if (pyStrip m.2.1).isEmpty then (calls, .TOOL_MALFORMATTED :: errs)
    else
      match mdParseSingleCall (pyStrip m.2.1) with
      | .ok c => (c :: calls, errs)
      | .error .dup => (calls, .TOOL_DUPLICATE_ARGUMENT :: errs)
      | .error .other => (calls, .TOOL_MALFORMATTED :: errs)

/-- `MDToolCallExtractor.extract`: identical block machinery to the XML
extractor, with the line-oriented per-block parser. -/
def mdExtract (ts te : Str) (responseStr : Str) : Str × List ToolCall × List ToolError :=
  match tagBalance ts te responseStr with
  | some e => (responseStr, [], [e])
  | none =>
    match findBlocks ts te responseStr with
    | [] => (responseStr, [], [])
    | m0 :: rest =>
      let contiguous := m0 :: takeContiguous responseStr m0.2.2 rest
      let cleaned := pyStrip (responseStr.take m0.1)
      let (calls, errs) := mdProcessMatches contiguous
      if errs.isEmpty then (cleaned, calls, [])
      else (responseStr, [], errs)

/-! ## `json.loads` model

A strict JSON parser producing `Value`s: objects become `vdict`s with string
keys; a duplicate object key silently overwrites the earlier value (keeping
its position), exactly as Python's `dict`-building scanner does.  Python's
`json` also accepts `NaN`/`Infinity`/`-Infinity`.  `none` models a raised
`json.JSONDecodeError`. -/

/-- JSON inter-token whitespace (space, tab, newline, carriage return). -/
def isJsonWs (c : Char) : Bool := c = ' ' || c = '\t' || c = '\n' || c = '\x0d'

/-- Skip JSON whitespace. -/
def jWs (s : Str) : Str := s.dropWhile isJsonWs

/-- Insert into an object in scanner order: a repeated key overwrites the
earlier value in place. -/
def objInsert (xs : List (Str × Value)) (k : Str) (v : Value) : List (Str × Value) :=
  match xs with
  | [] => [(k, v)]
  | (k', v') :: rest => if k' = k then (k', v) :: rest else (k', v') :: objInsert rest k v

/-- Parse a JSON string body after the opening quote. -/
def jStrBody : Nat → Str → Option (Str × Str)
  | 0, _ => none
  | _ + 1, [] => none
  | fuel + 1, c :: rest =>
    if c = '"' then some ([], rest)
    else if c = '\\' then
      match rest with
      | [] => none
      | e :: r2 =>
        let dec : Option Str :=
          if e = '"' then some ['"']
          else if e = '\\' then some ['\\']
          else if e = '/' then some ['/']
          else if e = 'b' then some [Char.ofNat 8]
          else if e = 'f' then some [Char.ofNat 12]
          else if e = 'n' then some ['\n']
          else if e = 'r' then some ['\x0d']
          else if e = 't' then some ['\t']
          else none
        match dec with
        | some d => (jStrBody fuel r2).map fun (b, r) => (d ++ b, r)
        | none =>
          if e = 'u' then
            match r2 with
            | h1 :: h2 :: h3 :: h4 :: r3 =>
              let hexv : Char → Option Nat := fun h =>
                if h.isDigit then some (digitVal h)
                else if 'a' ≤ h.toLower ∧ h.toLower ≤ 'f' then some (h.toLower.toNat - 87)
                else none
              match hexv h1, hexv h2, hexv h3, hexv h4 with
              | some a, some b, some c', some d =>
                (jStrBody fuel r3).map fun (bd, r) =>
                  (Char.ofNat (((a * 16 + b) * 16 + c') * 16 + d) :: bd, r)
              | _, _, _, _ => none
            | _ => none
          else none
    else if c.toNat < 32 then none
    else (jStrBody fuel rest).map fun (b, r) => (c :: b, r)

/-- Scan a JSON number per the RFC grammar: `-?(0|[1-9][0-9]*)` with optional
fraction and exponent; ints without fraction/exponent stay ints, the rest
become floats (as in Python's `json`). -/
def jNumber (s : Str) : Option (Value × Str) :=
  let (neg, s1) := match s with | '-' :: r => (true, r) | _ => (false, s)
  let ip := s1.takeWhile Char.isDigit
  if ip.isEmpty then none
  else if ip.length > 1 ∧ ip.head? = some '0' then none
  else
    let s2 := s1.drop ip.length
    let (fp, s3) :=
      match s2 with
      | '.' :: r =>
        let ds := r.takeWhile Char.isDigit
        if ds.isEmpty then ([], s2) else (ds, r.drop ds.length)
      | _ => ([], s2)
    let hadDot : Bool := ¬fp.isEmpty
    let (hasExp, expVal, s4) :=
      match s3 with
      | 'e' :: r | 'E' :: r =>
        let (eneg, r1) := match r with | '+' :: r2 => (false, r2) | '-' :: r2 => (true, r2) | _ => (false, r)
        let eds := r1.takeWhile Char.isDigit
        if eds.isEmpty then (false, (0 : Int), s3)
        else (true, (if eneg then -(digitsToNat eds : Int) else (digitsToNat eds : Int)), r1.drop eds.length)
      | _ => (false, (0 : Int), s3)
    -- a dot without digits after it is not consumed (the scanner regex
    -- requires `\.\d+`), leaving it as trailing data
    if hadDot ∨ hasExp then some (.vfloat (normFloat neg (ip ++ fp) (expVal - fp.length)), s4)
    else some (.vint (let n : Int := digitsToNat ip; if neg then -n else n), s4)

mutual

/-- Parse one JSON value from the front of the input. -/
def jVal : Nat → Str → Option (Value × Str)
  | 0, _ => none
  | fuel + 1, s =>
    let t := jWs s
    match t with
    | [] => none
    | '"' :: r => (jStrBody (r.length + 1) r).map fun (b, rest) => (.vstr b, rest)
    | '{' :: r =>
      (match jWs r with
       | '}' :: r2 => some (.vdict [], r2)
       | _ => (jMembers fuel r []).map fun (ps, rest) =>
           (.vdict (ps.map fun kv => (.vstr kv.1, kv.2)), rest))
    | '[' :: r =>
      (match jWs r with
       | ']' :: r2 => some (.vlist [], r2)
       | _ => (jItems fuel r).map fun (xs, rest) => (.vlist xs, rest))
    | _ =>
      if pyStarts (pystr "true") t then some (.vbool true, t.drop 4)
      else if pyStarts (pystr "false") t then some (.vbool false, t.drop 5)
      else if pyStarts (pystr "null") t then some (.vnone, t.drop 4)
      else if pyStarts (pystr "NaN") t then some (.vfloat .nan, t.drop 3)
      else if pyStarts (pystr "Infinity") t then some (.vfloat (.inf false), t.drop 8)
      else if pyStarts (pystr "-Infinity") t then some (.vfloat (.inf true), t.drop 9)
      else jNumber t

/-- Parse the members of a JSON object (after `{`, at least one member). -/
def jMembers : Nat → Str → List (Str × Value) → Option (List (Str × Value) × Str)
  | 0, _, _ => none
  | fuel + 1, s, acc =>
    match jWs s with
    | '"' :: r =>
      (match jStrBody (r.length + 1) r with
       | none => none
       | some (k, r2) =>
         match jWs r2 with
         | ':' :: r3 =>
           (match jVal fuel r3 with
            | none => none
            | some (v, r4) =>
              let acc' := objInsert acc k v
              match jWs r4 with
              | '}' :: r5 => some (acc', r5)
              | ',' :: r5 => jMembers fuel r5 acc'
              | _ => none)
         | _ => none)
    | _ => none

/-- Parse the items of a JSON array (after `[`, at least one item). -/
def jItems : Nat → Str → Option (List Value × Str)
  | 0, _ => none
  | fuel + 1, s =>
    match jVal fuel s with
    | none => none
    | some (x, r) =>
      match jWs r with
      | ']' :: r2 => some ([x], r2)
      | ',' :: r2 => (jItems fuel r2).map fun (xs, rest) => (x :: xs, rest)
      | _ => none

end

/-- `json.loads(s)`: a complete JSON value with only whitespace around it. -/
def jsonLoads (s : Str) : Option Value :=
  match jVal (s.length + 1) s with
  | some (v, rest) => if (jWs rest).isEmpty then some v else none
  | none => none

/-! ## The JSON-fenced extractor (`json_tool_call_extractor.py`)

`JSONToolCallExtractor.extract` differs structurally from the XML/MD
extractors: no tag-balance check, no contiguity merge, and its per-block
error path reads `ToolError.TOOL_SYNTAX_MISMATCH` — an attribute the
`ToolError` enum does not define, so reaching it raises `AttributeError`.
The embedding returns `Except PyExc` to model that raised exception. -/

/-- An exception escaping `extract` (the only one reachable is the
`AttributeError` from the nonexistent `ToolError.TOOL_SYNTAX_MISMATCH`). -/
inductive PyExc
  | attributeError
deriving DecidableEq

/-- Matches of the strategy-2 fence regex
`` r"```(?:json)?\s*([\s\S]*?)\s*```" `` from `pos`, as
`(match start, group 1, match end)`: at each ` ``` `, optionally consume
`json`, then pair with the first closing ` ``` `; the greedy `\s*`s strip
the group's surrounding whitespace. -/
def fenceBlocksF (text : Str) : Nat → Nat → List (Nat × Str × Nat)
  | 0, _ => []
  | fuel + 1, pos =>
    match pyFindFrom (pystr "```") text pos with
    | none => []
    | some i =>
      let j0 := i + 3 + (if pyStarts (pystr "json") (text.drop (i + 3)) then 4 else 0)
      match pyFindFrom (pystr "```") text j0 with
      | none => []
      | some q =>
        let grp := pyStrip ((text.take q).drop j0)
        (i, grp, q + 3) :: fenceBlocksF text fuel (q + 3)

/-- Strategy-2 fence matches over the whole response. -/
def fenceBlocks (text : Str) : List (Nat × Str × Nat) :=
  fenceBlocksF text (text.length + 1) 0

/-- `"name" in parsed` for a parsed JSON dict (string-key membership). -/
def hasNameKey (d : List (Value × Value)) : Bool :=
  d.any fun kv =>
    match kv.1 with
    | .vstr s => s = pystr "name"
    | _ => false

/-- The strategy-2 heuristic: a list of dicts each having a `"name"` key, or
a dict having a `"name"` key. -/
def isToolHeur (v : Value) : Bool :=
  match v with
  | .vlist xs =>
    xs.all fun x =>
      match x with
      | .vdict d => hasNameKey d
      | _ => false
  | .vdict d => hasNameKey d
  | _ => false

/-- Strategy 1's cleaned text: the input with every matched span removed. -/
def stitchGaps (text : Str) (last : Nat) : List (Nat × Str × Nat) → Str
  | [] => text.drop last
  | (i, _, e) :: rest => (text.take i).drop last ++ stitchGaps text e rest

/-- Strategy 2's loop: accumulate the cleaned text (tool blocks removed,
other fenced blocks kept), whether any tool block was found, and the kept
block contents, walking the fence matches with the `last_pos` cursor. -/
def fenceLoop (text : Str) (last : Nat) : List (Nat × Str × Nat) → Str × Bool × List Str
  | [] => ([], false, [])
  | (i, g, e) :: rest =>
    let content := pyStrip g
    let keep :=
      match jsonLoads content with
      | some p => isToolHeur p
      | none => false
    let (tempRest, foundRest, blocksRest) := fenceLoop text e rest
    if keep then ((text.take i).drop last ++ tempRest, true, content :: blocksRest)
    else ((text.take e).drop last ++ tempRest, foundRest, blocksRest)

/-- The block-processing loop of `JSONToolCallExtractor.extract`: list
elements must be dicts, a lone dict is taken as one call, and every failure
path reads the nonexistent `ToolError.TOOL_SYNTAX_MISMATCH`, raising
`AttributeError`. -/
def jsonProcessBlocks : List Str → Except PyExc (List Value)
  | [] => .ok []
  | b :: rest =>
    match jsonLoads b with
    | some (.vlist items) =>
      if items.all fun x => match x with | .vdict _ => true | _ => false then
        (jsonProcessBlocks rest).map fun more => items ++ more
      else .error .attributeError
    | some (.vdict d) => (jsonProcessBlocks rest).map fun more => .vdict d :: more
    | some _ => .error .attributeError
    | none => .error .attributeError

/-- `JSONToolCallExtractor.extract`.  Calls are returned as the raw parsed
dicts (`Value`s), exactly as the source appends `parsed` items. -/
def jsonExtract (toolStart toolEnd : Option Str) (responseStr : Str) :
    Except PyExc (Str × List Value × List ToolError) :=
  -- Strategy 1: explicit delimiters
  let s1 : List Str × Str :=
    match toolStart, toolEnd with
    | some ts, some te =>
      if ts.isEmpty ∨ te.isEmpty then ([], responseStr)
      else
        match findBlocks ts te responseStr with
        | [] => ([], responseStr)
        | ms => (ms.map fun m => pyStrip m.2.1, stitchGaps responseStr 0 ms)
    | _, _ => ([], responseStr)
  -- Strategy 2: markdown code fences
  let s2 : List Str × Str :=
    if s1.1.isEmpty then
      match fenceBlocks responseStr with
      | [] => s1
      | fms =>
        let (temp, found, blocks) := fenceLoop responseStr 0 fms
        if found then
          (blocks, temp ++ responseStr.drop ((fms.map fun m => m.2.2).getLastD 0))
        else (s1.1, s1.2)
    else s1
  -- Strategy 3: the whole text looks like a JSON list or object
  let s3 : List Str × Str :=
    if s2.1.isEmpty then
      let stripped := pyStrip responseStr
      if (pyStarts (pystr "[") stripped ∧ stripped.getLast? = some ']') ∨
         (pyStarts (pystr "\x7b") stripped ∧ stripped.getLast? = some '\x7d') then
        match jsonLoads stripped with
        | some _ => ([stripped], [])
        | none => s2
      else s2
    else s2
  match jsonProcessBlocks s3.1 with
  | .error e => .error e
  | .ok calls => .ok (pyStrip s3.2, calls, [])

/-! ## The tool validator (`tool_validator.py`) -/

/-- `type(value).__name__` for the modelled Python values. -/
def pyTypeName (v : Value) : Str :=
  match v with
  | .vstr _ => pystr "str"
  | .vint _ => pystr "int"
  | .vfloat _ => pystr "float"
  | .vbool _ => pystr "bool"
  | .vnone => pystr "NoneType"
  | .vlist _ => pystr "list"
  | .vtuple _ => pystr "tuple"
  | .vdict _ => pystr "dict"
  | .vset _ => pystr "set"

/-- Exact rational value of a finite modelled float. -/
def pyFloatQ (neg : Bool) (ds : Str) (e : Int) : ℚ :=
  let m : ℚ := digitsToNat ds
  let p : ℚ := if 0 ≤ e then (10 : ℚ) ^ e.toNat else ((10 : ℚ) ^ (-e).toNat)⁻¹
  (if neg then -m else m) * p

/-- The numeric value of an int/bool/finite-float, if any (Python compares
numbers across types; `True == 1`). -/
def numQ (v : Value) : Option ℚ :=
  match v with
  | .vint n => some (n : ℚ)
  | .vbool b => some (if b then 1 else 0)
  | .vfloat (.fin neg ds e) => some (pyFloatQ neg ds e)
  | _ => none

mutual

/-- Fueled Python `==` on modelled values (every nested comparison concerns
structurally smaller data, so any fuel above the combined term size is
enough): numeric types compare by value (`True == 1`, `1 == 1.0`,
`nan != nan`), sequences elementwise within the same type, dicts by
unordered key/value agreement (modelled as both-ways membership over equal
sizes). -/
def pyEqF : Nat → Value → Value → Bool
  | 0, _, _ => false
  | fuel + 1, a, b =>
    match a, b with
    | .vfloat (.inf n1), .vfloat (.inf n2) => n1 = n2
    | .vfloat .nan, _ => false
    | _, .vfloat .nan => false
    | .vstr x, .vstr y => x = y
    | .vnone, .vnone => true
    | .vlist xs, .vlist ys => pyEqListF fuel xs ys
    | .vtuple xs, .vtuple ys => pyEqListF fuel xs ys
    | .vdict xs, .vdict ys =>
      xs.length = ys.length && pyEqDictSubF fuel xs ys && pyEqDictSubF fuel ys xs
    | x, y =>
      match numQ x, numQ y with
      | some qx, some qy => qx = qy
      | _, _ => false

/-- Elementwise equality of sequences. -/
def pyEqListF : Nat → List Value → List Value → Bool
  | 0, _, _ => false
  | _ + 1, [], [] => true
  | fuel + 1, x :: xs, y :: ys => pyEqF fuel x y && pyEqListF fuel xs ys
  | _ + 1, _, _ => false

/-- Every pair of the first dict appears (up to `pyEqF`) in the second. -/
def pyEqDictSubF : Nat → List (Value × Value) → List (Value × Value) → Bool
  | 0, _, _ => false
  | _ + 1, [], _ => true
  | fuel + 1, (k, v) :: rest, ys => pyEqPairMemF fuel k v ys && pyEqDictSubF fuel rest ys

/-- A key/value pair appears in a dict up to `pyEqF`. -/
def pyEqPairMemF : Nat → Value → Value → List (Value × Value) → Bool
  | 0, _, _, _ => false
  | _ + 1, _, _, [] => false
  | fuel + 1, k, v, (k', v') :: rest =>
    (pyEqF fuel k k' && pyEqF fuel v v') || pyEqPairMemF fuel k v rest

end

mutual

/-- Structural size of a value (fuel bound for `pyEqF`). -/
def vsize : Value → Nat
  | .vstr _ | .vint _ | .vfloat _ | .vbool _ | .vnone => 1
  | .vlist xs | .vtuple xs | .vset xs => 1 + vsizeList xs
  | .vdict xs => 1 + vsizePairs xs

/-- Combined size of a list of values. -/
def vsizeList : List Value → Nat
  | [] => 0
  | x :: xs => 1 + vsize x + vsizeList xs

/-- Combined size of a list of pairs of values. -/
def vsizePairs : List (Value × Value) → Nat
  | [] => 0
  | (k, v) :: xs => 1 + vsize k + vsize v + vsizePairs xs

end

/-- Python `==` on modelled values. -/
def pyEq (a b : Value) : Bool := pyEqF (vsize a + vsize b + 1) a b

/-- Python `x in xs` over a list, via `==`. -/
def pyMem (x : Value) (xs : List Value) : Bool := xs.any (pyEq x)

/-- A property entry of a tool schema: `{"type": ..., "enum": ...}` with
both fields optional (`.get` in the source). -/
structure VPropSpec where
  type? : Option Str
  enum? : Option (List Value)

/-- The `function` part of an OpenAI tool schema entry. -/
structure VFunc where
  name : Str
  properties : List (Str × VPropSpec)
  required : List Str

/-- An OpenAI tool schema entry `{"type": "function", "function": {...}}`. -/
structure VSchema where
  type : Str
  function : VFunc

/-- The `arguments` field of a tool call: either a JSON string (decoded with
`json.loads`) or an already-parsed value. -/
inductive VArgs
  | raw (s : Str)
  | parsed (v : Value)

/-- The `function` part of a tool call. -/
structure VCallFunc where
  name : Str
  arguments : Option VArgs

/-- An OpenAI tool call `{"type": "function", "function": {...}}`. -/
structure VCall where
  type : Str
  function : Option VCallFunc

/-- Look up a key in an argument dict (string-keyed, as produced by
`json.loads` on the OpenAI `arguments` payload). -/
def argsLookup (args : List (Str × Value)) (k : Str) : Option Value :=
  (args.find? fun kv => kv.1 = k).map Prod.snd

/-- The type/enum violation messages for a single declared-and-provided
argument (the `elif` chain plus the enum check in `ToolValidator.validate`). -/
def typeCheckMsgs (argName : Str) (spec : VPropSpec) (value : Value) : List Str :=
  let mismatch : Str → Bool := fun ty =>
    if ty = pystr "string" then ¬value matches .vstr _
    else if ty = pystr "integer" then ¬(value matches .vint _ ∨ value matches .vbool _)
    else if ty = pystr "boolean" then ¬value matches .vbool _
    else if ty = pystr "number" then
      ¬(value matches .vint _ ∨ value matches .vbool _ ∨ value matches .vfloat _)
    else if ty = pystr "array" then ¬value matches .vlist _
    else if ty = pystr "object" then ¬value matches .vdict _
    else false
  let tyMsgs : List Str :=
    match spec.type? with
    | some ty =>
      if mismatch ty then
        [pystr "Argument '" ++ argName ++ pystr "' expected type '" ++ ty ++
          pystr "', got '" ++ pyTypeName value ++ pystr "'."]
      else []
    | none => []
  let enumMsgs : List Str :=
    match spec.enum? with
    | some evs =>
      -- Python truthiness: an empty enum list skips the check
      if ¬evs.isEmpty ∧ ¬pyMem value evs then
        [pystr "Argument '" ++ argName ++ pystr "' value '" ++ pyStr value ++
          pystr "' is not valid. Allowed: " ++ pyRepr (.vlist evs) ++ pystr "."]
      else []
    | none => []
  tyMsgs ++ enumMsgs

/-- `ToolValidator.validate`. -/
def validate (call : VCall) (schemas : List VSchema) : List Str :=
  if call.type ≠ pystr "function" then [pystr "Tool call type must be 'function'."]
  else
    match call.function with
    | none => [pystr "Tool call missing 'function' field."]
    | some fn =>
      if fn.name.isEmpty then [pystr "Tool call missing function name."]
      else
        let argsParsed : Except Str Value :=
          match fn.arguments.getD (.raw (pystr "{}")) with
          | .raw s =>
            match jsonLoads s with
            | some v => .ok v
            | none => .error (pystr "Tool arguments are not valid JSON.")
          | .parsed v => .ok v
        match argsParsed with
        | .error e => [e]
        | .ok av =>
          match av with
          | .vdict pairs =>
            -- OpenAI argument payloads are string-keyed JSON objects
            let args : List (Str × Value) :=
              pairs.filterMap fun kv =>
                match kv.1 with
                | .vstr k => some (k, kv.2)
                | _ => none
            match schemas.find? fun sc => sc.type = pystr "function" ∧ sc.function.name = fn.name with
            | none => [pystr "Tool '" ++ fn.name ++ pystr "' not found in schema."]
            | some sc =>
              let props := sc.function.properties
              let missing : List Str :=
                (sc.function.required.filter fun r => (argsLookup args r).isNone).map
                  fun r => pystr "Missing required argument: '" ++ r ++ pystr "'."
              let perArg : List Str :=
                args.flatMap fun kv =>
                  match (props.find? fun p => p.1 = kv.1).map Prod.snd with
                  | none => [pystr "Unknown argument: '" ++ kv.1 ++ pystr "'."]
                  | some spec => typeCheckMsgs kv.1 spec kv.2
              missing ++ perArg
          | _ => [pystr "Tool arguments must be a dictionary."]

/-! ## The pipeline's conversation-merging phase (`pipeline.py`)

`StandardToolPipeline.convert_openai` first walks the message list, buffering
runs of `tool` messages and flushing them into the next `user` message (or a
fabricated empty one).  Messages are modelled by their role and content
string (the fields this phase reads and writes). -/

/-- A conversation message as seen by the merging phase. -/
structure PMsg where
  role : Str
  content : Str
deriving DecidableEq

/-- `GenericResponseBuilder.build`: the buffered tool messages' contents
joined by newlines. -/
def genericResponseBuild (msgs : List PMsg) : Str :=
  joinNl (msgs.map PMsg.content)

/-- `flush_buffer(user_message)`: prepend the tool-response text (plus a
newline when the user content is nonempty) to the user message. -/
def flushWithUser (buffer : List PMsg) (u : PMsg) : PMsg :=
  let resp := genericResponseBuild buffer
  if u.content.isEmpty then ⟨u.role, resp⟩
  else ⟨u.role, resp ++ '\n' :: u.content⟩

/-- `flush_buffer(None)`: fabricate a `user` message holding exactly the
tool-response text. -/
def flushNone (buffer : List PMsg) : PMsg :=
  ⟨pystr "user", genericResponseBuild buffer⟩

/-- The message loop of `convert_openai` (tool-response merging), with the
pending tool buffer as explicit state. -/
def convertMergeLoop (buffer : List PMsg) : List PMsg → List PMsg
  | [] => if buffer.isEmpty then [] else [flushNone buffer]
  | m :: rest =>
    if ¬buffer.isEmpty ∧ m.role ≠ pystr "tool" then
      if m.role = pystr "user" then flushWithUser buffer m :: convertMergeLoop [] rest
      else flushNone buffer :: m :: convertMergeLoop [] rest
    else if m.role = pystr "tool" then convertMergeLoop (buffer ++ [m]) rest
    else m :: convertMergeLoop buffer rest

/-- The tool-response merging phase of `StandardToolPipeline.convert_openai`. -/
def convertMerge (msgs : List PMsg) : List PMsg :=
  convertMergeLoop [] msgs

/-- Is this a tool-role message? -/
def isToolMsg (m : PMsg) : Bool := m.role = pystr "tool"

/-- The claim's merged content: the tool-response text followed by the
original user content (separated by a newline when that content is
nonempty). -/
def mergedContent (run : List PMsg) (c : Str) : Str :=
  if c.isEmpty then genericResponseBuild run
  else genericResponseBuild run ++ '\n' :: c

/-- `dropWhile` never lengthens a list. -/
theorem dropWhileLenLe {α : Type} (p : α → Bool) (l : List α) :
    (l.dropWhile p).length ≤ l.length := by
  induction l with
  | nil => simp
  | cons a l ih =>
    by_cases h : p a
    · rw [List.dropWhile_cons_of_pos h]; simp; omega
    · rw [List.dropWhile_cons_of_neg h]

/-- The merging rule as the specification states it: each maximal run of
consecutive `tool` messages becomes a single `user` message — absorbing an
immediately following `user` message, or fabricated with empty original
content when none follows. -/
def mergeSpec (msgs : List PMsg) : List PMsg :=
  match msgs with
  | [] => []
  | m :: rest =>
    if hm : isToolMsg m then
      match hafter : (m :: rest).dropWhile isToolMsg with
      | [] => [⟨pystr "user", mergedContent ((m :: rest).takeWhile isToolMsg) []⟩]
      | u :: rest' =>
        if u.role = pystr "user" then
          ⟨u.role, mergedContent ((m :: rest).takeWhile isToolMsg) u.content⟩ :: mergeSpec rest'
        else
          ⟨pystr "user", mergedContent ((m :: rest).takeWhile isToolMsg) []⟩ :: u :: mergeSpec rest'
    else m :: mergeSpec rest
termination_by msgs.length
decreasing_by
  all_goals simp only [List.length_cons]
  · rw [List.dropWhile_cons_of_pos hm] at hafter
    have := dropWhileLenLe isToolMsg rest
    rw [hafter] at this
    simp only [List.length_cons] at this
    omega
  · rw [List.dropWhile_cons_of_pos hm] at hafter
    have := dropWhileLenLe isToolMsg rest
    rw [hafter] at this
    simp only [List.length_cons] at this
    omega
  · omega

/-! ## Schema builders

`XMLToolSchemaBuilder.build` and `MDToolSchemaBuilder.build` return
`"\n\n".join(schemas)` — a single string — while the abstract base class
(`abc/tool_schema_builder.py`) declares `build(...) -> List[str]` and
`JSONToolSchemaBuilder.build` returns a list; `PyStrOrList` records which
shape a builder actually produced.  Tool definitions are passed as the raw
parsed JSON dicts (`Value`s), as in the source. -/

/-- A Python value that is either a single string or a list of strings. -/
inductive PyStrOrList
  | single (s : Str)
  | many (l : List Str)

/-- `d.get(k)` on a JSON dict with string keys. -/
def dGet (d : List (Value × Value)) (k : Str) : Option Value :=
  (d.find? fun kv =>
    match kv.1 with
    | .vstr s => s = k
    | _ => false).map Prod.snd

/-- View a value as a dict's pairs (the builders only ever call `.get` on
dict-shaped entries; a non-dict would raise in Python and is out of scope). -/
def asDict (v : Value) : List (Value × Value) :=
  match v with
  | .vdict d => d
  | _ => []

/-- View a value as a list (the `required` field). -/
def asList (v : Value) : List Value :=
  match v with
  | .vlist xs => xs
  | _ => []

/-- `func = tool["function"] if "function" in tool else tool`. -/
def schemaFunc (tool : Value) : Value :=
  match dGet (asDict tool) (pystr "function") with
  | some f => f
  | none => tool

/-- One tool's schema text in `XMLToolSchemaBuilder.build`. -/
def xmlSchemaOne (ts te : Str) (tool : Value) : Str :=
  let func := asDict (schemaFunc tool)
  let name := pyStr ((dGet func (pystr "name")).getD (.vstr []))
  let description := pyStr ((dGet func (pystr "description")).getD (.vstr []))
  let parameters := asDict ((dGet func (pystr "parameters")).getD (.vdict []))
  let properties := asDict ((dGet parameters (pystr "properties")).getD (.vdict []))
  let required := asList ((dGet parameters (pystr "required")).getD (.vlist []))
  let argLines : List Str :=
    properties.map fun kv =>
      let propName := pyStr kv.1
      let propDef := asDict kv.2
      let propType := pyStr ((dGet propDef (pystr "type")).getD (.vstr (pystr "string")))
      let propDesc := pyStr ((dGet propDef (pystr "description")).getD (.vstr []))
      let reqStr := if pyMem kv.1 required then pystr "Required" else pystr "Optional"
      let content := reqStr ++ pystr " (" ++ propType ++ pystr ")" ++
        (if propDesc.isEmpty then [] else pystr ": " ++ propDesc)
      '<' :: propName ++ '>' :: content ++ '<' :: '/' :: propName ++ [ '>' ]
  let lines := (pystr "<name>" ++ name ++ pystr "</name>") ::
    (pystr "<description>" ++ description ++ pystr "</description>") :: argLines
  ts ++ '\n' :: joinNl lines ++ '\n' :: te

/-- `XMLToolSchemaBuilder.build`: note the final `"\n\n".join` — the result
is one concatenated string. -/
def xmlSchemaBuild (ts te : Str) (tools : List Value) : PyStrOrList :=
  .single (pyJoin (pystr "\n\n") (tools.map (xmlSchemaOne ts te)))

/-- One tool's schema text in `MDToolSchemaBuilder.build`. -/
def mdSchemaOne (ts te : Str) (tool : Value) : Str :=
  let func := asDict (schemaFunc tool)
  let name := pyStr ((dGet func (pystr "name")).getD (.vstr []))
  let description := pyStr ((dGet func (pystr "description")).getD (.vstr []))
  let parameters := asDict ((dGet func (pystr "parameters")).getD (.vdict []))
  let properties := asDict ((dGet parameters (pystr "properties")).getD (.vdict []))
  let required := asList ((dGet parameters (pystr "required")).getD (.vlist []))
  let argLines : List Str :=
    properties.map fun kv =>
      let propName := pyStr kv.1
      let propDef := asDict kv.2
      let propType := pyStr ((dGet propDef (pystr "type")).getD (.vstr (pystr "string")))
      let propDesc := pyStr ((dGet propDef (pystr "description")).getD (.vstr []))
      let reqStr := if pyMem kv.1 required then pystr "required" else pystr "optional"
      pystr "### " ++ propName ++ pystr " (" ++ propType ++ pystr ", " ++ reqStr ++
        pystr "): " ++ propDesc
  let lines := (pystr "## Name: " ++ name) ::
    ((if description.isEmpty then [] else [pystr "### Description: " ++ description]) ++ argLines)
  ts ++ '\n' :: joinNl lines ++ '\n' :: te

/-- `MDToolSchemaBuilder.build`: also one concatenated string. -/
def mdSchemaBuild (ts te : Str) (tools : List Value) : PyStrOrList :=
  .single (pyJoin (pystr "\n\n") (tools.map (mdSchemaOne ts te)))

/-- Escape one character inside a JSON string literal (`json.dumps`, ASCII
scope). -/
def jsonEscChar (c : Char) : Str :=
  if c = '"' then pystr "\\\""
  else if c = '\\' then pystr "\\\\"
  else if c = '\n' then pystr "\\n"
  else if c = '\t' then pystr "\\t"
  else if c = '\x0d' then pystr "\\r"
  else if c = Char.ofNat 8 then pystr "\\b"
  else if c = Char.ofNat 12 then pystr "\\f"
  else if c.toNat < 32 then
    pystr "\\u00" ++ [hexChar (c.toNat / 16), hexChar (c.toNat % 16)]
  else [c]

/-- `json.dumps` of a string. -/
def jsonDumpsStr (s : Str) : Str := '"' :: s.flatMap jsonEscChar ++ ['"']

mutual

/-- `json.dumps(v, indent=ind)` at nesting level `lvl` (ASCII scope; dict
keys are strings in the schema payloads). -/
def jsonDumps (ind lvl : Nat) : Value → Str
  | .vstr s => jsonDumpsStr s
  | .vint n => intStr n
  | .vfloat f => pyFloatStr f
  | .vbool b => if b then pystr "true" else pystr "false"
  | .vnone => pystr "null"
  | .vlist [] => pystr "[]"
  | .vlist (x :: xs) =>
    '[' :: '\n' :: jsonDumpsItems ind (lvl + 1) (x :: xs) ++
      '\n' :: List.replicate (ind * lvl) ' ' ++ [']']
  | .vdict [] => pystr "{}"
  | .vdict (p :: ps) =>
    '{' :: '\n' :: jsonDumpsPairs ind (lvl + 1) (p :: ps) ++
      '\n' :: List.replicate (ind * lvl) ' ' ++ ['}']
  | .vtuple [] => pystr "[]"  -- dumps serializes tuples like lists
  | .vtuple (x :: xs) =>
    '[' :: '\n' :: jsonDumpsItems ind (lvl + 1) (x :: xs) ++
      '\n' :: List.replicate (ind * lvl) ' ' ++ [']']
  | .vset _ => pystr "null"  -- sets are not JSON-serializable (raises); unused

/-- Indented, comma-joined array items. -/
def jsonDumpsItems (ind lvl : Nat) : List Value → Str
  | [] => []
  | [x] => List.replicate (ind * lvl) ' ' ++ jsonDumps ind lvl x
  | x :: y :: rest =>
    List.replicate (ind * lvl) ' ' ++ jsonDumps ind lvl x ++ ',' :: '\n' ::
      jsonDumpsItems ind lvl (y :: rest)

/-- Indented, comma-joined object members. -/
def jsonDumpsPairs (ind lvl : Nat) : List (Value × Value) → Str
  | [] => []
  | [(k, v)] =>
    List.replicate (ind * lvl) ' ' ++ jsonDumpsKey k ++ pystr ": " ++ jsonDumps ind lvl v
  | (k, v) :: p :: rest =>
    List.replicate (ind * lvl) ' ' ++ jsonDumpsKey k ++ pystr ": " ++ jsonDumps ind lvl v ++
      ',' :: '\n' :: jsonDumpsPairs ind lvl (p :: rest)

/-- An object key (string keys in scope). -/
def jsonDumpsKey (k : Value) : Str :=
  match k with
  | .vstr s => jsonDumpsStr s
  | _ => jsonDumpsStr (pyStr k)

end

/-- `JSONToolSchemaBuilder.build`: `[json.dumps(tool, indent=4) for tool in
tool_schema_json]` — a list, one string per tool. -/
def jsonSchemaBuild (tools : List Value) : PyStrOrList :=
  .many (tools.map (jsonDumps 4 0))

/-! ## Claim theorems -/

set_option maxRecDepth 100000

/-- C2.  The spec's all-or-nothing invariant fails in the JSON extractor:
on an input whose first fenced block is a valid tool call and whose second
fenced block is malformed JSON, `extract` commits the valid call (one call
returned), reports no error, and returns a first component that is not the
original input (the valid block has been cut out, the malformed one kept) —
where the claim requires zero calls, the original text unchanged, and the
errors reported. -/
theorem json_extract_partial_commit :
    jsonExtract none none
      (pystr "```json\n\x7b\"name\": \"a\", \"arguments\": \x7b\x7d\x7d\n```\n```json\n\x7bmalformed\n```") =
    .ok (pystr "```json\n\x7bmalformed\n```",
         [.vdict [(.vstr (pystr "name"), .vstr (pystr "a")),
                  (.vstr (pystr "arguments"), .vdict [])]],
         []) := by
  rfl

/-- C3.  The JSON extractor does not detect duplicate object keys: on the
repository's own test input (`test_duplicate_args`, which asserts
`[TOOL_DUPLICATE_ARGUMENT]`), `json.loads` silently keeps the second value
and `extract` returns the call with `arg = "v2"` and an empty error list. -/
theorem json_extract_duplicate_key_overwritten :
    jsonExtract none none
      (pystr "\n```json\n\x7b\"name\": \"t1\", \"arguments\": \x7b\"arg\": \"v1\", \"arg\": \"v2\"\x7d\x7d\n```\n") =
    .ok (pystr "",
         [.vdict [(.vstr (pystr "name"), .vstr (pystr "t1")),
                  (.vstr (pystr "arguments"),
                   .vdict [(.vstr (pystr "arg"), .vstr (pystr "v2"))])]],
         []) := by
  rfl

/-- C4.  The JSON extractor raises for a data-dependent parse failure: with
explicit markers, a delimited block that is not valid JSON reaches
`errors.append(ToolError.TOOL_SYNTAX_MISMATCH)`, an attribute the four-value
`ToolError` enum does not define, so `extract` raises `AttributeError`
instead of returning error values — against the claim that extraction never
raises and only produces the four closed error kinds. -/
theorem json_extract_raises_attribute_error :
    jsonExtract (some (pystr "<json>")) (some (pystr "</json>"))
      (pystr "<json>oops</json>") = .error .attributeError := by
  rfl

/-- C5.  The JSON extractor has no contiguity merge: on the repository's own
`test_contiguous_extraction` input (which asserts exactly two calls and
leading text `"Message."`), strategy 1 extracts all three blocks — including
the one after the stray text — and the stray text stays in the returned
leading text. -/
theorem json_extract_ignores_contiguity :
    jsonExtract (some (pystr "```json")) (some (pystr "```"))
      (pystr "Message.\n```json\n\x7b\"name\": \"tool1\", \"arguments\": \x7b\"a\": 1\x7d\x7d\n```\n```json\n\x7b\"name\": \"tool2\", \"arguments\": \x7b\"b\": 2\x7d\x7d\n```\nStop here.\n```json\n\x7b\"name\": \"tool3\", \"arguments\": \x7b\"c\": 3\x7d\x7d\n```") =
    .ok (pystr "Message.\n\n\nStop here.",
         [.vdict [(.vstr (pystr "name"), .vstr (pystr "tool1")),
                  (.vstr (pystr "arguments"), .vdict [(.vstr (pystr "a"), .vint 1)])],
          .vdict [(.vstr (pystr "name"), .vstr (pystr "tool2")),
                  (.vstr (pystr "arguments"), .vdict [(.vstr (pystr "b"), .vint 2)])],
          .vdict [(.vstr (pystr "name"), .vstr (pystr "tool3")),
                  (.vstr (pystr "arguments"), .vdict [(.vstr (pystr "c"), .vint 3)])]],
         []) := by
  rfl

/-- The `get_weather` tool definition of the repository's schema-builder
tests, as a parsed JSON dict. -/
def weatherToolDef : Value :=
  .vdict [(.vstr (pystr "type"), .vstr (pystr "function")),
          (.vstr (pystr "function"), .vdict [
            (.vstr (pystr "name"), .vstr (pystr "get_weather")),
            (.vstr (pystr "description"),
              .vstr (pystr "Get the current weather in a given location")),
            (.vstr (pystr "parameters"), .vdict [
              (.vstr (pystr "type"), .vstr (pystr "object")),
              (.vstr (pystr "properties"), .vdict [
                (.vstr (pystr "location"), .vdict [
                  (.vstr (pystr "type"), .vstr (pystr "string")),
                  (.vstr (pystr "description"),
                    .vstr (pystr "The city and state, e.g. San Francisco, CA"))]),
                (.vstr (pystr "unit"), .vdict [
                  (.vstr (pystr "type"), .vstr (pystr "string")),
                  (.vstr (pystr "enum"),
                    .vlist [.vstr (pystr "celsius"), .vstr (pystr "fahrenheit")])])]),
              (.vstr (pystr "required"), .vlist [.vstr (pystr "location")])])])]

/-- The `search_web` tool definition of the repository's schema-builder
tests, as a parsed JSON dict. -/
def searchToolDef : Value :=
  .vdict [(.vstr (pystr "type"), .vstr (pystr "function")),
          (.vstr (pystr "function"), .vdict [
            (.vstr (pystr "name"), .vstr (pystr "search_web")),
            (.vstr (pystr "description"), .vstr (pystr "Search the web for a query")),
            (.vstr (pystr "parameters"), .vdict [
              (.vstr (pystr "properties"), .vdict [
                (.vstr (pystr "query"), .vdict [
                  (.vstr (pystr "type"), .vstr (pystr "string")),
                  (.vstr (pystr "description"), .vstr (pystr "The search query"))])]),
              (.vstr (pystr "required"), .vlist [.vstr (pystr "query")])])])]

/-- C8.  `XMLToolSchemaBuilder.build` on two tool definitions returns a
`"\n\n"`-joined single string, not a list with one string per tool (the
abstract base class declares `List[str]` and `JSONToolSchemaBuilder.build`
returns one, `tools.map (jsonDumps 4 0)` — one string per tool). -/
theorem xml_schema_build_returns_single_string :
    xmlSchemaBuild (pystr "<tool_code>") (pystr "</tool_code>")
        [weatherToolDef, searchToolDef] =
      .single (pystr "<tool_code>\n<name>get_weather</name>\n<description>Get the current weather in a given location</description>\n<location>Required (string): The city and state, e.g. San Francisco, CA</location>\n<unit>Optional (string)</unit>\n</tool_code>\n\n<tool_code>\n<name>search_web</name>\n<description>Search the web for a query</description>\n<query>Required (string): The search query</query>\n</tool_code>") ∧
    ∀ tools : List Value, jsonSchemaBuild tools = .many (tools.map (jsonDumps 4 0)) := by
  exact ⟨by rfl, fun _ => rfl⟩



/-- `takeWhile` keeps a leading segment whose elements all satisfy the
predicate. -/
theorem takeWhile_append_all {α : Type} (p : α → Bool) (B l : List α)
    (h : ∀ x ∈ B, p x) : (B ++ l).takeWhile p = B ++ l.takeWhile p := by
  induction B with
  | nil => simp
  | cons b bs ih =>
    simp only [List.cons_append, List.takeWhile_cons, h b (by simp), if_true]
    rw [ih (fun x hx => h x (by simp [hx]))]

/-- `dropWhile` skips a leading segment whose elements all satisfy the
predicate. -/
theorem dropWhile_append_all {α : Type} (p : α → Bool) (B l : List α)
    (h : ∀ x ∈ B, p x) : (B ++ l).dropWhile p = l.dropWhile p := by
  induction B with
  | nil => simp
  | cons b bs ih =>
    simp only [List.cons_append, List.dropWhile_cons, h b (by simp)]
    exact ih (fun x hx => h x (by simp [hx]))

/-- The merging loop with a pending all-tool buffer behaves as the run-based
specification applied to the buffer prepended to the remaining messages. -/
theorem loop_eq_spec : ∀ (msgs buffer : List PMsg),
    (∀ x ∈ buffer, isToolMsg x) →
    convertMergeLoop buffer msgs = mergeSpec (buffer ++ msgs) := by
  intro msgs
  induction msgs with
  | nil =>
    intro buffer hb
    cases hbuf : buffer with
    | nil => simp [convertMergeLoop, mergeSpec]
    | cons b bs =>
      subst hbuf
      have hbt : isToolMsg b := hb b (by simp)
      have hdrop : List.dropWhile isToolMsg (b :: bs) = [] := by
        have h2 := dropWhile_append_all isToolMsg (b :: bs) [] hb
        simpa using h2
      have htake : List.takeWhile isToolMsg (b :: bs) = b :: bs := by
        have h2 := takeWhile_append_all isToolMsg (b :: bs) [] hb
        simpa using h2
      rw [mergeSpec.eq_def]
      simp only [convertMergeLoop, List.append_nil, List.isEmpty_cons, hbt, dif_pos,
        Bool.false_eq_true, if_false]
      split
      · simp [flushNone, mergedContent, htake]
      · rename_i u rest' hafter
        rw [hdrop] at hafter
        simp at hafter
  | cons m rest ih =>
    intro buffer hb
    by_cases hmt : isToolMsg m = true
    · have hrole : m.role = pystr "tool" := by
        simpa [isToolMsg] using hmt
      have hstep : convertMergeLoop buffer (m :: rest) = convertMergeLoop (buffer ++ [m]) rest := by
        simp only [convertMergeLoop]
        rw [if_neg (fun h => h.2 hrole), if_pos hrole]
      rw [hstep, ih (buffer ++ [m]) (by
        intro x hx
        rcases List.mem_append.mp hx with h | h
        · exact hb x h
        · simp at h
          subst h
          exact hmt)]
      simp
    · have hrole : m.role ≠ pystr "tool" := by
        simpa [isToolMsg] using hmt
      cases hbuf : buffer with
      | nil =>
        subst hbuf
        have hstep : convertMergeLoop [] (m :: rest) = m :: convertMergeLoop [] rest := by
          simp only [convertMergeLoop]
          rw [if_neg (fun h => h.1 rfl), if_neg hrole]
        rw [hstep, ih [] (by simp)]
        conv_rhs => rw [mergeSpec.eq_def]
        simp [hmt]
      | cons b bs =>
        subst hbuf
        have hbt : isToolMsg b = true := hb b (by simp)
        have hne : ¬List.isEmpty (b :: bs) = true := by simp
        have htake : (b :: bs ++ m :: rest).takeWhile isToolMsg = b :: bs := by
          rw [takeWhile_append_all isToolMsg (b :: bs) (m :: rest) hb]
          simp [List.takeWhile_cons, hmt]
        have hdrop : (b :: bs ++ m :: rest).dropWhile isToolMsg = m :: rest := by
          rw [dropWhile_append_all isToolMsg (b :: bs) (m :: rest) hb]
          simp [List.dropWhile_cons, hmt]
        have htake2 : List.takeWhile isToolMsg (b :: (bs ++ m :: rest)) = b :: bs := by
          simpa using htake
        have hdrop2 : List.dropWhile isToolMsg (b :: (bs ++ m :: rest)) = m :: rest := by
          simpa using hdrop
        by_cases hmu : m.role = pystr "user"
        · have hstep : convertMergeLoop (b :: bs) (m :: rest) =
              flushWithUser (b :: bs) m :: convertMergeLoop [] rest := by
            simp only [convertMergeLoop]
            rw [if_pos ⟨hne, hrole⟩, if_pos hmu]
          rw [hstep, ih [] (by simp)]
          simp only [List.nil_append, List.cons_append]
          conv_rhs => rw [mergeSpec.eq_def]
          simp only [hbt, dif_pos]
          split
          · rename_i heq
            rw [hdrop2] at heq
            simp at heq
          · rename_i u rest2 heq
            rw [hdrop2] at heq
            obtain ⟨rfl, rfl⟩ : m = u ∧ rest = rest2 := by
              have h1 := (List.cons.injEq _ _ _ _ ▸ heq)
              exact ⟨h1.1, h1.2⟩
            rw [if_pos hmu, htake2]
            simp only [flushWithUser, mergedContent]
            split <;> rfl
        · have hstep : convertMergeLoop (b :: bs) (m :: rest) =
              flushNone (b :: bs) :: m :: convertMergeLoop [] rest := by
            simp only [convertMergeLoop]
            rw [if_pos ⟨hne, hrole⟩, if_neg hmu]
          rw [hstep, ih [] (by simp)]
          simp only [List.nil_append, List.cons_append]
          conv_rhs => rw [mergeSpec.eq_def]
          simp only [hbt, dif_pos]
          split
          · rename_i heq
            rw [hdrop2] at heq
            simp at heq
          · rename_i u rest2 heq
            rw [hdrop2] at heq
            obtain ⟨rfl, rfl⟩ : m = u ∧ rest = rest2 := by
              have h1 := (List.cons.injEq _ _ _ _ ▸ heq)
              exact ⟨h1.1, h1.2⟩
            rw [if_neg hmu, htake2]
            simp [flushNone, mergedContent]

/-- C7.  In the pipeline's convert operation, every maximal run of
consecutive tool-role messages is merged into a single user-role message:
the source loop (`convertMerge`) coincides with the run-based specification
`mergeSpec`, under which the merged content is the tool-response text
followed by the original user content (with a newline between when that
content is nonempty) when a user message immediately follows the run, and a
fabricated user message whose content is exactly the tool-response text
(empty original content) when the run is followed by a non-user message or
ends the conversation. -/
theorem convert_merges_tool_runs (msgs : List PMsg) :
    convertMerge msgs = mergeSpec msgs :=
  loop_eq_spec msgs [] (by simp)

/-- C9.  The validator's runtime-type checks use `isinstance`, under which
Python booleans are ints: a boolean argument raises no violation against a
declared `integer` or `number` type, while declared `string`, `array` and
`object` types reject it with the corresponding message. -/
theorem validator_bool_passes_numeric_types
    (tn pn : Str) (b : Bool) (hn : ¬tn.isEmpty) :
    (validate ⟨pystr "function", some ⟨tn, some (.parsed (.vdict [(.vstr pn, .vbool b)]))⟩⟩
        [⟨pystr "function", ⟨tn, [(pn, ⟨some (pystr "integer"), none⟩)], [pn]⟩⟩] = []) ∧
    (validate ⟨pystr "function", some ⟨tn, some (.parsed (.vdict [(.vstr pn, .vbool b)]))⟩⟩
        [⟨pystr "function", ⟨tn, [(pn, ⟨some (pystr "number"), none⟩)], [pn]⟩⟩] = []) ∧
    (validate ⟨pystr "function", some ⟨tn, some (.parsed (.vdict [(.vstr pn, .vbool b)]))⟩⟩
        [⟨pystr "function", ⟨tn, [(pn, ⟨some (pystr "string"), none⟩)], [pn]⟩⟩] =
      [pystr "Argument '" ++ pn ++ pystr "' expected type 'string', got 'bool'."]) ∧
    (validate ⟨pystr "function", some ⟨tn, some (.parsed (.vdict [(.vstr pn, .vbool b)]))⟩⟩
        [⟨pystr "function", ⟨tn, [(pn, ⟨some (pystr "array"), none⟩)], [pn]⟩⟩] =
      [pystr "Argument '" ++ pn ++ pystr "' expected type 'array', got 'bool'."]) ∧
    (validate ⟨pystr "function", some ⟨tn, some (.parsed (.vdict [(.vstr pn, .vbool b)]))⟩⟩
        [⟨pystr "function", ⟨tn, [(pn, ⟨some (pystr "object"), none⟩)], [pn]⟩⟩] =
      [pystr "Argument '" ++ pn ++ pystr "' expected type 'object', got 'bool'."]) := by
  simp [validate, hn, argsLookup, typeCheckMsgs, pyTypeName, List.find?, pystr]

/-- Witness for C9 at the tool `t`, parameter `p`, value `True`. -/
theorem validator_bool_passes_numeric_types_witness :
    validate ⟨pystr "function",
        some ⟨pystr "t", some (.parsed (.vdict [(.vstr (pystr "p"), .vbool true)]))⟩⟩
      [⟨pystr "function",
        ⟨pystr "t", [(pystr "p", ⟨some (pystr "integer"), none⟩)], [pystr "p"]⟩⟩] = [] :=
  (validator_bool_passes_numeric_types (pystr "t") (pystr "p") true (by decide)).1



/-- Is the value a list or a dict (the only structures `parse_value` keeps)? -/
def isListOrDict (v : Value) : Bool :=
  match v with
  | .vlist _ | .vdict _ => true
  | _ => false

/-- C6.  Literal coercion (`parse_value`, shared by the tag-delimited and
Markdown extractors) tries, in order: case-insensitive `true`/`false`, int,
float, then a literal-structure parse whose result is kept only when it is a
list or dict, and otherwise returns the trimmed original text — so the quoted
literal `'foo'` comes back as the text `'foo'` with its quotes, and the
tuple-like `(10, 20)` falls through to the plain string. -/
theorem parse_value_coercion_order :
    (∀ s : Str, pyLower (pyStrip s) = pystr "true" → parseValue s = .vbool true) ∧
    (∀ s : Str, pyLower (pyStrip s) = pystr "false" → parseValue s = .vbool false) ∧
    (∀ (s : Str) (n : Int), pyLower (pyStrip s) ≠ pystr "true" →
      pyLower (pyStrip s) ≠ pystr "false" →
      pyIntParse (pyStrip s) = some n → parseValue s = .vint n) ∧
    (∀ (s : Str) (f : PyFloat), pyLower (pyStrip s) ≠ pystr "true" →
      pyLower (pyStrip s) ≠ pystr "false" →
      pyIntParse (pyStrip s) = none →
      pyFloatParse (pyStrip s) = some f → parseValue s = .vfloat f) ∧
    (∀ (s : Str) (v : Value), pyLower (pyStrip s) ≠ pystr "true" →
      pyLower (pyStrip s) ≠ pystr "false" →
      pyIntParse (pyStrip s) = none → pyFloatParse (pyStrip s) = none →
      literalEval (pyStrip s) = some v →
      parseValue s = if isListOrDict v then v else .vstr (pyStrip s)) ∧
    (∀ s : Str, pyLower (pyStrip s) ≠ pystr "true" →
      pyLower (pyStrip s) ≠ pystr "false" →
      pyIntParse (pyStrip s) = none → pyFloatParse (pyStrip s) = none →
      literalEval (pyStrip s) = none → parseValue s = .vstr (pyStrip s)) ∧
    parseValue (pystr "'foo'") = .vstr (pystr "'foo'") ∧
    parseValue (pystr "(10, 20)") = .vstr (pystr "(10, 20)") := by
  refine ⟨?_, ?_, ?_, ?_, ?_, ?_, by rfl, by rfl⟩
  · intro s h
    simp [parseValue, h]
  · intro s h
    by_cases h1 : pyLower (pyStrip s) = pystr "true"
    · rw [h] at h1
      exact absurd h1 (by decide)
    · simp [parseValue, h, h1]
      decide
  · intro s n h1 h2 h3
    simp [parseValue, h1, h2, h3]
  · intro s f h1 h2 h3 h4
    simp [parseValue, h1, h2, h3, h4]
  · intro s v h1 h2 h3 h4 h5
    cases v <;> simp [parseValue, h1, h2, h3, h4, h5, isListOrDict]
  · intro s h1 h2 h3 h4 h5
    simp [parseValue, h1, h2, h3, h4, h5]

/-- Witness for C6 at the input `"  42 "`. -/
theorem parse_value_coercion_order_witness :
    pyLower (pyStrip (pystr "  42 ")) ≠ pystr "true" ∧
    pyLower (pyStrip (pystr "  42 ")) ≠ pystr "false" ∧
    pyIntParse (pyStrip (pystr "  42 ")) = some 42 ∧
    parseValue (pystr "  42 ") = .vint 42 :=
  ⟨by decide, by decide, by rfl,
    parse_value_coercion_order.2.2.1 (pystr "  42 ") 42 (by decide) (by decide) (by rfl)⟩




/-- Walking the count scanner through consumed (skipped) characters. -/
theorem countAux_skip (pat : Str) : ∀ (x y : Str),
    pyCountAux pat (x ++ y) x.length = pyCountAux pat y 0 := by
  intro x
  induction x with
  | nil => intro y; rfl
  | cons c rest ih =>
    intro y
    simp only [List.cons_append, List.length_cons, pyCountAux]
    exact ih y

/-- The count scanner passes over text that never shows the pattern's first
character. -/
theorem countAux_walk (p : Char) (ps : Str) : ∀ (x y : Str),
    (∀ c ∈ x, c ≠ p) →
    pyCountAux (p :: ps) (x ++ y) 0 = pyCountAux (p :: ps) y 0 := by
  intro x
  induction x with
  | nil => intro y _; rfl
  | cons c rest ih =>
    intro y hx
    have hc : c ≠ p := hx c (by simp)
    have hpre : (p :: ps).isPrefixOf (c :: (rest ++ y)) = false := by
      simp [List.isPrefixOf]
      intro h
      exact absurd h.symm hc
    simp only [List.cons_append, pyCountAux, List.append_eq]
    rw [hpre]
    simp only [Bool.false_eq_true, if_false]
    exact ih y (fun d hd => hx d (by simp [hd]))

/-- The count scanner counts a pattern occurrence at the front and resumes
after it (non-overlapping). -/
theorem countAux_match (p : Char) (ps : Str) (y : Str) :
    pyCountAux (p :: ps) (p :: (ps ++ y)) 0 = 1 + pyCountAux (p :: ps) y 0 := by
  have hpre : (p :: ps).isPrefixOf (p :: (ps ++ y)) = true := by
    rw [List.isPrefixOf_iff_prefix]
    exact ⟨y, by simp⟩
  simp only [List.cons_append, pyCountAux, List.append_eq]
  rw [hpre]
  simp only [if_true, List.length_cons, Nat.add_sub_cancel]
  rw [countAux_skip (p :: ps) ps y]

/-- One step of the count scanner over a non-matching position. -/
theorem countAux_step (pat : Str) (c : Char) (t : Str)
    (h : pat.isPrefixOf (c :: t) = false) :
    pyCountAux pat (c :: t) 0 = pyCountAux pat t 0 := by
  simp [pyCountAux, h]

/-- Whitespace characters are neither backticks nor `j`. -/
theorem ws_not_fence {c : Char} (h : isPySpace c = true) : c ≠ '`' ∧ c ≠ 'j' := by
  simp [isPySpace] at h
  rcases h with ((((h | h) | h) | h) | h) | h <;> subst h <;> exact ⟨by decide, by decide⟩

/-- The assembled input of the C10 scenario: each block is the start marker,
a body, the end marker, then a whitespace separator. -/
def fenceChain : List (Str × Str) → Str
  | [] => []
  | (b, sep) :: rest => pystr "```json" ++ b ++ pystr "```" ++ sep ++ fenceChain rest

/-- `fenceChain` outputs are empty or begin with the start marker. -/
theorem fenceChain_shape (blocks : List (Str × Str)) :
    fenceChain blocks = [] ∨ ∃ w, fenceChain blocks = pystr "```json" ++ w := by
  cases blocks with
  | nil => exact .inl rfl
  | cons p rest =>
    exact .inr ⟨p.1 ++ pystr "```" ++ p.2 ++ fenceChain rest, by
      cases p; simp [fenceChain]⟩

/-- Scanning for the start marker across an end marker followed by
whitespace and the next chain finds nothing new. -/
theorem countS_after_E (sep : Str) (hsep : ∀ c ∈ sep, isPySpace c) (z : Str)
    (hz : z = [] ∨ ∃ w, z = pystr "```json" ++ w) :
    pyCountAux (pystr "```json") ('`' :: '`' :: '`' :: (sep ++ z)) 0 =
      pyCountAux (pystr "```json") z 0 := by
  cases sep with
  | cons c sep' =>
    have hc := ws_not_fence (hsep c (by simp))
    have hcj : ('j' == c) = false := beq_eq_false_iff_ne.mpr (fun h => hc.2 h.symm)
    have hct : ('`' == c) = false := beq_eq_false_iff_ne.mpr (fun h => hc.1 h.symm)
    have h1 : (pystr "```json").isPrefixOf ('`' :: '`' :: '`' :: (c :: (sep' ++ z))) = false := by
      simp [pystr, List.isPrefixOf, hcj]
    have h2 : (pystr "```json").isPrefixOf ('`' :: '`' :: (c :: (sep' ++ z))) = false := by
      simp [pystr, List.isPrefixOf, hct]
    have h3 : (pystr "```json").isPrefixOf ('`' :: (c :: (sep' ++ z))) = false := by
      simp [pystr, List.isPrefixOf, hct]
    rw [show ('`' :: '`' :: '`' :: (c :: sep' ++ z) : Str) = '`' :: '`' :: '`' :: c :: (sep' ++ z) by simp]
    rw [countAux_step _ _ _ h1, countAux_step _ _ _ h2, countAux_step _ _ _ h3]
    have h4 : (pystr "```json").isPrefixOf (c :: (sep' ++ z)) = false := by
      simp [pystr, List.isPrefixOf, hct]
    rw [countAux_step _ _ _ h4]
    have := countAux_walk '`' (pystr "``json") sep' z
      (fun d hd => ((ws_not_fence (hsep d (by simp [hd]))).1))
    simpa [pystr] using this
  | nil =>
    rcases hz with rfl | ⟨w, rfl⟩
    · rfl
    · have h1 : (pystr "```json").isPrefixOf
          ('`' :: '`' :: '`' :: '`' :: '`' :: '`' :: 'j' :: 's' :: 'o' :: 'n' :: w) = false := by
        simp [pystr, List.isPrefixOf]
      have h2 : (pystr "```json").isPrefixOf
          ('`' :: '`' :: '`' :: '`' :: '`' :: 'j' :: 's' :: 'o' :: 'n' :: w) = false := by
        simp [pystr, List.isPrefixOf]
      have h3 : (pystr "```json").isPrefixOf
          ('`' :: '`' :: '`' :: '`' :: 'j' :: 's' :: 'o' :: 'n' :: w) = false := by
        simp [pystr, List.isPrefixOf]
      simp only [List.nil_append]
      rw [show (pystr "```json" ++ w : Str) = '`' :: '`' :: '`' :: 'j' :: 's' :: 'o' :: 'n' :: w from rfl]
      rw [countAux_step _ _ _ h1]
      rw [countAux_step _ _ _ h2]
      rw [countAux_step _ _ _ h3]

/-- The chain of `n` delimited blocks holds exactly `n` start markers. -/
theorem countS_chain : ∀ blocks : List (Str × Str),
    (∀ p ∈ blocks, (∀ c ∈ p.1, c ≠ '`') ∧ (∀ c ∈ p.2, isPySpace c)) →
    pyCountAux (pystr "```json") (fenceChain blocks) 0 = blocks.length := by
  intro blocks
  induction blocks with
  | nil => intro _; rfl
  | cons p rest ih =>
    intro hb
    obtain ⟨b, sep⟩ := p
    have hbody : ∀ c ∈ b, c ≠ '`' := (hb (b, sep) (by simp)).1
    have hsep : ∀ c ∈ sep, isPySpace c := (hb (b, sep) (by simp)).2
    have hrest := ih (fun q hq => hb q (by simp [hq]))
    show pyCountAux (pystr "```json")
        (pystr "```json" ++ b ++ pystr "```" ++ sep ++ fenceChain rest) 0 = rest.length + 1
    rw [show (pystr "```json" ++ b ++ pystr "```" ++ sep ++ fenceChain rest : Str) =
        '`' :: (pystr "``json" ++ (b ++ ('`' :: '`' :: '`' :: (sep ++ fenceChain rest)))) by
      simp [pystr]]
    rw [show (pystr "```json" : Str) = '`' :: pystr "``json" from rfl]
    rw [countAux_match '`' (pystr "``json")]
    rw [countAux_walk '`' (pystr "``json") b _ hbody]
    have hstep := countS_after_E sep hsep (fenceChain rest) (fenceChain_shape rest)
    rw [show ('`' :: pystr "``json" : Str) = pystr "```json" from rfl]
    rw [hstep, hrest]
    omega

/-- The chain of `n` delimited blocks holds exactly `2n` end markers (one
embedded in each start marker, one closer per block). -/
theorem countE_chain : ∀ blocks : List (Str × Str),
    (∀ p ∈ blocks, (∀ c ∈ p.1, c ≠ '`') ∧ (∀ c ∈ p.2, isPySpace c)) →
    pyCountAux (pystr "```") (fenceChain blocks) 0 = 2 * blocks.length := by
  intro blocks
  induction blocks with
  | nil => intro _; rfl
  | cons p rest ih =>
    intro hb
    obtain ⟨b, sep⟩ := p
    have hbody : ∀ c ∈ b, c ≠ '`' := (hb (b, sep) (by simp)).1
    have hsep : ∀ c ∈ sep, isPySpace c := (hb (b, sep) (by simp)).2
    have hrest := ih (fun q hq => hb q (by simp [hq]))
    show pyCountAux (pystr "```")
        (pystr "```json" ++ b ++ pystr "```" ++ sep ++ fenceChain rest) 0 = 2 * (rest.length + 1)
    rw [show (pystr "```json" ++ b ++ pystr "```" ++ sep ++ fenceChain rest : Str) =
        '`' :: (pystr "``" ++ ((pystr "json" ++ b) ++
          ('`' :: (pystr "``" ++ (sep ++ fenceChain rest))))) by simp [pystr]]
    rw [show (pystr "```" : Str) = '`' :: pystr "``" from rfl]
    rw [countAux_match '`' (pystr "``")]
    rw [countAux_walk '`' (pystr "``") (pystr "json" ++ b) _ (by
      intro c hc
      rcases List.mem_append.mp hc with h | h
      · revert h
        simp [pystr]
        rintro (rfl | rfl | rfl | rfl) <;> decide
      · exact hbody c h)]
    rw [countAux_match '`' (pystr "``")]
    rw [countAux_walk '`' (pystr "``") sep _ (fun c hc => (ws_not_fence (hsep c hc)).1)]
    rw [show ('`' :: pystr "``" : Str) = pystr "```" from rfl]
    rw [hrest]
    omega

/-- On a whitespace-separated chain of properly delimited fenced blocks, the
tag-balance pre-check passes: the embedded-end adjustment equalizes the
counts. -/
theorem fence_tag_balance (lead : Str) (blocks : List (Str × Str))
    (hlead : ∀ c ∈ lead, c ≠ '`')
    (hblocks : ∀ p ∈ blocks, (∀ c ∈ p.1, c ≠ '`') ∧ (∀ c ∈ p.2, isPySpace c)) :
    tagBalance (pystr "```json") (pystr "```") (lead ++ fenceChain blocks) = none := by
  have hS : pyCount (pystr "```json") (lead ++ fenceChain blocks) = blocks.length := by
    show (if (pystr "```json").isEmpty then _ else _) = _
    rw [if_neg (by decide)]
    rw [show (pystr "```json" : Str) = '`' :: pystr "``json" from rfl]
    rw [countAux_walk '`' (pystr "``json") lead _ hlead]
    rw [show ('`' :: pystr "``json" : Str) = pystr "```json" from rfl]
    exact countS_chain blocks hblocks
  have hE : pyCount (pystr "```") (lead ++ fenceChain blocks) = 2 * blocks.length := by
    show (if (pystr "```").isEmpty then _ else _) = _
    rw [if_neg (by decide)]
    rw [show (pystr "```" : Str) = '`' :: pystr "``" from rfl]
    rw [countAux_walk '`' (pystr "``") lead _ hlead]
    rw [show ('`' :: pystr "``" : Str) = pystr "```" from rfl]
    exact countE_chain blocks hblocks
  have hadj : adjEnds (pystr "```json") (pystr "```") (lead ++ fenceChain blocks) =
      (blocks.length : Int) := by
    unfold adjEnds
    rw [hS, hE]
    have hcnt : pyCount (pystr "```") (pystr "```json") = 1 := by decide
    rw [hcnt]
    cases Nat.eq_zero_or_pos blocks.length with
    | inl h =>
      rw [h]
      simp
    | inr h =>
      rw [if_pos ⟨by exact_mod_cast h, by decide⟩]
      push_cast
      ring
  unfold tagBalance
  rw [hS, hadj]
  simp



/-- The per-match loop of the XML extractor only ever reports
`TOOL_MALFORMATTED` or `TOOL_DUPLICATE_ARGUMENT`. -/
theorem xmlProcessMatches_errs : ∀ ms : List (Nat × Str × Nat),
    ∀ e ∈ (xmlProcessMatches ms).2,
      e = ToolError.TOOL_MALFORMATTED ∨ e = ToolError.TOOL_DUPLICATE_ARGUMENT := by
  intro ms
  induction ms with
  | nil => intro e he; simp [xmlProcessMatches] at he
  | cons m rest ih =>
    intro e he
    simp only [xmlProcessMatches] at he
    rcases hpr : xmlProcessMatches rest with ⟨calls, errs⟩
    rw [hpr] at he
    have ih' : ∀ e ∈ errs, e = ToolError.TOOL_MALFORMATTED ∨ e = ToolError.TOOL_DUPLICATE_ARGUMENT := by
      intro x hx
      exact ih x (by rw [hpr]; exact hx)
    by_cases hc : (pyStrip m.2.1).isEmpty
    · rw [if_pos hc] at he
      simp at he
      rcases he with rfl | he
      · exact .inl rfl
      · exact ih' e he
    · rw [if_neg hc] at he
      rcases hp : xmlParseSingleCall (pyStrip m.2.1) with pe | c
      · rw [hp] at he
        cases pe with
        | dup =>
          simp at he
          rcases he with rfl | he
          · exact .inr rfl
          · exact ih' e he
        | other =>
          simp at he
          rcases he with rfl | he
          · exact .inl rfl
          · exact ih' e he
      · rw [hp] at he
        simp at he
        exact ih' e he

/-- The per-match loop of the MD extractor only ever reports
`TOOL_MALFORMATTED` or `TOOL_DUPLICATE_ARGUMENT`. -/
theorem mdProcessMatches_errs : ∀ ms : List (Nat × Str × Nat),
    ∀ e ∈ (mdProcessMatches ms).2,
      e = ToolError.TOOL_MALFORMATTED ∨ e = ToolError.TOOL_DUPLICATE_ARGUMENT := by
  intro ms
  induction ms with
  | nil => intro e he; simp [mdProcessMatches] at he
  | cons m rest ih =>
    intro e he
    simp only [mdProcessMatches] at he
    rcases hpr : mdProcessMatches rest with ⟨calls, errs⟩
    rw [hpr] at he
    have ih' : ∀ e ∈ errs, e = ToolError.TOOL_MALFORMATTED ∨ e = ToolError.TOOL_DUPLICATE_ARGUMENT := by
      intro x hx
      exact ih x (by rw [hpr]; exact hx)
    by_cases hc : (pyStrip m.2.1).isEmpty
    · rw [if_pos hc] at he
      simp at he
      rcases he with rfl | he
      · exact .inl rfl
      · exact ih' e he
    · rw [if_neg hc] at he
      rcases hp : mdParseSingleCall (pyStrip m.2.1) with pe | c
      · rw [hp] at he
        cases pe with
        | dup =>
          simp at he
          rcases he with rfl | he
          · exact .inr rfl
          · exact ih' e he
        | other =>
          simp at he
          rcases he with rfl | he
          · exact .inl rfl
          · exact ih' e he
      · rw [hp] at he
        simp at he
        exact ih' e he

/-- Once the balance pre-check passes, the XML extractor's error list
contains only per-block parse errors. -/
theorem xmlExtract_errs_after_balance (ts te r : Str)
    (hbal : tagBalance ts te r = none) :
    ∀ e ∈ (xmlExtract ts te r).2.2,
      e = ToolError.TOOL_MALFORMATTED ∨ e = ToolError.TOOL_DUPLICATE_ARGUMENT := by
  intro e he
  unfold xmlExtract at he
  rw [hbal] at he
  rcases hfb : findBlocks ts te r with _ | ⟨m0, rest⟩
  · rw [hfb] at he
    simp at he
  · rw [hfb] at he
    dsimp only at he
    rcases hpr : xmlProcessMatches (m0 :: takeContiguous r m0.2.2 rest) with ⟨calls, errs⟩
    rw [hpr] at he
    by_cases hemp : errs.isEmpty
    · rw [if_pos hemp] at he
      simp at he
    · rw [if_neg hemp] at he
      simp only at he
      have := xmlProcessMatches_errs (m0 :: takeContiguous r m0.2.2 rest) e (by rw [hpr]; exact he)
      exact this

/-- Once the balance pre-check passes, the MD extractor's error list
contains only per-block parse errors. -/
theorem mdExtract_errs_after_balance (ts te r : Str)
    (hbal : tagBalance ts te r = none) :
    ∀ e ∈ (mdExtract ts te r).2.2,
      e = ToolError.TOOL_MALFORMATTED ∨ e = ToolError.TOOL_DUPLICATE_ARGUMENT := by
  intro e he
  unfold mdExtract at he
  rw [hbal] at he
  rcases hfb : findBlocks ts te r with _ | ⟨m0, rest⟩
  · rw [hfb] at he
    simp at he
  · rw [hfb] at he
    dsimp only at he
    rcases hpr : mdProcessMatches (m0 :: takeContiguous r m0.2.2 rest) with ⟨calls, errs⟩
    rw [hpr] at he
    by_cases hemp : errs.isEmpty
    · rw [if_pos hemp] at he
      simp at he
    · rw [if_neg hemp] at he
      simp only at he
      exact mdProcessMatches_errs (m0 :: takeContiguous r m0.2.2 rest) e (by rw [hpr]; exact he)

/-- C10.  With the fence markers (end marker a substring of the start
marker), the balance check subtracts the embedded end occurrences, so an
input that is leading text followed by properly delimited,
whitespace-separated blocks passes the pre-check, and neither the XML nor
the MD extractor reports `TOOL_START_MISSING` or `TOOL_END_MISSING` on it. -/
theorem fence_markers_no_balance_error (lead : Str) (blocks : List (Str × Str))
    (hlead : ∀ c ∈ lead, c ≠ '`')
    (hblocks : ∀ p ∈ blocks, (∀ c ∈ p.1, c ≠ '`') ∧ (∀ c ∈ p.2, isPySpace c)) :
    tagBalance (pystr "```json") (pystr "```") (lead ++ fenceChain blocks) = none ∧
    ToolError.TOOL_START_MISSING ∉
      (xmlExtract (pystr "```json") (pystr "```") (lead ++ fenceChain blocks)).2.2 ∧
    ToolError.TOOL_END_MISSING ∉
      (xmlExtract (pystr "```json") (pystr "```") (lead ++ fenceChain blocks)).2.2 ∧
    ToolError.TOOL_START_MISSING ∉
      (mdExtract (pystr "```json") (pystr "```") (lead ++ fenceChain blocks)).2.2 ∧
    ToolError.TOOL_END_MISSING ∉
      (mdExtract (pystr "```json") (pystr "```") (lead ++ fenceChain blocks)).2.2 := by
  have hbal := fence_tag_balance lead blocks hlead hblocks
  refine ⟨hbal, fun h => ?_, fun h => ?_, fun h => ?_, fun h => ?_⟩
  · rcases xmlExtract_errs_after_balance _ _ _ hbal _ h with h2 | h2 <;> exact ToolError.noConfusion h2
  · rcases xmlExtract_errs_after_balance _ _ _ hbal _ h with h2 | h2 <;> exact ToolError.noConfusion h2
  · rcases mdExtract_errs_after_balance _ _ _ hbal _ h with h2 | h2 <;> exact ToolError.noConfusion h2
  · rcases mdExtract_errs_after_balance _ _ _ hbal _ h with h2 | h2 <;> exact ToolError.noConfusion h2

/-- Witness for C10: leading text and two fenced blocks separated by a
newline. -/
theorem fence_markers_no_balance_error_witness :
    tagBalance (pystr "```json") (pystr "```")
      (pystr "Say:" ++ fenceChain [(pystr "\n{}\n", pystr "\n"), (pystr "\n[1]\n", [])]) = none ∧
    ToolError.TOOL_START_MISSING ∉
      (xmlExtract (pystr "```json") (pystr "```")
        (pystr "Say:" ++ fenceChain [(pystr "\n{}\n", pystr "\n"), (pystr "\n[1]\n", [])])).2.2 ∧
    ToolError.TOOL_END_MISSING ∉
      (xmlExtract (pystr "```json") (pystr "```")
        (pystr "Say:" ++ fenceChain [(pystr "\n{}\n", pystr "\n"), (pystr "\n[1]\n", [])])).2.2 ∧
    ToolError.TOOL_START_MISSING ∉
      (mdExtract (pystr "```json") (pystr "```")
        (pystr "Say:" ++ fenceChain [(pystr "\n{}\n", pystr "\n"), (pystr "\n[1]\n", [])])).2.2 ∧
    ToolError.TOOL_END_MISSING ∉
      (mdExtract (pystr "```json") (pystr "```")
        (pystr "Say:" ++ fenceChain [(pystr "\n{}\n", pystr "\n"), (pystr "\n[1]\n", [])])).2.2 :=
  fence_markers_no_balance_error (pystr "Say:")
    [(pystr "\n{}\n", pystr "\n"), (pystr "\n[1]\n", [])]
    (by decide) (by decide)


/-! ## Round-trip groundwork: decimal digits -/

/-- `digitChar` of a decimal digit is a digit character. -/
theorem digitChar_isDigit (n : Nat) (h : n < 10) : (digitChar n).isDigit := by
  interval_cases n <;> decide

/-- Reading a digit character back gives the digit. -/
theorem digitVal_digitChar (n : Nat) (h : n < 10) : digitVal (digitChar n) = n := by
  interval_cases n <;> decide

/-- The digit emitter ignores the exact fuel once it exceeds the number. -/
theorem natDigitsAux_irrel : ∀ (n f1 f2 : Nat), n < f1 → n < f2 →
    natDigitsAux f1 n = natDigitsAux f2 n := by
  intro n
  induction n using Nat.strong_induction_on with
  | _ n ih =>
    intro f1 f2 h1 h2
    match f1, f2, h1, h2 with
    | a + 1, b + 1, h1, h2 =>
      by_cases h10 : n < 10
      · simp [natDigitsAux, h10]
      · have hlt : n / 10 < n := Nat.div_lt_self (by omega) (by omega)
        simp only [natDigitsAux, h10, if_false]
        rw [ih (n / 10) hlt a b (by omega) (by omega)]

/-- Unfolding `natDigits` one decimal digit at a time. -/
theorem natDigits_step (n : Nat) (h : ¬n < 10) :
    natDigits n = natDigits (n / 10) ++ [digitChar (n % 10)] := by
  have hlt : n / 10 < n := Nat.div_lt_self (by omega) (by omega)
  show natDigitsAux (n + 1) n = _
  rw [show natDigitsAux (n + 1) n =
      natDigitsAux n (n / 10) ++ [digitChar (n % 10)] by simp [natDigitsAux, h]]
  rw [natDigitsAux_irrel (n / 10) n (n / 10 + 1) (by omega) (by omega)]
  rfl

/-- Digits emitted by `natDigits` are decimal digits. -/
theorem natDigits_digits : ∀ n : Nat, ∀ c ∈ natDigits n, c.isDigit := by
  intro n
  induction n using Nat.strong_induction_on with
  | _ n ih =>
    by_cases h : n < 10
    · intro c hc
      rw [show natDigits n = [digitChar n] by simp [natDigits, natDigitsAux, h]] at hc
      simp at hc
      subst hc
      exact digitChar_isDigit n h
    · intro c hc
      rw [natDigits_step n h] at hc
      rcases List.mem_append.mp hc with h2 | h2
      · exact ih (n / 10) (Nat.div_lt_self (by omega) (by omega)) c h2
      · simp at h2
        subst h2
        exact digitChar_isDigit (n % 10) (Nat.mod_lt _ (by omega))

/-- `natDigits` emits at least one digit. -/
theorem natDigits_ne_nil (n : Nat) : natDigits n ≠ [] := by
  by_cases h : n < 10
  · rw [show natDigits n = [digitChar n] by simp [natDigits, natDigitsAux, h]]
    simp
  · rw [natDigits_step n h]
    simp

/-- Reading back the digits of `n` yields `n`. -/
theorem digitsToNat_natDigits : ∀ n : Nat, digitsToNat (natDigits n) = n := by
  have haux : ∀ (ds : Str) (acc : Nat),
      (ds.foldl (fun a c => a * 10 + digitVal c) acc) =
        acc * 10 ^ ds.length + ds.foldl (fun a c => a * 10 + digitVal c) 0 := by
    intro ds
    induction ds with
    | nil => intro acc; simp
    | cons c rest ih =>
      intro acc
      simp only [List.foldl_cons, List.length_cons]
      rw [ih (acc * 10 + digitVal c), ih (0 * 10 + digitVal c)]
      ring
  intro n
  induction n using Nat.strong_induction_on with
  | _ n ih =>
    by_cases h : n < 10
    · rw [show natDigits n = [digitChar n] by simp [natDigits, natDigitsAux, h]]
      simp [digitsToNat, digitVal_digitChar n h]
    · rw [natDigits_step n h]
      unfold digitsToNat
      rw [List.foldl_append]
      have h1 : digitsToNat (natDigits (n / 10)) = n / 10 :=
        ih (n / 10) (Nat.div_lt_self (by omega) (by omega))
      unfold digitsToNat at h1
      rw [h1]
      simp only [List.foldl_cons, List.foldl_nil]
      rw [digitVal_digitChar (n % 10) (Nat.mod_lt _ (by omega))]
      omega



/-! ## Round-trip groundwork: `str.strip` -/

/-- A decimal digit is not Python whitespace. -/
theorem digit_not_space {c : Char} (h : c.isDigit = true) : isPySpace c = false := by
  simp only [isPySpace, Bool.or_eq_false_iff, decide_eq_false_iff_not]
  refine ⟨⟨⟨⟨⟨?_, ?_⟩, ?_⟩, ?_⟩, ?_⟩, ?_⟩ <;>
    (intro he; subst he; exact absurd h (by decide))

/-- `lstrip` keeps a string whose first character is not whitespace. -/
theorem pyLstrip_cons {c : Char} (rest : Str) (h : isPySpace c = false) :
    pyLstrip (c :: rest) = c :: rest := by
  simp [pyLstrip, List.dropWhile_cons, h]

/-- `rstrip` keeps a string whose last character is not whitespace. -/
theorem pyRstrip_concat {c : Char} (x : Str) (h : isPySpace c = false) :
    pyRstrip (x ++ [c]) = x ++ [c] := by
  simp [pyRstrip, List.dropWhile_cons, h]

/-- Any nonempty list decomposes as `dropLast` plus its last element. -/
theorem exists_last_decomp {α : Type} (x : List α) (hx : x ≠ []) :
    ∃ d, x = x.dropLast ++ [d] ∧ d ∈ x := by
  rcases List.eq_nil_or_concat x with h | ⟨y, d, h⟩
  · exact absurd h hx
  · subst h
    exact ⟨d, by simp, by simp⟩

/-- `strip` keeps `c :: x` when `c` and the last character are not
whitespace. -/
theorem pyStrip_cons_of_last {c d : Char} (x : Str) (hc : isPySpace c = false)
    (hd : isPySpace d = false) (hx : x.getLast? = some d) :
    pyStrip (c :: x) = c :: x := by
  have hne : x ≠ [] := by intro h; rw [h] at hx; simp at hx
  obtain ⟨e, hdec, hmem⟩ := exists_last_decomp x hne
  have he : e = d := by
    rw [hdec, List.getLast?_concat] at hx
    exact Option.some.inj hx
  subst he
  unfold pyStrip
  rw [pyLstrip_cons x hc]
  conv_lhs => rw [hdec]
  rw [show (c :: (x.dropLast ++ [e]) : Str) = (c :: x.dropLast) ++ [e] from rfl,
    pyRstrip_concat _ hd]
  conv_rhs => rw [hdec]
  rfl

/-- `strip` of a one-character non-whitespace string. -/
theorem pyStrip_single {c : Char} (hc : isPySpace c = false) :
    pyStrip [c] = [c] := by
  unfold pyStrip
  rw [pyLstrip_cons [] hc]
  show pyRstrip ([] ++ [c]) = [] ++ [c]
  rw [pyRstrip_concat [] hc]

/-- `strip` keeps any nonempty all-digits string. -/
theorem pyStrip_digits (x : Str) (hx : x ≠ []) (hd : ∀ c ∈ x, c.isDigit) :
    pyStrip x = x := by
  match x, hx with
  | [c], _ => exact pyStrip_single (digit_not_space (hd c (by simp)))
  | c :: a :: r, _ =>
    obtain ⟨d, hdec, hmem⟩ := exists_last_decomp (a :: r) (by simp)
    refine pyStrip_cons_of_last (a :: r) (digit_not_space (hd c (by simp)))
      (digit_not_space (hd d (by simp [hmem]))) ?_
    rw [hdec, List.getLast?_concat]

/-! ## Round-trip groundwork: `int()` on `str(n)` -/

/-- `signSplit` on a string with no leading sign. -/
theorem signSplit_other {c : Char} (r : Str) (h1 : ¬c = '-') (h2 : ¬c = '+') :
    signSplit (c :: r) = (false, c :: r) := by
  unfold signSplit
  split
  · rename_i heq
    rw [List.cons.injEq] at heq
    exact absurd heq.1 h1
  · rename_i heq
    rw [List.cons.injEq] at heq
    exact absurd heq.1 h2
  · rfl

/-- A pattern whose first character is absent from the text never occurs. -/
theorem pyContains_false {p : Char} (ps : Str) : ∀ (t : Str), p ∉ t →
    pyContains (p :: ps) t = false := by
  intro t
  induction t with
  | nil => intro _; rfl
  | cons c rest ih =>
    intro h
    have hc : (p == c) = false := by
      rw [beq_eq_false_iff_ne]
      intro he
      exact h (by simp [he])
    simp only [pyContains, Bool.or_eq_false_iff, List.isPrefixOf, Bool.and_eq_false_iff]
    exact ⟨Or.inl hc, ih fun hm => h (by simp [hm])⟩

/-- A nonempty all-digits string is a valid `int()` body. -/
theorem digitsOk_of_digits (x : Str) (hx : x ≠ []) (hd : ∀ c ∈ x, c.isDigit) :
    digitsUnderscoreOk x = true := by
  match x, hx with
  | c :: r, _ =>
    have hnou : '_' ∉ c :: r := fun hm => by
      have := hd '_' hm
      exact absurd this (by decide)
    simp only [digitsUnderscoreOk, Bool.and_eq_true]
    refine ⟨⟨⟨hd c (by simp), ?_⟩, ?_⟩, ?_⟩
    · obtain ⟨d, hdec, hmem⟩ := exists_last_decomp (c :: r) (by simp)
      rw [hdec]
      simp [List.getLast?_concat, hd d hmem]
    · simp only [List.all_eq_true]
      intro a ha
      simp [hd a ha]
    · rw [show pystr "__" = ('_' :: ['_'] : Str) from rfl,
        pyContains_false ['_'] (c :: r) hnou]
      rfl

/-- Digit strings are unchanged by the underscore filter. -/
theorem filter_underscore_digits (x : Str) (hd : ∀ c ∈ x, c.isDigit) :
    x.filter (· ≠ '_') = x := by
  apply List.filter_eq_self.mpr
  intro a ha
  have := hd a ha
  simp only [decide_eq_true_eq]
  intro he
  subst he
  exact absurd this (by decide)

/-- Projection form of `pyIntParse` (by structure eta). -/
theorem pyIntParse_eval (s : Str) :
    pyIntParse s =
      (if digitsUnderscoreOk (signSplit (pyStrip s)).2 then
        some (if (signSplit (pyStrip s)).1 then
                -(digitsToNat ((signSplit (pyStrip s)).2.filter (· ≠ '_')) : Int)
              else (digitsToNat ((signSplit (pyStrip s)).2.filter (· ≠ '_')) : Int))
      else none) := rfl

/-- `int(str(n)) == n`. -/
theorem pyIntParse_intStr (n : Int) : pyIntParse (intStr n) = some n := by
  have hdig := natDigits_digits n.natAbs
  have hne := natDigits_ne_nil n.natAbs
  have hok := digitsOk_of_digits _ hne hdig
  have hfil := filter_underscore_digits _ hdig
  by_cases hn : n < 0
  · have hstr : intStr n = '-' :: natDigits n.natAbs := by simp [intStr, hn]
    have hstrip : pyStrip ('-' :: natDigits n.natAbs) = '-' :: natDigits n.natAbs := by
      obtain ⟨d, hdec, hmem⟩ := exists_last_decomp (natDigits n.natAbs) hne
      refine pyStrip_cons_of_last _ (by decide) (digit_not_space (hdig d hmem)) ?_
      rw [hdec, List.getLast?_concat]
    rw [hstr, pyIntParse_eval, hstrip,
      show (signSplit ('-' :: natDigits n.natAbs)).2 = natDigits n.natAbs from rfl,
      show (signSplit ('-' :: natDigits n.natAbs)).1 = true from rfl,
      if_pos hok, hfil, digitsToNat_natDigits]
    show some (-(n.natAbs : Int)) = some n
    exact congrArg some (by omega)
  · have hstr : intStr n = natDigits n.natAbs := by simp [intStr, hn]
    rw [hstr, pyIntParse_eval, pyStrip_digits _ hne hdig]
    match hnd : natDigits n.natAbs, hne with
    | c :: r, _ =>
      have hc := hdig c (by rw [hnd]; simp)
      have hcm : ¬c = '-' := fun he => by subst he; exact absurd hc (by decide)
      have hcp : ¬c = '+' := fun he => by subst he; exact absurd hc (by decide)
      rw [hnd] at hok hfil
      rw [signSplit_other r hcm hcp,
        show ((false, c :: r) : Bool × Str).2 = c :: r from rfl,
        show ((false, c :: r) : Bool × Str).1 = false from rfl,
        if_pos hok, hfil,
        show digitsToNat (c :: r) = n.natAbs by rw [← hnd]; exact digitsToNat_natDigits _]
      show some ((n.natAbs : Int)) = some n
      exact congrArg some (by omega)



/-! ## Round-trip groundwork: character classes and `lower` -/

/-- Digit bounds on code points. -/
theorem digit_bounds {c : Char} (h : c.isDigit = true) :
    48 ≤ c.toNat ∧ c.toNat ≤ 57 := by
  simp [Char.isDigit, Char.le_def] at h
  exact h

/-- `lower` fixes decimal digits. -/
theorem digit_toLower {c : Char} (h : c.isDigit = true) : c.toLower = c := by
  have hb := digit_bounds h
  unfold Char.toLower
  have hcond : ¬(c.toNat ≥ 65 ∧ c.toNat ≤ 90) := by omega
  simp [hcond]

/-- `pyLower` of a cons matching a nonempty target forces the head. -/
theorem pyLower_cons_eq {c : Char} {r : Str} {d : Char} {ds : Str}
    (h : pyLower (c :: r) = d :: ds) : c.toLower = d := by
  simp only [pyLower, List.map_cons, List.cons.injEq] at h
  exact h.1

/-! ## Round-trip groundwork: the XML escaping -/

/-- Replacing a single character erases it when absent from the
replacement. -/
theorem replace_single_all {c : Char} {rep : Str} (hc : c ∉ rep) :
    ∀ t : Str, c ∉ pyReplaceAux [c] rep t 0 := by
  intro t
  induction t with
  | nil => simp [pyReplaceAux]
  | cons d rest ih =>
    by_cases hd : ([c] : Str).isPrefixOf (d :: rest)
    · rw [show pyReplaceAux [c] rep (d :: rest) 0 = rep ++ pyReplaceAux [c] rep rest 0 by
        simp [pyReplaceAux, hd]]
      simp only [List.mem_append]
      rintro (hm | hm)
      · exact hc hm
      · exact ih hm
    · rw [show pyReplaceAux [c] rep (d :: rest) 0 = d :: pyReplaceAux [c] rep rest 0 by
        simp [pyReplaceAux, hd]]
      have hdc : ¬c = d := by
        intro he
        subst he
        exact hd (by simp [List.isPrefixOf])
      simp only [List.mem_cons]
      rintro (hm | hm)
      · exact hdc hm
      · exact ih hm

/-- Replacement keeps a character absent when it is absent from both the
text and the replacement. -/
theorem replace_keeps_absent {pat rep : Str} {c : Char} (hrep : c ∉ rep) :
    ∀ (t : Str) (skip : Nat), c ∉ t → c ∉ pyReplaceAux pat rep t skip := by
  intro t
  induction t with
  | nil => intro skip _; simp [pyReplaceAux]
  | cons d rest ih =>
    intro skip ht
    have hd : ¬c = d := fun he => ht (by simp [he])
    have hrest : c ∉ rest := fun hm => ht (by simp [hm])
    match skip with
    | sk + 1 =>
      rw [show pyReplaceAux pat rep (d :: rest) (sk + 1) = pyReplaceAux pat rep rest sk from rfl]
      exact ih sk hrest
    | 0 =>
      by_cases hp : pat.isPrefixOf (d :: rest) ∧ ¬pat.isEmpty
      · rw [show pyReplaceAux pat rep (d :: rest) 0 =
            rep ++ pyReplaceAux pat rep rest (pat.length - 1) by
          simp [pyReplaceAux, hp.1, hp.2]]
        simp only [List.mem_append]
        rintro (hm | hm)
        · exact hrep hm
        · exact ih _ hrest hm
      · rw [show pyReplaceAux pat rep (d :: rest) 0 = d :: pyReplaceAux pat rep rest 0 by
          simp only [pyReplaceAux, if_neg hp]]
        simp only [List.mem_cons]
        rintro (hm | hm)
        · exact hd hm
        · exact ih 0 hrest hm

/-- Replacement is the identity when the pattern's first character is
absent. -/
theorem replace_noop {a : Char} (as rep : Str) :
    ∀ t : Str, a ∉ t → pyReplace (a :: as) rep t = t := by
  intro t
  induction t with
  | nil => intro _; rfl
  | cons d rest ih =>
    intro ht
    have hd : ¬a = d := fun he => ht (by simp [he])
    have hp : ¬((a :: as : Str).isPrefixOf (d :: rest) ∧ ¬(a :: as : Str).isEmpty) := by
      rintro ⟨h1, _⟩
      simp [List.isPrefixOf] at h1
      exact hd h1.1
    unfold pyReplace
    rw [show pyReplaceAux (a :: as) rep (d :: rest) 0 =
        d :: pyReplaceAux (a :: as) rep rest 0 by simp only [pyReplaceAux, if_neg hp]]
    have := ih fun hm => ht (by simp [hm])
    unfold pyReplace at this
    rw [this]

/-- The builder's escaping removes every angle bracket. -/
theorem xmlEscape_no_angle (s : Str) : '<' ∉ xmlEscape s ∧ '>' ∉ xmlEscape s := by
  unfold xmlEscape
  have h1 : '<' ∉ pyReplace (pystr "<") (pystr "&lt;")
      (pyReplace (pystr "&") (pystr "&amp;") s) :=
    replace_single_all (by decide) _
  have h2 : '<' ∉ pyReplace (pystr ">") (pystr "&gt;")
      (pyReplace (pystr "<") (pystr "&lt;") (pyReplace (pystr "&") (pystr "&amp;") s)) :=
    replace_keeps_absent (by decide) _ 0 h1
  have h2b : '>' ∉ pyReplace (pystr ">") (pystr "&gt;")
      (pyReplace (pystr "<") (pystr "&lt;") (pyReplace (pystr "&") (pystr "&amp;") s)) :=
    replace_single_all (by decide) _
  exact ⟨replace_keeps_absent (by decide) _ 0 (replace_keeps_absent (by decide) _ 0 h2),
         replace_keeps_absent (by decide) _ 0 (replace_keeps_absent (by decide) _ 0 h2b)⟩

/-- The extractor's unescaping is the identity on ampersand-free text. -/
theorem xmlUnescape_noop (s : Str) (h : '&' ∉ s) : xmlUnescape s = s := by
  unfold xmlUnescape
  rw [show pystr "&amp;" = ('&' :: pystr "amp;") from rfl,
      replace_noop (pystr "amp;") (pystr "&") s h,
      show pystr "&lt;" = ('&' :: pystr "lt;") from rfl,
      replace_noop (pystr "lt;") (pystr "<") s h,
      show pystr "&gt;" = ('&' :: pystr "gt;") from rfl,
      replace_noop (pystr "gt;") (pystr ">") s h,
      show pystr "&quot;" = ('&' :: pystr "quot;") from rfl,
      replace_noop (pystr "quot;") (pystr "\"") s h,
      show pystr "&apos;" = ('&' :: pystr "apos;") from rfl,
      replace_noop (pystr "apos;") (pystr "'") s h]

/-- The builder's escaping is the identity on text with no escapable
character. -/
theorem xmlEscape_noop (s : Str) (h : '&' ∉ s ∧ '<' ∉ s ∧ '>' ∉ s ∧ '"' ∉ s ∧ '\'' ∉ s) :
    xmlEscape s = s := by
  unfold xmlEscape
  rw [show pystr "&" = ('&' :: ([] : Str)) from rfl,
      replace_noop [] (pystr "&amp;") s h.1,
      show pystr "<" = ('<' :: ([] : Str)) from rfl,
      replace_noop [] (pystr "&lt;") s h.2.1,
      show pystr ">" = ('>' :: ([] : Str)) from rfl,
      replace_noop [] (pystr "&gt;") s h.2.2.1,
      show pystr "\"" = ('"' :: ([] : Str)) from rfl,
      replace_noop [] (pystr "&quot;") s h.2.2.2.1,
      show pystr "'" = ('\'' :: ([] : Str)) from rfl,
      replace_noop [] (pystr "&apos;") s h.2.2.2.2]



/-- `dropWhile` keeps every element the predicate rejects. -/
theorem mem_dropWhile_of {α : Type} {p : α → Bool} {m : α} :
    ∀ {l : List α}, m ∈ l → p m = false → m ∈ l.dropWhile p := by
  intro l
  induction l with
  | nil => intro h _; exact absurd h (by simp)
  | cons a rest ih =>
    intro hm hp
    by_cases ha : p a
    · rw [List.dropWhile_cons_of_pos ha]
      rcases List.mem_cons.mp hm with he | hr
      · subst he
        rw [hp] at ha
        exact absurd ha (by simp)
      · exact ih hr hp
    · rw [List.dropWhile_cons_of_neg ha]
      exact hm

/-- `strip` keeps every non-whitespace character. -/
theorem mem_pyStrip {m : Char} {s : Str} (hm : m ∈ s) (hp : isPySpace m = false) :
    m ∈ pyStrip s := by
  unfold pyStrip pyRstrip pyLstrip
  have h1 : m ∈ s.dropWhile isPySpace := mem_dropWhile_of hm hp
  have h2 : m ∈ (s.dropWhile isPySpace).reverse := by simpa using h1
  simpa using mem_dropWhile_of h2 hp

/-- Exhaustive description of `signSplit`. -/
theorem signSplit_cases (t : Str) :
    signSplit t = (false, t) ∨
    (∃ r, t = '-' :: r ∧ signSplit t = (true, r)) ∨
    (∃ r, t = '+' :: r ∧ signSplit t = (false, r)) := by
  unfold signSplit
  split
  · rename_i r
    exact Or.inr (Or.inl ⟨r, rfl, rfl⟩)
  · rename_i r
    exact Or.inr (Or.inr ⟨r, rfl, rfl⟩)
  · exact Or.inl rfl

/-- Every character of a valid `int()` body is a digit or underscore. -/
theorem digitsOk_mem {l : Str} (h : digitsUnderscoreOk l = true) :
    ∀ c ∈ l, c.isDigit ∨ c = '_' := by
  intro c hc
  match l, hc with
  | a :: r, hc =>
    simp only [digitsUnderscoreOk, Bool.and_eq_true, List.all_eq_true] at h
    have := h.1.2 c hc
    simpa using this

/-- `int()` rejects any string holding a non-sign, non-digit,
non-underscore, non-whitespace character. -/
theorem pyIntParse_none_of_mark {m : Char} {s : Str} (hm : m ∈ s)
    (h1 : m.isDigit = false) (h2 : ¬m = '_') (h3 : ¬m = '-') (h4 : ¬m = '+')
    (h5 : isPySpace m = false) : pyIntParse s = none := by
  rw [pyIntParse_eval]
  have hmt : m ∈ pyStrip s := mem_pyStrip hm h5
  have hbody : m ∈ (signSplit (pyStrip s)).2 := by
    rcases signSplit_cases (pyStrip s) with h | ⟨r, hr, h⟩ | ⟨r, hr, h⟩
    · rw [h]
      exact hmt
    · rw [h]
      rw [hr] at hmt
      rcases List.mem_cons.mp hmt with he | hrr
      · exact absurd he h3
      · exact hrr
    · rw [h]
      rw [hr] at hmt
      rcases List.mem_cons.mp hmt with he | hrr
      · exact absurd he h4
      · exact hrr
  have hok : digitsUnderscoreOk (signSplit (pyStrip s)).2 = false := by
    by_cases hq : digitsUnderscoreOk (signSplit (pyStrip s)).2 = true
    · rcases digitsOk_mem hq m hbody with hd | hu
      · rw [hd] at h1
        exact absurd h1 (by simp)
      · exact absurd hu h2
    · simpa using hq
  rw [hok]
  simp



/-- Projection form of `pyFloatParse` (by structure eta). -/
theorem pyFloatParse_eval (s : Str) : pyFloatParse s =
    (if pyLower (signSplit (pyStrip s)).2 = pystr "inf" ∨
        pyLower (signSplit (pyStrip s)).2 = pystr "infinity" then
      some (.inf (signSplit (pyStrip s)).1)
    else if pyLower (signSplit (pyStrip s)).2 = pystr "nan" then some .nan
    else if !(expSplit (signSplit (pyStrip s)).2).2.1 then none
    else mantissaParse (signSplit (pyStrip s)).1
          (expSplit (signSplit (pyStrip s)).2).1
          (expSplit (signSplit (pyStrip s)).2).2.2) := rfl

/-- Characters produced by a successful `digitGroup` are digits. -/
theorem digitGroup_digits {s ds : Str} (h : digitGroup s = some ds) :
    ∀ c ∈ ds, c.isDigit := by
  unfold digitGroup at h
  split at h
  · rename_i hok
    intro c hc
    rw [← Option.some.inj h] at hc
    have hmem := List.mem_of_mem_filter hc
    rcases digitsOk_mem hok c hmem with hd | hu
    · exact hd
    · subst hu
      have hkeep := List.of_mem_filter hc
      simp at hkeep
  · exact absurd h (by simp)

/-- `normFloat` over digit input yields a nonempty digit significand. -/
theorem normFloat_shape {neg : Bool} {digits : Str} {e : Int}
    (hd : ∀ c ∈ digits, c.isDigit) :
    ∃ ds ex, normFloat neg digits e = .fin neg ds ex ∧ ds ≠ [] ∧
      ∀ c ∈ ds, c.isDigit := by
  unfold normFloat
  by_cases hz : (digits.dropWhile (· = '0')).isEmpty
  · refine ⟨['0'], 0, by simp [hz], by simp, by simp⟩
  · simp only [hz, if_false]
    have hdsne : digits.dropWhile (· = '0') ≠ [] := by
      intro h
      rw [h] at hz
      simp at hz
    have hdsd : ∀ c ∈ digits.dropWhile (· = '0'), c.isDigit := fun c hc =>
      hd c (List.dropWhile_sublist _ |>.mem hc)
    have hh0 : ∀ (w : digits.dropWhile (· = '0') ≠ []),
        ¬(digits.dropWhile (· = '0')).head w = '0' := by
      intro w
      have := List.head_dropWhile_not (fun x => decide (x = '0')) digits w
      simpa using this
    refine ⟨((digits.dropWhile (· = '0')).reverse.dropWhile (· = '0')).reverse, _,
      rfl, ?_, ?_⟩
    · intro hnil
      have h0 : (digits.dropWhile (· = '0')).reverse.dropWhile (· = '0') = [] := by
        have := congrArg List.reverse hnil
        simpa using this
      rw [List.dropWhile_eq_nil_iff] at h0
      have hmem : (digits.dropWhile (· = '0')).head hdsne ∈
          (digits.dropWhile (· = '0')).reverse := by
        simp [List.head_mem]
      have := h0 _ hmem
      simp at this
      exact hh0 hdsne this
    · intro c hc
      have h1 : c ∈ (digits.dropWhile (· = '0')).reverse.dropWhile (· = '0') := by
        simpa using hc
      have h2 : c ∈ (digits.dropWhile (· = '0')).reverse := (List.dropWhile_sublist _).mem h1
      exact hdsd c (by simpa using h2)

/-- A finite mantissa-parse result has a nonempty all-digit significand. -/
theorem mantissaParse_fin_shape {neg b : Bool} {mant ds : Str} {ev e : Int}
    (h : mantissaParse neg mant ev = some (.fin b ds e)) :
    ds ≠ [] ∧ ∀ c ∈ ds, c.isDigit := by
  unfold mantissaParse at h
  split at h
  · dsimp only at h
    split at h
    · exact absurd h (by simp)
    · split at h
      · rename_i ids fds hids hfds
        have hdig : ∀ c ∈ ids ++ fds, c.isDigit := by
          intro c hc
          rcases List.mem_append.mp hc with hm | hm
          · split at hids
            · rw [← Option.some.inj hids] at hm
              simp at hm
            · exact digitGroup_digits hids c hm
          · split at hfds
            · rw [← Option.some.inj hfds] at hm
              simp at hm
            · exact digitGroup_digits hfds c hm
        obtain ⟨ds2, ex2, heq, hne, hdd⟩ := normFloat_shape hdig
        rw [heq] at h
        have h2 := Option.some.inj h
        cases h2
        exact ⟨hne, hdd⟩
      · exact absurd h (by simp)
  · split at h
    · rename_i dsg hdsg
      have hdig := digitGroup_digits hdsg
      obtain ⟨ds2, ex2, heq, hne, hdd⟩ := normFloat_shape hdig
      rw [heq] at h
      have h2 := Option.some.inj h
      cases h2
      exact ⟨hne, hdd⟩
    · exact absurd h (by simp)

/-- A finite `float()` result has a nonempty all-digit significand. -/
theorem pyFloatParse_fin_shape {s : Str} {b : Bool} {ds : Str} {e : Int}
    (h : pyFloatParse s = some (.fin b ds e)) :
    ds ≠ [] ∧ ∀ c ∈ ds, c.isDigit := by
  rw [pyFloatParse_eval] at h
  split at h
  · exact absurd (Option.some.inj h) (by intro hq; cases hq)
  · split at h
    · exact absurd (Option.some.inj h) (by intro hq; cases hq)
    · split at h
      · exact absurd h (by simp)
      · exact mantissaParse_fin_shape h



/-- Projection form of `parse_value` (by zeta reduction). -/
theorem parseValue_eval (s : Str) : parseValue s =
    (if pyLower (pyStrip s) = pystr "true" then .vbool true
     else if pyLower (pyStrip s) = pystr "false" then .vbool false
     else match pyIntParse (pyStrip s) with
     | some n => .vint n
     | none =>
       match pyFloatParse (pyStrip s) with
       | some f => .vfloat f
       | none =>
         match literalEval (pyStrip s) with
         | some (.vlist xs) => .vlist xs
         | some (.vdict xs) => .vdict xs
         | _ => .vstr (pyStrip s)) := rfl

/-- `dropWhile` is the identity when nothing satisfies the predicate. -/
theorem dropWhile_id_of_none {α : Type} {p : α → Bool} :
    ∀ {l : List α}, (∀ c ∈ l, p c = false) → l.dropWhile p = l := by
  intro l h
  match l with
  | [] => rfl
  | c :: rest => exact List.dropWhile_cons_of_neg (by simp [h c (by simp)])

/-- `strip` keeps a string with no whitespace at all. -/
theorem pyStrip_noop_of_all {s : Str} (h : ∀ c ∈ s, isPySpace c = false) :
    pyStrip s = s := by
  unfold pyStrip pyLstrip pyRstrip
  rw [dropWhile_id_of_none h, dropWhile_id_of_none (by simpa using h)]
  simp

/-- Branch form of `str(float)` on a finite value. -/
theorem pyFloatStr_fin_eval (neg : Bool) (ds : Str) (e : Int) :
    pyFloatStr (.fin neg ds e) =
    (if ds = ['0'] then (if neg then ['-'] else []) ++ pystr "0.0"
     else if -4 ≤ ((ds.length : Int) + e - 1) ∧ ((ds.length : Int) + e - 1) ≤ 15 then
       if 0 ≤ e then
         (if neg then ['-'] else []) ++ ds ++ List.replicate e.toNat '0' ++ pystr ".0"
       else if 0 < ((ds.length : Int) + e) then
         (if neg then ['-'] else []) ++ ds.take ((ds.length : Int) + e).toNat ++
           '.' :: ds.drop ((ds.length : Int) + e).toNat
       else
         (if neg then ['-'] else []) ++ pystr "0." ++
           List.replicate (-((ds.length : Int) + e)).toNat '0' ++ ds
     else
       ((if neg then ['-'] else []) ++ (ds.head?).toList ++
         (if ds.tail.isEmpty then [] else '.' :: ds.tail)) ++
         'e' :: (if ((ds.length : Int) + e - 1) < 0 then '-' else '+') ::
           pad2 (natDigits ((ds.length : Int) + e - 1).natAbs)) := rfl

/-- Character classes of `str(float)` output. -/
theorem floatStr_chars (neg : Bool) (ds : Str) (e : Int)
    (hdig : ∀ c ∈ ds, c.isDigit) :
    ∀ c ∈ pyFloatStr (.fin neg ds e),
      c.isDigit ∨ c = '-' ∨ c = '.' ∨ c = 'e' ∨ c = '+' := by
  intro c hc
  have hsign : ∀ d, d ∈ (if neg then ['-'] else ([] : Str)) → d = '-' := by
    intro d hd
    cases neg <;> simp at hd
    exact hd
  rw [pyFloatStr_fin_eval] at hc
  split at hc
  next =>
    rcases List.mem_append.mp hc with hm | hm
    · exact Or.inr (Or.inl (hsign c hm))
    · rcases hm with _ | ⟨_, hm⟩
      · exact Or.inl (by decide)
      · rcases hm with _ | ⟨_, hm⟩
        · exact Or.inr (Or.inr (Or.inl rfl))
        · rcases hm with _ | ⟨_, hm⟩
          · exact Or.inl (by decide)
          · exact absurd hm (List.not_mem_nil c)
  next =>
    split at hc
    next =>
      split at hc
      next =>
        rcases List.mem_append.mp hc with hm | hm
        · rcases List.mem_append.mp hm with hm | hm
          · rcases List.mem_append.mp hm with hm | hm
            · exact Or.inr (Or.inl (hsign c hm))
            · exact Or.inl (hdig c hm)
          · exact Or.inl (by rw [List.eq_of_mem_replicate hm]; decide)
        · rcases hm with _ | ⟨_, hm⟩
          · exact Or.inr (Or.inr (Or.inl rfl))
          · rcases hm with _ | ⟨_, hm⟩
            · exact Or.inl (by decide)
            · exact absurd hm (List.not_mem_nil c)
      next =>
        split at hc
        next =>
          rcases List.mem_append.mp hc with hm | hm
          · rcases List.mem_append.mp hm with hm | hm
            · exact Or.inr (Or.inl (hsign c hm))
            · exact Or.inl (hdig c (List.take_subset _ _ hm))
          · rcases hm with _ | ⟨_, hm⟩
            · exact Or.inr (Or.inr (Or.inl rfl))
            · exact Or.inl (hdig c (List.drop_subset _ _ hm))
        next =>
          rcases List.mem_append.mp hc with hm | hm
          · rcases List.mem_append.mp hm with hm | hm
            · rcases List.mem_append.mp hm with hm | hm
              · exact Or.inr (Or.inl (hsign c hm))
              · rcases hm with _ | ⟨_, hm⟩
                · exact Or.inl (by decide)
                · rcases hm with _ | ⟨_, hm⟩
                  · exact Or.inr (Or.inr (Or.inl rfl))
                  · exact absurd hm (List.not_mem_nil c)
            · exact Or.inl (by rw [List.eq_of_mem_replicate hm]; decide)
          · exact Or.inl (hdig c hm)
    next =>
      rcases List.mem_append.mp hc with hm | hm
      · rcases List.mem_append.mp hm with hm | hm
        · rcases List.mem_append.mp hm with hm | hm
          · exact Or.inr (Or.inl (hsign c hm))
          · match hq : ds.head?, hm with
            | some d, hm =>
              have hcd : c = d := by simpa using hm
              subst hcd
              exact Or.inl (hdig c (List.mem_of_mem_head? hq))
            | none, hm =>
              exact absurd hm (by simp)
        · split at hm
          · exact absurd hm (List.not_mem_nil c)
          · rcases hm with _ | ⟨_, hm⟩
            · exact Or.inr (Or.inr (Or.inl rfl))
            · exact Or.inl (hdig c (List.tail_subset _ hm))
      · rcases hm with _ | ⟨_, hm⟩
        · exact Or.inr (Or.inr (Or.inr (Or.inl rfl)))
        · rcases hm with _ | ⟨_, hm⟩
          · split
            · exact Or.inr (Or.inl rfl)
            · exact Or.inr (Or.inr (Or.inr (Or.inr rfl)))
          · unfold pad2 at hm
            split at hm
            · rcases hm with _ | ⟨_, hm⟩
              · exact Or.inl (by decide)
              · exact Or.inl (natDigits_digits _ c hm)
            · exact Or.inl (natDigits_digits _ c hm)

/-- `str(float)` of a finite value always shows a `.` or an `e`. -/
theorem floatStr_mark (neg : Bool) (ds : Str) (e : Int) :
    '.' ∈ pyFloatStr (.fin neg ds e) ∨ 'e' ∈ pyFloatStr (.fin neg ds e) := by
  rw [pyFloatStr_fin_eval]
  split
  · exact Or.inl (by simp [pystr])
  · split
    · split
      · exact Or.inl (by simp [pystr])
      · split
        · exact Or.inl (by simp [pystr])
        · exact Or.inl (by simp [pystr])
    · exact Or.inr (by simp [pystr])



/-- `lower(t)` differs from any word containing a letter no character of
`t` lowers to. -/
theorem pyLower_ne {t w : Str} {m : Char} (hm : m ∈ w)
    (h : ∀ c ∈ t, ¬c.toLower = m) : ¬pyLower t = w := by
  intro he
  have hmem : m ∈ pyLower t := by rw [he]; exact hm
  obtain ⟨c, hc, hl⟩ := List.mem_map.mp hmem
  exact h c hc hl

/-- Character classes of `str(int)` output. -/
theorem intStr_chars (n : Int) : ∀ c ∈ intStr n, c.isDigit ∨ c = '-' := by
  intro c hc
  unfold intStr at hc
  split at hc
  · rcases List.mem_cons.mp hc with he | hm
    · exact Or.inr he
    · exact Or.inl (natDigits_digits _ c hm)
  · exact Or.inl (natDigits_digits _ c hc)

/-- `str(int)` has no whitespace. -/
theorem intStr_no_ws (n : Int) : ∀ c ∈ intStr n, isPySpace c = false := by
  intro c hc
  rcases intStr_chars n c hc with hd | he
  · exact digit_not_space hd
  · subst he
    decide

/-- No character of `str(int)` lowers to a letter. -/
theorem intStr_no_letter (n : Int) {m : Char} (hm : m.isDigit = false)
    (hm2 : ¬m = '-') : ∀ c ∈ intStr n, ¬c.toLower = m := by
  intro c hc hl
  rcases intStr_chars n c hc with hd | he
  · rw [digit_toLower hd] at hl
    subst hl
    rw [hd] at hm
    cases hm
  · subst he
    rw [show ('-').toLower = '-' from by decide] at hl
    exact hm2 hl.symm

/-- `parse_value` undoes `str` on integers. -/
theorem parseValue_intStr (n : Int) : parseValue (intStr n) = .vint n := by
  have hstrip : pyStrip (intStr n) = intStr n := pyStrip_noop_of_all (intStr_no_ws n)
  rw [parseValue_eval, hstrip,
    if_neg (pyLower_ne (show 't' ∈ pystr "true" by decide)
      (intStr_no_letter n (by decide) (by decide))),
    if_neg (pyLower_ne (show 'f' ∈ pystr "false" by decide)
      (intStr_no_letter n (by decide) (by decide))),
    pyIntParse_intStr]

/-- `parse_value` on the spelling of `True`. -/
theorem parseValue_true : parseValue (pystr "True") = .vbool true := rfl

/-- `parse_value` on the spelling of `False`. -/
theorem parseValue_false : parseValue (pystr "False") = .vbool false := rfl

/-- `parse_value` undoes `str` on floats whose printed form parses back (the
canonical forms; `inf`/`nan` included). -/
theorem parseValue_floatStr (f : PyFloat)
    (hc : pyFloatParse (pyFloatStr f) = some f) :
    parseValue (pyFloatStr f) = .vfloat f := by
  match f with
  | .nan => rfl
  | .inf true => rfl
  | .inf false => rfl
  | .fin neg ds e =>
    obtain ⟨hne, hdig⟩ := pyFloatParse_fin_shape hc
    have hchars := floatStr_chars neg ds e hdig
    have hnws : ∀ c ∈ pyFloatStr (.fin neg ds e), isPySpace c = false := by
      intro c hcm
      rcases hchars c hcm with h | h | h | h | h
      · exact digit_not_space h
      all_goals (subst h; decide)
    have hnol : ∀ {m : Char}, m.isDigit = false → ¬m = '-' → ¬m = '.' → ¬m = 'e' →
        ¬m = '+' → ∀ c ∈ pyFloatStr (.fin neg ds e), ¬c.toLower = m := by
      intro m h1 h2 h3 h4 h5 c hcm hl
      rcases hchars c hcm with h | h | h | h | h
      · rw [digit_toLower h] at hl
        subst hl
        rw [h] at h1
        cases h1
      · subst h
        rw [show ('-').toLower = '-' from by decide] at hl
        exact h2 hl.symm
      · subst h
        rw [show ('.').toLower = '.' from by decide] at hl
        exact h3 hl.symm
      · subst h
        rw [show ('e').toLower = 'e' from by decide] at hl
        exact h4 hl.symm
      · subst h
        rw [show ('+').toLower = '+' from by decide] at hl
        exact h5 hl.symm
    have hstrip : pyStrip (pyFloatStr (.fin neg ds e)) = pyFloatStr (.fin neg ds e) :=
      pyStrip_noop_of_all hnws
    have hint : pyIntParse (pyFloatStr (.fin neg ds e)) = none := by
      rcases floatStr_mark neg ds e with hm | hm
      · exact pyIntParse_none_of_mark hm (by decide) (by decide) (by decide) (by decide)
          (by decide)
      · exact pyIntParse_none_of_mark hm (by decide) (by decide) (by decide) (by decide)
          (by decide)
    rw [parseValue_eval, hstrip,
      if_neg (pyLower_ne (show 't' ∈ pystr "true" by decide)
        (hnol (by decide) (by decide) (by decide) (by decide) (by decide))),
      if_neg (pyLower_ne (show 'f' ∈ pystr "false" by decide)
        (hnol (by decide) (by decide) (by decide) (by decide) (by decide))),
      hint, hc]



/-! ## Round-trip groundwork: the numeric-token scanner -/

/-- Continuations a printed element meets inside a container `repr`. -/
def contOk (w : Str) : Prop :=
  w = [] ∨ ∃ c r, w = c :: r ∧ (c = ',' ∨ c = ']' ∨ c = '}' ∨ c = ')' ∨ c = ':')

/-- `dotSplit` without a leading dot. -/
theorem dotSplit_other (c : Char) (r : Str) (h : ¬c = '.') :
    dotSplit (c :: r) = ([], c :: r) := by
  unfold dotSplit
  split
  · rename_i heq
    rw [List.cons.injEq] at heq
    exact absurd heq.1 h
  · rfl

/-- `expSign` without a leading sign. -/
theorem expSign_other (c : Char) (r : Str) (h1 : ¬c = '+') (h2 : ¬c = '-') :
    expSign (c :: r) = ([], c :: r) := by
  unfold expSign
  split
  · rename_i heq
    rw [List.cons.injEq] at heq
    exact absurd heq.1 h1
  · rename_i heq
    rw [List.cons.injEq] at heq
    exact absurd heq.1 h2
  · rfl

/-- `expScan` without a leading `e`/`E`. -/
theorem expScan_other (c : Char) (r : Str) (h1 : ¬c = 'e') (h2 : ¬c = 'E') :
    expScan (c :: r) = ([], c :: r) := by
  unfold expScan
  split
  · rename_i heq
    rw [List.cons.injEq] at heq
    exact absurd heq.1 h1
  · rename_i heq
    rw [List.cons.injEq] at heq
    exact absurd heq.1 h2
  · rfl

/-- Projection form of `expScan` after a leading `e`. -/
theorem expScan_e_eval (X : Str) : expScan ('e' :: X) =
    (if ((expSign X).2.takeWhile (fun c => c.isDigit || c = '_')).isEmpty then
      ([], 'e' :: X)
    else (('e' :: X).take 1 ++ (expSign X).1 ++
            (expSign X).2.takeWhile (fun c => c.isDigit || c = '_'),
          (expSign X).2.drop
            ((expSign X).2.takeWhile (fun c => c.isDigit || c = '_')).length)) := rfl

/-- Projection form of `scanNumber`. -/
theorem scanNumber_eval (s : Str) : scanNumber s =
    (s.takeWhile (fun c => c.isDigit || c = '_') ++
       (dotSplit (s.drop (s.takeWhile (fun c => c.isDigit || c = '_')).length)).1 ++
       (dotSplit (s.drop (s.takeWhile (fun c => c.isDigit || c = '_')).length)).2.takeWhile
         (fun c => c.isDigit || c = '_') ++
       (expScan
         ((dotSplit (s.drop (s.takeWhile (fun c => c.isDigit || c = '_')).length)).2.drop
           ((dotSplit (s.drop (s.takeWhile (fun c => c.isDigit || c = '_')).length)).2.takeWhile
             (fun c => c.isDigit || c = '_')).length)).1,
     (expScan
       ((dotSplit (s.drop (s.takeWhile (fun c => c.isDigit || c = '_')).length)).2.drop
         ((dotSplit (s.drop (s.takeWhile (fun c => c.isDigit || c = '_')).length)).2.takeWhile
           (fun c => c.isDigit || c = '_')).length)).2) := rfl

/-- `takeWhile` over a satisfying prefix stops at a breaking head. -/
theorem takeWhile_append_stop (p : Char → Bool) :
    ∀ (x w : Str), (∀ c ∈ x, p c = true) →
    (∀ c, w.head? = some c → p c = false) →
    (x ++ w).takeWhile p = x := by
  intro x
  induction x with
  | nil =>
    intro w _ hw
    match w with
    | [] => rfl
    | c :: r => exact List.takeWhile_cons_of_neg (by simp [hw c rfl])
  | cons a rest ih =>
    intro w hx hw
    rw [List.cons_append, List.takeWhile_cons_of_pos (hx a (by simp))]
    rw [ih w (fun c hc => hx c (by simp [hc])) hw]

/-- Heads allowed by `contOk` break a numeric token. -/
theorem contOk_break {w : Str} (hw : contOk w) :
    ∀ c, w.head? = some c → (c.isDigit || c = '_') = false := by
  intro c hc
  rcases hw with h | ⟨d, r, hd, hcls⟩
  · rw [h] at hc
    cases hc
  · rw [hd] at hc
    simp at hc
    subst hc
    rcases hcls with h | h | h | h | h <;> (subst h; decide)

/-- Heads allowed by `contOk` are not dots or exponent letters. -/
theorem contOk_ne {w : Str} (hw : contOk w) :
    ∀ c, w.head? = some c → ¬c = '.' ∧ ¬c = 'e' ∧ ¬c = 'E' := by
  intro c hc
  rcases hw with h | ⟨d, r, hd, hcls⟩
  · rw [h] at hc
    cases hc
  · rw [hd] at hc
    simp at hc
    subst hc
    rcases hcls with h | h | h | h | h <;> (subst h; exact ⟨by decide, by decide, by decide⟩)

/-- `dotSplit` passes a `contOk` continuation through. -/
theorem dotSplit_contOk {w : Str} (hw : contOk w) : dotSplit w = ([], w) := by
  rcases hw with h | ⟨c, r, hc, hcls⟩
  · rw [h]
    rfl
  · rw [hc]
    refine dotSplit_other c r ?_
    rcases hcls with h | h | h | h | h <;> (subst h; decide)

/-- `expScan` passes a `contOk` continuation through. -/
theorem expScan_contOk {w : Str} (hw : contOk w) : expScan w = ([], w) := by
  rcases hw with h | ⟨c, r, hc, hcls⟩
  · rw [h]
    rfl
  · rw [hc]
    refine expScan_other c r ?_ ?_ <;>
      (rcases hcls with h | h | h | h | h <;> (subst h; decide))

/-- `takeWhile` of a numeric token stops at a `contOk` continuation. -/
theorem takeWhile_digits_contOk {x w : Str} (hd : ∀ c ∈ x, c.isDigit)
    (hw : contOk w) :
    (x ++ w).takeWhile (fun c => c.isDigit || c = '_') = x :=
  takeWhile_append_stop _ x w (fun c hc => by simp [hd c hc]) (contOk_break hw)

/-- `scanNumber` on a pure digit run followed by a `contOk` continuation. -/
theorem scanNumber_digits (x w : Str) (hd : ∀ c ∈ x, c.isDigit)
    (hw : contOk w) : scanNumber (x ++ w) = (x, w) := by
  rw [scanNumber_eval, takeWhile_digits_contOk hd hw, List.drop_left,
    dotSplit_contOk hw,
    show (([], w) : Str × Str).1 = [] from rfl,
    show (([], w) : Str × Str).2 = w from rfl,
    show ((w.takeWhile (fun c => c.isDigit || c = '_'))) =
      (([] : Str) ++ w).takeWhile (fun c => c.isDigit || c = '_') from rfl,
    takeWhile_digits_contOk (by simp) hw,
    show (([] : Str)).length = 0 from rfl, List.drop_zero,
    expScan_contOk hw,
    show (([], w) : Str × Str).1 = [] from rfl,
    show (([], w) : Str × Str).2 = w from rfl]
  simp

/-- `scanNumber` on `digits.digits` followed by a `contOk` continuation. -/
theorem scanNumber_point (a b w : Str) (hda : ∀ c ∈ a, c.isDigit)
    (hdb : ∀ c ∈ b, c.isDigit) (hw : contOk w) :
    scanNumber (a ++ '.' :: (b ++ w)) = (a ++ '.' :: b, w) := by
  have h1 : (a ++ '.' :: (b ++ w)).takeWhile (fun c => c.isDigit || c = '_') = a :=
    takeWhile_append_stop _ a ('.' :: (b ++ w))
      (fun c hc => by simp [hda c hc]) (fun c hc => by simp at hc; subst hc; decide)
  rw [scanNumber_eval, h1, List.drop_left,
    show dotSplit ('.' :: (b ++ w)) = (['.'], b ++ w) from rfl,
    show ((['.'], b ++ w) : Str × Str).1 = ['.'] from rfl,
    show ((['.'], b ++ w) : Str × Str).2 = b ++ w from rfl,
    takeWhile_digits_contOk hdb hw, List.drop_left,
    expScan_contOk hw,
    show (([], w) : Str × Str).1 = [] from rfl,
    show (([], w) : Str × Str).2 = w from rfl]
  simp

/-- `expScan` on a printed exponent part. -/
theorem expScan_printed (sg : Char) (hsg : sg = '+' ∨ sg = '-') (d w : Str)
    (hdne : d ≠ []) (hdd : ∀ c ∈ d, c.isDigit) (hw : contOk w) :
    expScan ('e' :: (sg :: (d ++ w))) = ('e' :: sg :: d, w) := by
  have hsgn : expSign (sg :: (d ++ w)) = ([sg], d ++ w) := by
    rcases hsg with h | h <;> (subst h; rfl)
  rw [expScan_e_eval, hsgn,
    show (([sg], d ++ w) : Str × Str).2 = d ++ w from rfl,
    show (([sg], d ++ w) : Str × Str).1 = [sg] from rfl,
    takeWhile_digits_contOk hdd hw, List.drop_left]
  rw [if_neg (by simpa using hdne)]
  simp

/-- `scanNumber` on `d·e±dd` (no fraction part). -/
theorem scanNumber_sci1 (d0 : Char) (hd0 : d0.isDigit) (sg : Char)
    (hsg : sg = '+' ∨ sg = '-') (d w : Str) (hdne : d ≠ [])
    (hdd : ∀ c ∈ d, c.isDigit) (hw : contOk w) :
    scanNumber (d0 :: ('e' :: (sg :: (d ++ w)))) = (d0 :: 'e' :: sg :: d, w) := by
  have h1 : (d0 :: ('e' :: (sg :: (d ++ w)))).takeWhile
      (fun c => c.isDigit || c = '_') = [d0] := by
    rw [show (d0 :: ('e' :: (sg :: (d ++ w)))) =
      [d0] ++ ('e' :: (sg :: (d ++ w))) from rfl]
    exact takeWhile_append_stop _ [d0] _
      (fun c hc => by simp at hc; subst hc; simp [hd0])
      (fun c hc => by simp at hc; subst hc; decide)
  rw [scanNumber_eval, h1,
    show ([d0] : Str).length = 1 from rfl,
    show (d0 :: ('e' :: (sg :: (d ++ w)))).drop 1 = 'e' :: (sg :: (d ++ w)) from rfl,
    dotSplit_other 'e' (sg :: (d ++ w)) (by decide),
    show (([], 'e' :: (sg :: (d ++ w))) : Str × Str).1 = [] from rfl,
    show (([], 'e' :: (sg :: (d ++ w))) : Str × Str).2 = 'e' :: (sg :: (d ++ w)) from rfl,
    show ('e' :: (sg :: (d ++ w))).takeWhile (fun c => c.isDigit || c = '_') = [] from
      List.takeWhile_cons_of_neg (by decide),
    show (([] : Str)).length = 0 from rfl, List.drop_zero,
    expScan_printed sg hsg d w hdne hdd hw,
    show (('e' :: sg :: d, w) : Str × Str).1 = 'e' :: sg :: d from rfl,
    show (('e' :: sg :: d, w) : Str × Str).2 = w from rfl]
  simp

/-- `scanNumber` on `d.dd…e±dd`. -/
theorem scanNumber_sci2 (d0 : Char) (hd0 : d0.isDigit) (tl : Str)
    (hdt : ∀ c ∈ tl, c.isDigit) (sg : Char) (hsg : sg = '+' ∨ sg = '-')
    (d w : Str) (hdne : d ≠ []) (hdd : ∀ c ∈ d, c.isDigit) (hw : contOk w) :
    scanNumber (d0 :: ('.' :: (tl ++ ('e' :: (sg :: (d ++ w)))))) =
      (d0 :: ('.' :: (tl ++ ('e' :: (sg :: d)))), w) := by
  have h1 : (d0 :: ('.' :: (tl ++ ('e' :: (sg :: (d ++ w)))))).takeWhile
      (fun c => c.isDigit || c = '_') = [d0] := by
    rw [show (d0 :: ('.' :: (tl ++ ('e' :: (sg :: (d ++ w)))))) =
      [d0] ++ ('.' :: (tl ++ ('e' :: (sg :: (d ++ w))))) from rfl]
    exact takeWhile_append_stop _ [d0] _
      (fun c hc => by simp at hc; subst hc; simp [hd0])
      (fun c hc => by simp at hc; subst hc; decide)
  have h2 : (tl ++ ('e' :: (sg :: (d ++ w)))).takeWhile
      (fun c => c.isDigit || c = '_') = tl :=
    takeWhile_append_stop _ tl _ (fun c hc => by simp [hdt c hc])
      (fun c hc => by simp at hc; subst hc; decide)
  rw [scanNumber_eval, h1,
    show ([d0] : Str).length = 1 from rfl,
    show (d0 :: ('.' :: (tl ++ ('e' :: (sg :: (d ++ w)))))).drop 1 =
      '.' :: (tl ++ ('e' :: (sg :: (d ++ w)))) from rfl,
    show dotSplit ('.' :: (tl ++ ('e' :: (sg :: (d ++ w))))) =
      (['.'], tl ++ ('e' :: (sg :: (d ++ w)))) from rfl,
    show ((['.'], tl ++ ('e' :: (sg :: (d ++ w)))) : Str × Str).1 = ['.'] from rfl,
    show ((['.'], tl ++ ('e' :: (sg :: (d ++ w)))) : Str × Str).2 =
      tl ++ ('e' :: (sg :: (d ++ w))) from rfl,
    h2, List.drop_left,
    expScan_printed sg hsg d w hdne hdd hw,
    show (('e' :: sg :: d, w) : Str × Str).1 = 'e' :: sg :: d from rfl,
    show (('e' :: sg :: d, w) : Str × Str).2 = w from rfl]
  simp



/-! ## Representability guards for the amended round-trip claim -/

mutual

/-- Values whose `repr` text the literal parser provably reads back:
scalars (finite canonical floats; nested strings as printed), lists and
dicts of such values.  Tuples, sets, `inf`/`nan` and `None`-free tops are
handled at the outer level. -/
def reprSafe : Value → Bool
  | .vstr _ => true
  | .vint _ => true
  | .vbool _ => true
  | .vnone => true
  | .vfloat (.fin _ ds e) =>
    decide (pyFloatParse (pyFloatStr (.fin false ds e)) = some (.fin false ds e))
  | .vfloat _ => false
  | .vlist xs => reprSafeList xs
  | .vdict ps => reprSafePairs ps
  | .vtuple _ => false
  | .vset _ => false

/-- All list elements are `reprSafe`. -/
def reprSafeList : List Value → Bool
  | [] => true
  | x :: xs => reprSafe x && reprSafeList xs

/-- All dict keys and values are `reprSafe`. -/
def reprSafePairs : List (Value × Value) → Bool
  | [] => true
  | (k, v) :: ps => reprSafe k && reprSafe v && reprSafePairs ps

end

/-- `str(int)` is nonempty. -/
theorem intStr_ne_nil (n : Int) : intStr n ≠ [] := by
  unfold intStr
  split
  · simp
  · exact natDigits_ne_nil _

/-- `str(int)` of a natural number is its digit string. -/
theorem intStr_ofNat (m : Nat) : intStr (m : Int) = natDigits m := by
  unfold intStr
  rw [if_neg (by omega), Int.natAbs_ofNat]

/-- `str(float)` of a finite value is nonempty. -/
theorem floatStr_ne_nil (neg : Bool) (ds : Str) (e : Int) :
    pyFloatStr (.fin neg ds e) ≠ [] := by
  intro h
  rcases floatStr_mark neg ds e with hm | hm <;>
    (rw [h] at hm; cases hm)

/-- A negative finite float prints as `-` before its positive form. -/
theorem floatStr_neg (ds : Str) (e : Int) :
    pyFloatStr (.fin true ds e) = '-' :: pyFloatStr (.fin false ds e) := by
  rw [pyFloatStr_fin_eval, pyFloatStr_fin_eval]
  split
  · rfl
  · split
    · split
      · rfl
      · split
        · rfl
        · rfl
    · rfl

/-- Absence from a list, as `contains`. -/
theorem contains_false_of_all {x : Str} {m : Char}
    (h : ∀ c ∈ x, ¬c = m) : x.contains m = false := by
  by_cases hc : x.contains m = true
  · rw [List.contains_eq_any_beq] at hc
    simp only [List.any_eq_true, beq_iff_eq] at hc
    obtain ⟨c, hcm, he⟩ := hc
    exact absurd he.symm (h c hcm)
  · simpa using hc

/-- Membership, as `contains`. -/
theorem contains_of_mem {x : Str} {m : Char} (h : m ∈ x) : x.contains m = true := by
  rw [List.contains_eq_any_beq]
  simp only [List.any_eq_true, beq_iff_eq]
  exact ⟨m, h, rfl⟩

/-- `parseNumToken` reads an integer digit string back. -/
theorem parseNumToken_digits (m : Nat) :
    parseNumToken (natDigits m) = some (.vint m) := by
  unfold parseNumToken
  have hne := natDigits_ne_nil m
  have hdg := natDigits_digits m
  have hmk : ∀ x : Char, x.isDigit = false →
      (natDigits m).contains x = false := by
    intro x hx
    refine contains_false_of_all fun c hc he => ?_
    subst he
    rw [hdg c hc] at hx
    cases hx
  have hcond : ¬((natDigits m).contains '.' = true ∨
      (natDigits m).contains 'e' = true ∨ (natDigits m).contains 'E' = true) := by
    rw [hmk '.' (by decide), hmk 'e' (by decide), hmk 'E' (by decide)]
    simp
  rw [if_neg (by simpa using hne), if_neg hcond, ← intStr_ofNat m, pyIntParse_intStr]
  rfl

/-- `parseNumToken` reads a canonical positive float spelling back. -/
theorem parseNumToken_float (ds : Str) (e : Int)
    (hc : pyFloatParse (pyFloatStr (.fin false ds e)) = some (.fin false ds e)) :
    parseNumToken (pyFloatStr (.fin false ds e)) =
      some (.vfloat (.fin false ds e)) := by
  unfold parseNumToken
  rw [if_neg (by simpa using floatStr_ne_nil false ds e), if_pos ?_, hc]
  · rfl
  · rcases floatStr_mark false ds e with hm | hm
    · exact Or.inl (contains_of_mem hm)
    · exact Or.inr (Or.inl (contains_of_mem hm))



/-- Branch form of `str(float)` on a positive finite value. -/
theorem pyFloatStr_pos_eval (ds : Str) (e : Int) :
    pyFloatStr (.fin false ds e) =
    (if ds = ['0'] then pystr "0.0"
     else if -4 ≤ ((ds.length : Int) + e - 1) ∧ ((ds.length : Int) + e - 1) ≤ 15 then
       if 0 ≤ e then ds ++ List.replicate e.toNat '0' ++ pystr ".0"
       else if 0 < ((ds.length : Int) + e) then
         ds.take ((ds.length : Int) + e).toNat ++ '.' :: ds.drop ((ds.length : Int) + e).toNat
       else pystr "0." ++ List.replicate (-((ds.length : Int) + e)).toNat '0' ++ ds
     else
       ((ds.head?).toList ++ (if ds.tail.isEmpty then [] else '.' :: ds.tail)) ++
         'e' :: (if ((ds.length : Int) + e - 1) < 0 then '-' else '+') ::
           pad2 (natDigits ((ds.length : Int) + e - 1).natAbs)) := rfl

/-- `pad2` of a digit string is a nonempty digit string. -/
theorem pad2_digits {x : Str} (hx : x ≠ []) (hd : ∀ c ∈ x, c.isDigit) :
    pad2 x ≠ [] ∧ ∀ c ∈ pad2 x, c.isDigit := by
  unfold pad2
  split
  · refine ⟨by simp, ?_⟩
    intro c hc
    rcases List.mem_cons.mp hc with he | hm
    · subst he
      decide
    · exact hd c hm
  · exact ⟨hx, hd⟩

/-- `scanNumber` reads back exactly the positive printed form of a finite
float when a `contOk` continuation follows. -/
theorem scanNumber_floatStr (ds : Str) (e : Int) (hne : ds ≠ [])
    (hdig : ∀ c ∈ ds, c.isDigit) (w : Str) (hw : contOk w) :
    scanNumber (pyFloatStr (.fin false ds e) ++ w) =
      (pyFloatStr (.fin false ds e), w) := by
  rw [pyFloatStr_pos_eval]
  split
  · rename_i hds
    rw [show pystr "0.0" ++ w = ['0'] ++ '.' :: (['0'] ++ w) from rfl,
      scanNumber_point ['0'] ['0'] w (by decide) (by decide) hw]
    rfl
  · split
    · split
      · -- plain, e ≥ 0: digits, zeros, ".0"
        have h := scanNumber_point (ds ++ List.replicate e.toNat '0') ['0'] w
          (by
            intro c hc
            rcases List.mem_append.mp hc with hm | hm
            · exact hdig c hm
            · rw [List.eq_of_mem_replicate hm]
              decide)
          (by decide) hw
        rw [show pystr ".0" = ('.' :: ['0'] : Str) from rfl]
        simp only [List.append_assoc, List.cons_append, List.singleton_append,
          List.nil_append] at h ⊢
        rw [h]
      · split
        · -- plain, point inside the digits
          have h := scanNumber_point (ds.take ((ds.length : Int) + e).toNat)
            (ds.drop ((ds.length : Int) + e).toNat) w
            (fun c hc => hdig c (List.take_subset _ _ hc))
            (fun c hc => hdig c (List.drop_subset _ _ hc)) hw
          simp only [List.append_assoc, List.cons_append, List.singleton_append,
            List.nil_append] at h ⊢
          rw [h]
        · -- plain, leading zeros: "0." zeros digits
          have h := scanNumber_point ['0']
            (List.replicate (-((ds.length : Int) + e)).toNat '0' ++ ds) w
            (by decide)
            (by
              intro c hc
              rcases List.mem_append.mp hc with hm | hm
              · rw [List.eq_of_mem_replicate hm]
                decide
              · exact hdig c hm) hw
          rw [show pystr "0." = ('0' :: ['.'] : Str) from rfl]
          simp only [List.append_assoc, List.cons_append, List.singleton_append,
            List.nil_append] at h ⊢
          rw [h]
    · -- scientific notation
      rename_i hrange
      match hq : ds, hne with
      | d0 :: tl, _ =>
        have hd0 : d0.isDigit := hdig d0 (by simp)
        have hdt : ∀ c ∈ tl, c.isDigit := fun c hc => hdig c (by simp [hc])
        obtain ⟨hpne, hpd⟩ := pad2_digits
          (natDigits_ne_nil (((d0 :: tl).length : Int) + e - 1).natAbs)
          (natDigits_digits _)
        have hsg : (if (((d0 :: tl).length : Int) + e - 1) < 0 then '-' else '+') = '+' ∨
            (if (((d0 :: tl).length : Int) + e - 1) < 0 then '-' else '+') = '-' := by
          split
          · exact Or.inr rfl
          · exact Or.inl rfl
        by_cases htl : tl = []
        · subst htl
          have h := scanNumber_sci1 d0 hd0 _ hsg _ w hpne hpd hw
          simp only [List.append_assoc, List.cons_append, List.singleton_append,
            List.nil_append, List.head?, Option.toList, List.tail, List.isEmpty,
            if_true] at h ⊢
          rw [h]
        · have h := scanNumber_sci2 d0 hd0 tl hdt _ hsg _ w hpne hpd hw
          have htl3 : tl.isEmpty = false := by
            match tl, htl with
            | c :: r, _ => rfl
          simp only [List.append_assoc, List.cons_append, List.singleton_append,
            List.nil_append, List.head?, Option.toList, List.tail, htl3,
            Bool.false_eq_true, if_false] at h ⊢
          rw [h]



/-! ## Round-trip groundwork: string literals -/

/-- Hex digits emitted by `hexChar` satisfy the parser's hex test. -/
theorem hexChar_isHex (d : Nat) (h : d < 16) :
    ((hexChar d).isDigit || ('a' ≤ (hexChar d).toLower ∧ (hexChar d).toLower ≤ 'f')) = true := by
  interval_cases d <;> decide

/-- The parser decodes `hexChar` back to its value. -/
theorem hexChar_decode (d : Nat) (h : d < 16) :
    (if (hexChar d).isDigit then digitVal (hexChar d)
     else (hexChar d).toLower.toNat - 87) = d := by
  interval_cases d <;> decide

/-- One scanner step: the escaped backslash. -/
theorem sb_esc_bs (q : Char) (hq : q = '\'' ∨ q = '"') (f : Nat) (t : Str) :
    scanStrBody q (f + 1) ('\\' :: '\\' :: t) =
      (scanStrBody q f t).map fun br => ('\\' :: br.1, br.2) := by
  rcases hq with h | h <;> (subst h; rfl)

/-- One scanner step: the escaped quote. -/
theorem sb_esc_q (q : Char) (hq : q = '\'' ∨ q = '"') (f : Nat) (t : Str) :
    scanStrBody q (f + 1) ('\\' :: q :: t) =
      (scanStrBody q f t).map fun br => (q :: br.1, br.2) := by
  rcases hq with h | h <;> (subst h; rfl)

/-- One scanner step: the escaped newline. -/
theorem sb_esc_n (q : Char) (hq : q = '\'' ∨ q = '"') (f : Nat) (t : Str) :
    scanStrBody q (f + 1) ('\\' :: 'n' :: t) =
      (scanStrBody q f t).map fun br => ('\n' :: br.1, br.2) := by
  rcases hq with h | h <;> (subst h; rfl)

/-- One scanner step: the escaped carriage return. -/
theorem sb_esc_r (q : Char) (hq : q = '\'' ∨ q = '"') (f : Nat) (t : Str) :
    scanStrBody q (f + 1) ('\\' :: 'r' :: t) =
      (scanStrBody q f t).map fun br => ('\x0d' :: br.1, br.2) := by
  rcases hq with h | h <;> (subst h; rfl)

/-- One scanner step: the escaped tab. -/
theorem sb_esc_t (q : Char) (hq : q = '\'' ∨ q = '"') (f : Nat) (t : Str) :
    scanStrBody q (f + 1) ('\\' :: 't' :: t) =
      (scanStrBody q f t).map fun br => ('\t' :: br.1, br.2) := by
  rcases hq with h | h <;> (subst h; rfl)

/-- One scanner step: a hex escape. -/
theorem sb_esc_x (q : Char) (hq : q = '\'' ∨ q = '"') (f : Nat) (h1 h2 : Char) (t : Str)
    (hh1 : (h1.isDigit || ('a' ≤ h1.toLower ∧ h1.toLower ≤ 'f')) = true)
    (hh2 : (h2.isDigit || ('a' ≤ h2.toLower ∧ h2.toLower ≤ 'f')) = true) :
    scanStrBody q (f + 1) ('\\' :: 'x' :: h1 :: h2 :: t) =
      (scanStrBody q f t).map fun br =>
        (Char.ofNat ((if h1.isDigit then digitVal h1 else h1.toLower.toNat - 87) * 16 +
          (if h2.isDigit then digitVal h2 else h2.toLower.toNat - 87)) :: br.1, br.2) := by
  have hstep : scanStrBody q (f + 1) ('\\' :: 'x' :: h1 :: h2 :: t) =
      (if (h1.isDigit || ('a' ≤ h1.toLower ∧ h1.toLower ≤ 'f')) = true ∧
          (h2.isDigit || ('a' ≤ h2.toLower ∧ h2.toLower ≤ 'f')) = true then
        (scanStrBody q f t).map fun br =>
          (Char.ofNat ((if h1.isDigit then digitVal h1 else h1.toLower.toNat - 87) * 16 +
            (if h2.isDigit then digitVal h2 else h2.toLower.toNat - 87)) :: br.1, br.2)
      else none) := by
    rcases hq with h | h <;> (subst h; rfl)
  rw [hstep, if_pos ⟨hh1, hh2⟩]

/-- One scanner step: the closing quote. -/
theorem sb_base (q : Char) (hq : q = '\'' ∨ q = '"') (f : Nat) (t : Str) :
    scanStrBody q (f + 1) (q :: t) = some ([], t) := by
  rcases hq with h | h <;> (subst h; rfl)

/-- One scanner step: a plain character. -/
theorem sb_gen (q : Char) (f : Nat) (c : Char) (t : Str)
    (h1 : ¬c = '\n') (h2 : ¬c = '\\') (h3 : ¬c = q) :
    scanStrBody q (f + 1) (c :: t) =
      (scanStrBody q f t).map fun br => (c :: br.1, br.2) := by
  conv_lhs => unfold scanStrBody
  split
  · omega
  · simp_all
  · simp_all
  · simp_all
  · rename_i fuel cc rest hn2 hb2 hfe hcons
    rw [List.cons.injEq] at hcons
    obtain ⟨he1, he2⟩ := hcons
    subst he1
    subst he2
    have hf2 : fuel = f := by omega
    subst hf2
    rw [if_neg h3]

/-- `escChar` on the backslash. -/
theorem escChar_bs (q : Char) : escChar q '\\' = ['\\', '\\'] := rfl

/-- `escChar` on the quote itself. -/
theorem escChar_self (q : Char) (hq : q = '\'' ∨ q = '"') :
    escChar q q = ['\\', q] := by
  rcases hq with h | h <;> (subst h; rfl)

/-- `escChar` on a newline. -/
theorem escChar_nl (q : Char) (hq : q = '\'' ∨ q = '"') :
    escChar q '\n' = ['\\', 'n'] := by
  rcases hq with h | h <;> (subst h; rfl)

/-- `escChar` on a carriage return. -/
theorem escChar_cr (q : Char) (hq : q = '\'' ∨ q = '"') :
    escChar q '\x0d' = ['\\', 'r'] := by
  rcases hq with h | h <;> (subst h; rfl)

/-- `escChar` on a tab. -/
theorem escChar_tab (q : Char) (hq : q = '\'' ∨ q = '"') :
    escChar q '\t' = ['\\', 't'] := by
  rcases hq with h | h <;> (subst h; rfl)

/-- `escChar` on a control character. -/
theorem escChar_ctrl (q c : Char) (hct : c.toNat < 32 ∨ c.toNat = 127)
    (h1 : ¬c = '\\') (h2 : ¬c = q) (h3 : ¬c = '\n') (h4 : ¬c = '\x0d')
    (h5 : ¬c = '\t') :
    escChar q c = ['\\', 'x', hexChar (c.toNat / 16), hexChar (c.toNat % 16)] := by
  unfold escChar
  rw [if_neg h1, if_neg h2, if_neg h3, if_neg h4, if_neg h5, if_pos hct]

/-- `escChar` on a plain character. -/
theorem escChar_plain (q c : Char) (hct : ¬(c.toNat < 32 ∨ c.toNat = 127))
    (h1 : ¬c = '\\') (h2 : ¬c = q) (h3 : ¬c = '\n') (h4 : ¬c = '\x0d')
    (h5 : ¬c = '\t') : escChar q c = [c] := by
  unfold escChar
  rw [if_neg h1, if_neg h2, if_neg h3, if_neg h4, if_neg h5, if_neg hct]

/-- The string-body scanner reads back exactly what `escChar` printed. -/
theorem scanStrBody_printed (q : Char) (hq : q = '\'' ∨ q = '"') :
    ∀ (s : Str) (fuel : Nat) (w : Str), s.length < fuel →
    scanStrBody q fuel (s.flatMap (escChar q) ++ (q :: w)) = some (s, w) := by
  intro s
  induction s with
  | nil =>
    intro fuel w hf
    match fuel, hf with
    | f + 1, _ =>
      rw [show (([] : Str).flatMap (escChar q) ++ (q :: w)) = q :: w from rfl]
      exact sb_base q hq f w
  | cons c s2 ih =>
    intro fuel w hf
    match fuel, hf with
    | f + 1, hf =>
      have hrec := ih f w (by simp at hf; omega)
      rw [List.flatMap_cons, List.append_assoc]
      by_cases hbs : c = '\\'
      · subst hbs
        rw [escChar_bs q,
          show ((['\\', '\\'] : Str) ++ (s2.flatMap (escChar q) ++ (q :: w))) =
            '\\' :: '\\' :: (s2.flatMap (escChar q) ++ (q :: w)) from rfl,
          sb_esc_bs q hq, hrec]
        rfl
      by_cases hqq : c = q
      · subst hqq
        rw [escChar_self c hq,
          show ((['\\', c] : Str) ++ (s2.flatMap (escChar c) ++ (c :: w))) =
            '\\' :: c :: (s2.flatMap (escChar c) ++ (c :: w)) from rfl,
          sb_esc_q c hq, hrec]
        rfl
      by_cases hnl : c = '\n'
      · subst hnl
        rw [escChar_nl q hq,
          show ((['\\', 'n'] : Str) ++ (s2.flatMap (escChar q) ++ (q :: w))) =
            '\\' :: 'n' :: (s2.flatMap (escChar q) ++ (q :: w)) from rfl,
          sb_esc_n q hq, hrec]
        rfl
      by_cases hcr : c = '\x0d'
      · subst hcr
        rw [escChar_cr q hq,
          show ((['\\', 'r'] : Str) ++ (s2.flatMap (escChar q) ++ (q :: w))) =
            '\\' :: 'r' :: (s2.flatMap (escChar q) ++ (q :: w)) from rfl,
          sb_esc_r q hq, hrec]
        rfl
      by_cases htab : c = '\t'
      · subst htab
        rw [escChar_tab q hq,
          show ((['\\', 't'] : Str) ++ (s2.flatMap (escChar q) ++ (q :: w))) =
            '\\' :: 't' :: (s2.flatMap (escChar q) ++ (q :: w)) from rfl,
          sb_esc_t q hq, hrec]
        rfl
      by_cases hct : c.toNat < 32 ∨ c.toNat = 127
      · have hlt : c.toNat < 256 := by
          rcases hct with h | h
          · omega
          · omega
        rw [escChar_ctrl q c hct hbs hqq hnl hcr htab,
          show ((['\\', 'x', hexChar (c.toNat / 16), hexChar (c.toNat % 16)] : Str) ++
              (s2.flatMap (escChar q) ++ (q :: w))) =
            '\\' :: 'x' :: hexChar (c.toNat / 16) :: hexChar (c.toNat % 16) ::
              (s2.flatMap (escChar q) ++ (q :: w)) from rfl,
          sb_esc_x q hq f _ _ _ (hexChar_isHex _ (by omega)) (hexChar_isHex _ (by omega)),
          hrec, hexChar_decode _ (by omega), hexChar_decode _ (by omega)]
        rw [show c.toNat / 16 * 16 + c.toNat % 16 = c.toNat by omega, Char.ofNat_toNat]
        rfl
      · rw [escChar_plain q c hct hbs hqq hnl hcr htab,
          show (([c] : Str) ++ (s2.flatMap (escChar q) ++ (q :: w))) =
            c :: (s2.flatMap (escChar q) ++ (q :: w)) from rfl,
          sb_gen q f c _ hnl hbs hqq, hrec]
        rfl



/-! ## Round-trip groundwork: one-step forms of the literal parser -/

/-- One literal-parser step: a list display. -/
theorem PL_lbrack (f : Nat) (r : Str) : parseLit (f + 1) ('[' :: r) =
    (match skipWs r with
     | ']' :: r2 => some (.vlist [], r2)
     | _ => (parseSeq f ']' r).map fun p => (.vlist p.1, p.2)) := rfl

/-- One literal-parser step: a single-quoted string. -/
theorem PL_quote1 (f : Nat) (r : Str) : parseLit (f + 1) ('\'' :: r) =
    (scanStrBody '\'' (r.length + 1) r).map fun p => (.vstr p.1, p.2) := rfl

/-- One step of the sequence-tail parser. -/
theorem parseSeq_succ_eval (f : Nat) (close : Char) (s : Str) :
    parseSeq (f + 1) close s =
    (match parseLit f s with
     | none => none
     | some (x, r) =>
       match skipWs r with
       | c :: r2 =>
         if c = close then some ([x], r2)
         else if c = ',' then
           match skipWs r2 with
           | c2 :: r3 =>
             if c2 = close then some ([x], r3)
             else (parseSeq f close r2).map fun p => (x :: p.1, p.2)
           | [] => none
         else none
       | [] => none) := rfl

/-- `skipWs` keeps a string with a non-whitespace head. -/
theorem skipWs_cons (c : Char) (r : Str) (h : isPySpace c = false) :
    skipWs (c :: r) = c :: r :=
  List.dropWhile_cons_of_neg (by simp [h])
/-- One literal-parser step: a leading minus sign. -/
theorem PL_minus (f : Nat) (r : Str) : parseLit (f + 1) ('-' :: r) =
    (match parseNumToken (scanNumber (skipWs r)).1 with
     | some v =>
       (match v with
        | .vint n => some (.vint (-n), (scanNumber (skipWs r)).2)
        | .vfloat (.fin ng ds e) => some (.vfloat (.fin (!ng) ds e), (scanNumber (skipWs r)).2)
        | .vfloat (.inf ng) => some (.vfloat (.inf (!ng)), (scanNumber (skipWs r)).2)
        | .vfloat .nan => some (.vfloat .nan, (scanNumber (skipWs r)).2)
        | _ => none)
     | none => none) := rfl
/-- One literal-parser step: a double-quoted string. -/
theorem PL_quote2 (f : Nat) (r : Str) : parseLit (f + 1) ('"' :: r) =
    (scanStrBody '"' (r.length + 1) r).map fun p => (.vstr p.1, p.2) := rfl
/-- One literal-parser step: a dict or set display. -/
theorem PL_lbrace (f : Nat) (r : Str) : parseLit (f + 1) ('{' :: r) =
    (match skipWs r with
     | '}' :: r2 => some (.vdict [], r2)
     | _ =>
       match parseLit f r with
       | none => none
       | some (k, r2) =>
         match skipWs r2 with
         | ':' :: r3 =>
           (match parseLit f r3 with
            | none => none
            | some (v, r4) =>
              match skipWs r4 with
              | '}' :: r5 => some (.vdict [(k, v)], r5)
              | ',' :: r5 =>
                (match skipWs r5 with
                 | '}' :: r6 => some (.vdict [(k, v)], r6)
                 | _ => (parsePairs f r5).map fun p => (.vdict ((k, v) :: p.1), p.2))
              | _ => none)
         | '}' :: r3 => some (.vset [k], r3)
         | ',' :: r3 =>
           (match skipWs r3 with
            | '}' :: r4 => some (.vset [k], r4)
            | _ => (parseSeq f '}' r3).map fun p => (.vset (k :: p.1), p.2))
         | _ => none) := rfl
/-- One step of the dict-tail parser. -/
theorem parsePairs_succ_eval (f : Nat) (s : Str) :
    parsePairs (f + 1) s =
    (match parseLit f s with
     | none => none
     | some (k, r) =>
       match skipWs r with
       | ':' :: r2 =>
         (match parseLit f r2 with
          | none => none
          | some (v, r3) =>
            match skipWs r3 with
            | '}' :: r4 => some ([(k, v)], r4)
            | ',' :: r4 =>
              (match skipWs r4 with
               | '}' :: r5 => some ([(k, v)], r5)
               | _ => (parsePairs f r4).map fun p => ((k, v) :: p.1, p.2))
            | _ => none)
       | _ => none) := rfl
/-- One literal-parser step: the keyword/number fallthrough. -/
theorem PL_default (f : Nat) (c : Char) (r : Str) (hws : isPySpace c = false)
    (h1 : ¬c = '-') (h2 : ¬c = '+') (h3 : ¬c = '\'') (h4 : ¬c = '"')
    (h5 : ¬c = '[') (h6 : ¬c = '(') (h7 : ¬c = '{') :
    parseLit (f + 1) (c :: r) =
      (if pyStarts (pystr "True") (c :: r) then some (.vbool true, (c :: r).drop 4)
       else if pyStarts (pystr "False") (c :: r) then some (.vbool false, (c :: r).drop 5)
       else if pyStarts (pystr "None") (c :: r) then some (.vnone, (c :: r).drop 4)
       else
         match parseNumToken (scanNumber (c :: r)).1 with
         | some v => some (v, (scanNumber (c :: r)).2)
         | none => none) := by
  conv_lhs => unfold parseLit
  rw [skipWs_cons c r hws]
  split
  all_goals simp_all


/-- Left conjunct of a true `&&`. -/
theorem band_left {a b : Bool} (h : (a && b) = true) : a = true := by
  cases a
  · cases h
  · rfl

/-- Right conjunct of a true `&&`. -/
theorem band_right {a b : Bool} (h : (a && b) = true) : b = true := by
  cases a
  · cases h
  · exact h

/-- `skipWs` passes over leading whitespace. -/
theorem skipWs_sp : ∀ (sp t : Str), (∀ c ∈ sp, isPySpace c = true) →
    skipWs (sp ++ t) = skipWs t := by
  intro sp
  induction sp with
  | nil => intro t _; rfl
  | cons c rest ih =>
    intro t hsp
    rw [List.cons_append,
      show skipWs (c :: (rest ++ t)) = skipWs (rest ++ t) from
        List.dropWhile_cons_of_pos (by simp [hsp c (by simp)])]
    exact ih t fun d hd => hsp d (by simp [hd])

/-- `pyStarts` fails on a head mismatch. -/
theorem starts_false (p : Char) (ps : Str) (c : Char) (r : Str) (h : ¬p = c) :
    pyStarts (p :: ps) (c :: r) = false := by
  simp only [pyStarts, List.isPrefixOf, Bool.and_eq_false_iff]
  exact Or.inl (beq_eq_false_iff_ne.mpr h)

/-- `pyStarts` succeeds on itself plus anything. -/
theorem starts_self (x w : Str) : pyStarts x (x ++ w) = true := by
  rw [pyStarts, List.isPrefixOf_iff_prefix]
  exact ⟨w, rfl⟩

/-- Every `escChar` expansion is nonempty. -/
theorem escChar_len (q c : Char) : 1 ≤ (escChar q c).length := by
  unfold escChar
  split
  · decide
  · split
    · simp
    · split
      · decide
      · split
        · decide
        · split
          · decide
          · split
            · simp
            · simp

/-- Escaping does not shorten a string. -/
theorem flatMap_escChar_len (q : Char) : ∀ s : Str,
    s.length ≤ (s.flatMap (escChar q)).length := by
  intro s
  induction s with
  | nil => simp
  | cons c rest ih =>
    rw [List.flatMap_cons, List.length_append, List.length_cons]
    have := escChar_len q c
    omega

/-- Every value has positive size. -/
theorem vsize_pos (v : Value) : 1 ≤ vsize v := by
  match v with
  | .vstr _ | .vint _ | .vfloat _ | .vbool _ | .vnone => exact le_refl 1
  | .vlist _ | .vtuple _ | .vset _ => simp [vsize]
  | .vdict _ => simp [vsize]

/-- Branch form of `repr` on strings. -/
theorem reprStr_eval (s : Str) : reprStr s =
    (if s.contains '\'' ∧ ¬s.contains '"' then '"' else '\'') ::
      (s.flatMap (escChar (if s.contains '\'' ∧ ¬s.contains '"' then '"' else '\'')) ++
        [if s.contains '\'' ∧ ¬s.contains '"' then '"' else '\'']) := rfl

/-- The printed form of a safe value starts with a non-whitespace,
non-closer, non-separator character. -/
theorem repr_shape (v : Value) (h : reprSafe v = true) :
    ∃ c t, pyRepr v = c :: t ∧ isPySpace c = false ∧ ¬c = ']' ∧ ¬c = '}' ∧
      ¬c = ')' ∧ ¬c = ',' ∧ ¬c = ':' := by
  match v with
  | .vstr s =>
    rw [show pyRepr (.vstr s) = reprStr s from rfl, reprStr_eval]
    by_cases hq : s.contains '\'' ∧ ¬s.contains '"'
    · rw [if_pos hq]
      exact ⟨'"', _, rfl, by decide, by decide, by decide, by decide, by decide, by decide⟩
    · rw [if_neg hq]
      exact ⟨'\'', _, rfl, by decide, by decide, by decide, by decide, by decide, by decide⟩
  | .vint n =>
    match hq : intStr n, intStr_ne_nil n with
    | c :: t, _ =>
      have hc : c.isDigit ∨ c = '-' := by
        have := intStr_chars n c (by rw [hq]; simp)
        exact this
      refine ⟨c, t, by rw [show pyRepr (.vint n) = intStr n from rfl, hq], ?_, ?_, ?_, ?_, ?_, ?_⟩
      · rcases hc with h2 | h2
        · exact digit_not_space h2
        · subst h2; decide
      all_goals
        rcases hc with h2 | h2
        · intro he; subst he; exact absurd h2 (by decide)
        · subst h2; decide
  | .vfloat (.fin neg ds e) =>
    have hcan : pyFloatParse (pyFloatStr (.fin false ds e)) = some (.fin false ds e) := by
      have h2 : reprSafe (.vfloat (.fin neg ds e)) = true := h
      rw [show reprSafe (.vfloat (.fin neg ds e)) =
        decide (pyFloatParse (pyFloatStr (.fin false ds e)) = some (.fin false ds e)) from rfl] at h2
      exact of_decide_eq_true h2
    obtain ⟨hne, hdig⟩ := pyFloatParse_fin_shape hcan
    match hq : pyFloatStr (.fin neg ds e), floatStr_ne_nil neg ds e with
    | c :: t, _ =>
      have hc := floatStr_chars neg ds e hdig c (by rw [hq]; simp)
      refine ⟨c, t, by rw [show pyRepr (.vfloat (.fin neg ds e)) =
        pyFloatStr (.fin neg ds e) from rfl, hq], ?_, ?_, ?_, ?_, ?_, ?_⟩
      · rcases hc with h2 | h2 | h2 | h2 | h2
        · exact digit_not_space h2
        all_goals (subst h2; decide)
      all_goals
        rcases hc with h2 | h2 | h2 | h2 | h2
        · intro he; subst he; exact absurd h2 (by decide)
        all_goals (subst h2; decide)
  | .vbool true =>
    exact ⟨'T', _, rfl, by decide, by decide, by decide, by decide, by decide, by decide⟩
  | .vbool false =>
    exact ⟨'F', _, rfl, by decide, by decide, by decide, by decide, by decide, by decide⟩
  | .vnone =>
    exact ⟨'N', _, rfl, by decide, by decide, by decide, by decide, by decide, by decide⟩
  | .vlist xs =>
    exact ⟨'[', _, rfl, by decide, by decide, by decide, by decide, by decide, by decide⟩
  | .vdict ps =>
    exact ⟨'{', _, rfl, by decide, by decide, by decide, by decide, by decide, by decide⟩

/-- The printed form of a nonempty safe sequence starts like its first
element. -/
theorem reprSeq_shape (xs : List Value) (hx : xs ≠ [])
    (hs : reprSafeList xs = true) :
    ∃ c t, pyReprSeq xs = c :: t ∧ isPySpace c = false ∧ ¬c = ']' ∧ ¬c = '}' ∧
      ¬c = ')' ∧ ¬c = ',' ∧ ¬c = ':' := by
  match xs, hx with
  | [x], _ =>
    have hsx : reprSafe x = true := by
      have h2 : (reprSafe x && reprSafeList []) = true := hs
      exact band_left h2
    obtain ⟨c, t, he, hf⟩ := repr_shape x hsx
    exact ⟨c, t, by rw [show pyReprSeq [x] = pyRepr x from rfl, he], hf⟩
  | x :: y :: r, _ =>
    have hsx : reprSafe x = true := by
      have h2 : (reprSafe x && reprSafeList (y :: r)) = true := hs
      exact band_left h2
    obtain ⟨c, t, he, hf⟩ := repr_shape x hsx
    refine ⟨c, t ++ pystr ", " ++ pyReprSeq (y :: r), ?_, hf⟩
    rw [pyReprSeq, he]
    simp [List.append_assoc]

/-- The printed form of a nonempty safe dict body starts like its first
key. -/
theorem reprPairs_shape (ps : List (Value × Value)) (hx : ps ≠ [])
    (hs : reprSafePairs ps = true) :
    ∃ c t, pyReprPairs ps = c :: t ∧ isPySpace c = false ∧ ¬c = ']' ∧ ¬c = '}' ∧
      ¬c = ')' ∧ ¬c = ',' ∧ ¬c = ':' := by
  match ps, hx with
  | [(k, v)], _ =>
    have hsk : reprSafe k = true := by
      have h2 : (reprSafe k && reprSafe v && reprSafePairs []) = true := hs
      exact band_left (band_left h2)
    obtain ⟨c, t, he, hf⟩ := repr_shape k hsk
    refine ⟨c, t ++ pystr ": " ++ pyRepr v, ?_, hf⟩
    rw [pyReprPairs, he]
    simp [List.append_assoc]
  | (k, v) :: p :: r, _ =>
    have hsk : reprSafe k = true := by
      have h2 : (reprSafe k && reprSafe v && reprSafePairs (p :: r)) = true := hs
      exact band_left (band_left h2)
    obtain ⟨c, t, he, hf⟩ := repr_shape k hsk
    refine ⟨c, t ++ pystr ": " ++ pyRepr v ++ pystr ", " ++ pyReprPairs (p :: r), ?_, hf⟩
    rw [pyReprPairs, he]
    simp [List.append_assoc]


/-- `skipWs` is idempotent. -/
theorem skipWs_idem (s : Str) : skipWs (skipWs s) = skipWs s := by
  induction s with
  | nil => rfl
  | cons c r ih =>
    by_cases h : isPySpace c
    · rw [show skipWs (c :: r) = skipWs r from List.dropWhile_cons_of_pos (by simp [h])]
      exact ih
    · rw [skipWs_cons c r (by simpa using h), skipWs_cons c r (by simpa using h)]

/-- The literal parser ignores leading whitespace. -/
theorem parseLit_ws (f : Nat) (sp s : Str) (hsp : ∀ c ∈ sp, isPySpace c = true) :
    parseLit f (sp ++ s) = parseLit f s := by
  match f with
  | 0 => rfl
  | f + 1 =>
    rw [parseLit.eq_def, parseLit.eq_def]
    dsimp only
    rw [skipWs_sp sp s hsp]


/-- The positive printed form of a nonzero-digit finite float starts with a
digit. -/
theorem floatStrPos_head (ds : Str) (e : Int) (hne : ds ≠ [])
    (hdig : ∀ c ∈ ds, c.isDigit) :
    ∃ d r, pyFloatStr (.fin false ds e) = d :: r ∧ d.isDigit := by
  match hq : ds, hne with
  | d0 :: tl, _ =>
    have hd0 : d0.isDigit := hdig d0 (by simp)
    rw [pyFloatStr_pos_eval]
    split
    · exact ⟨'0', _, rfl, by decide⟩
    · split
      · split
        · exact ⟨d0, _, by rw [List.cons_append, List.cons_append], hd0⟩
        · split
          · rename_i hpp
            have h1 : 1 ≤ ((((d0 :: tl).length : Int) + e).toNat) := by omega
            obtain ⟨m, hm⟩ : ∃ m, (((d0 :: tl).length : Int) + e).toNat = m + 1 :=
              ⟨(((d0 :: tl).length : Int) + e).toNat - 1, by omega⟩
            rw [hm]
            exact ⟨d0, _, by rw [List.take_succ_cons, List.cons_append], hd0⟩
          · exact ⟨'0', _, rfl, by decide⟩
      · exact ⟨d0, _, by rw [show (d0 :: tl).head? = some d0 from rfl,
          show (some d0).toList = [d0] from rfl, List.cons_append, List.cons_append], hd0⟩



/-- The literal parser on `str(int)` plus a safe continuation. -/
theorem parseLit_intStr (f : Nat) (n : Int) (sp w : Str)
    (hsp : ∀ c ∈ sp, isPySpace c = true) (hw : contOk w) :
    parseLit (f + 1) (sp ++ (intStr n ++ w)) = some (.vint n, w) := by
  rw [parseLit_ws (f + 1) sp _ hsp]
  have hdg := natDigits_digits n.natAbs
  by_cases hn : n < 0
  · rw [show intStr n = '-' :: natDigits n.natAbs by simp [intStr, hn], List.cons_append,
      PL_minus]
    match hnd : natDigits n.natAbs, natDigits_ne_nil n.natAbs with
    | d :: ds, _ =>
      have hd : d.isDigit := by
        have := hdg d (by rw [hnd]; simp)
        exact this
      rw [List.cons_append, skipWs_cons _ _ (digit_not_space hd), ← List.cons_append,
        ← hnd, scanNumber_digits _ w hdg hw,
        show ((natDigits n.natAbs, w) : Str × Str).1 = natDigits n.natAbs from rfl,
        show ((natDigits n.natAbs, w) : Str × Str).2 = w from rfl,
        parseNumToken_digits]
      have : -(n.natAbs : Int) = n := by omega
      rw [show (Value.vint n.natAbs : Value) = Value.vint n.natAbs from rfl]
      simp only [this]
  · rw [show intStr n = natDigits n.natAbs by simp [intStr, hn]]
    match hnd : natDigits n.natAbs, natDigits_ne_nil n.natAbs with
    | d :: ds, _ =>
      have hd : d.isDigit := by
        have := hdg d (by rw [hnd]; simp)
        exact this
      have hne : ∀ x : Char, x.isDigit = false → ¬d = x := by
        intro x hx he
        subst he
        rw [hd] at hx
        cases hx
      rw [List.cons_append,
        PL_default f d (ds ++ w) (digit_not_space hd) (hne '-' (by decide))
          (hne '+' (by decide)) (hne '\'' (by decide)) (hne '"' (by decide))
          (hne '[' (by decide)) (hne '(' (by decide)) (hne '{' (by decide)),
        show pystr "True" = ('T' :: pystr "rue" : Str) from rfl,
        starts_false 'T' (pystr "rue") d (ds ++ w) (fun he => by
          subst he; exact absurd hd (by decide)),
        show pystr "False" = ('F' :: pystr "alse" : Str) from rfl,
        starts_false 'F' (pystr "alse") d (ds ++ w) (fun he => by
          subst he; exact absurd hd (by decide)),
        show pystr "None" = ('N' :: pystr "one" : Str) from rfl,
        starts_false 'N' (pystr "one") d (ds ++ w) (fun he => by
          subst he; exact absurd hd (by decide))]
      simp only [Bool.false_eq_true, if_false]
      rw [← List.cons_append, ← hnd, scanNumber_digits _ w hdg hw,
        show ((natDigits n.natAbs, w) : Str × Str).1 = natDigits n.natAbs from rfl,
        show ((natDigits n.natAbs, w) : Str × Str).2 = w from rfl,
        parseNumToken_digits]
      have : (n.natAbs : Int) = n := by omega
      simp only [this]

/-- The literal parser on the spelling of `True`. -/
theorem parseLit_true (f : Nat) (sp w : Str)
    (hsp : ∀ c ∈ sp, isPySpace c = true) :
    parseLit (f + 1) (sp ++ (pystr "True" ++ w)) = some (.vbool true, w) := by
  rw [parseLit_ws (f + 1) sp _ hsp,
    show (pystr "True" ++ w : Str) = 'T' :: ('r' :: 'u' :: 'e' :: w) from rfl,
    PL_default f 'T' _ (by decide) (by decide) (by decide) (by decide) (by decide)
      (by decide) (by decide) (by decide),
    show ('T' :: ('r' :: 'u' :: 'e' :: w) : Str) = pystr "True" ++ w from rfl,
    starts_self (pystr "True") w, if_pos rfl]
  rfl

/-- The literal parser on the spelling of `False`. -/
theorem parseLit_false (f : Nat) (sp w : Str)
    (hsp : ∀ c ∈ sp, isPySpace c = true) :
    parseLit (f + 1) (sp ++ (pystr "False" ++ w)) = some (.vbool false, w) := by
  rw [parseLit_ws (f + 1) sp _ hsp,
    show (pystr "False" ++ w : Str) = 'F' :: ('a' :: 'l' :: 's' :: 'e' :: w) from rfl,
    PL_default f 'F' _ (by decide) (by decide) (by decide) (by decide) (by decide)
      (by decide) (by decide) (by decide),
    show pystr "True" = ('T' :: pystr "rue" : Str) from rfl,
    starts_false 'T' (pystr "rue") 'F' _ (by decide),
    show ('F' :: ('a' :: 'l' :: 's' :: 'e' :: w) : Str) = pystr "False" ++ w from rfl,
    starts_self (pystr "False") w]
  simp only [Bool.false_eq_true, if_false, if_pos rfl]
  rfl

/-- The literal parser on the spelling of `None`. -/
theorem parseLit_noneLit (f : Nat) (sp w : Str)
    (hsp : ∀ c ∈ sp, isPySpace c = true) :
    parseLit (f + 1) (sp ++ (pystr "None" ++ w)) = some (.vnone, w) := by
  rw [parseLit_ws (f + 1) sp _ hsp,
    show (pystr "None" ++ w : Str) = 'N' :: ('o' :: 'n' :: 'e' :: w) from rfl,
    PL_default f 'N' _ (by decide) (by decide) (by decide) (by decide) (by decide)
      (by decide) (by decide) (by decide),
    show pystr "True" = ('T' :: pystr "rue" : Str) from rfl,
    starts_false 'T' (pystr "rue") 'N' _ (by decide),
    show pystr "False" = ('F' :: pystr "alse" : Str) from rfl,
    starts_false 'F' (pystr "alse") 'N' _ (by decide),
    show ('N' :: ('o' :: 'n' :: 'e' :: w) : Str) = pystr "None" ++ w from rfl,
    starts_self (pystr "None") w]
  simp only [Bool.false_eq_true, if_false, if_pos rfl]
  rfl


/-- The literal parser on `str(float)` of a canonical finite float plus a
safe continuation. -/
theorem parseLit_floatStr (f : Nat) (neg : Bool) (ds : Str) (e : Int) (sp w : Str)
    (hsp : ∀ c ∈ sp, isPySpace c = true) (hw : contOk w)
    (hcan : pyFloatParse (pyFloatStr (.fin false ds e)) = some (.fin false ds e)) :
    parseLit (f + 1) (sp ++ (pyFloatStr (.fin neg ds e) ++ w)) =
      some (.vfloat (.fin neg ds e), w) := by
  rw [parseLit_ws (f + 1) sp _ hsp]
  obtain ⟨hne, hdig⟩ := pyFloatParse_fin_shape hcan
  obtain ⟨d, r, hdr, hd⟩ := floatStrPos_head ds e hne hdig
  match neg with
  | true =>
    rw [floatStr_neg, List.cons_append, PL_minus, hdr, List.cons_append,
      skipWs_cons _ _ (digit_not_space hd), ← List.cons_append, ← hdr,
      scanNumber_floatStr ds e hne hdig w hw,
      show ((pyFloatStr (.fin false ds e), w) : Str × Str).1 =
        pyFloatStr (.fin false ds e) from rfl,
      show ((pyFloatStr (.fin false ds e), w) : Str × Str).2 = w from rfl,
      parseNumToken_float ds e hcan]
    rfl
  | false =>
    have hnex : ∀ x : Char, x.isDigit = false → ¬d = x := by
      intro x hx he
      subst he
      rw [hd] at hx
      cases hx
    rw [hdr, List.cons_append,
      PL_default f d (r ++ w) (digit_not_space hd) (hnex '-' (by decide))
        (hnex '+' (by decide)) (hnex '\'' (by decide)) (hnex '"' (by decide))
        (hnex '[' (by decide)) (hnex '(' (by decide)) (hnex '{' (by decide)),
      show pystr "True" = ('T' :: pystr "rue" : Str) from rfl,
      starts_false 'T' (pystr "rue") d (r ++ w) (fun he => by
        subst he; exact absurd hd (by decide)),
      show pystr "False" = ('F' :: pystr "alse" : Str) from rfl,
      starts_false 'F' (pystr "alse") d (r ++ w) (fun he => by
        subst he; exact absurd hd (by decide)),
      show pystr "None" = ('N' :: pystr "one" : Str) from rfl,
      starts_false 'N' (pystr "one") d (r ++ w) (fun he => by
        subst he; exact absurd hd (by decide))]
    simp only [Bool.false_eq_true, if_false]
    rw [← List.cons_append, ← hdr, scanNumber_floatStr ds e hne hdig w hw,
      show ((pyFloatStr (.fin false ds e), w) : Str × Str).1 =
        pyFloatStr (.fin false ds e) from rfl,
      show ((pyFloatStr (.fin false ds e), w) : Str × Str).2 = w from rfl,
      parseNumToken_float ds e hcan]

/-- The literal parser on `repr` of a string plus any continuation. -/
theorem parseLit_strRepr (f : Nat) (s : Str) (sp w : Str)
    (hsp : ∀ c ∈ sp, isPySpace c = true) :
    parseLit (f + 1) (sp ++ (reprStr s ++ w)) = some (.vstr s, w) := by
  rw [parseLit_ws (f + 1) sp _ hsp, reprStr_eval]
  by_cases hq : s.contains '\'' ∧ ¬s.contains '"'
  · rw [if_pos hq, List.cons_append, PL_quote2]
    have hlen : s.length <
        ((s.flatMap (escChar '"') ++ ['"']) ++ w).length + 1 := by
      have := flatMap_escChar_len '"' s
      simp only [List.length_append]
      omega
    have hfix : (s.flatMap (escChar '"') ++ ['"']) ++ w =
        s.flatMap (escChar '"') ++ ('"' :: w) := by
      simp [List.append_assoc]
    rw [hfix]
    rw [hfix] at hlen
    rw [scanStrBody_printed '"' (Or.inr rfl) s _ w (by
      simp only [List.length_append] at hlen ⊢
      omega)]
    rfl
  · rw [if_neg hq, List.cons_append, PL_quote1]
    have hlen : s.length <
        ((s.flatMap (escChar '\'') ++ ['\'']) ++ w).length + 1 := by
      have := flatMap_escChar_len '\'' s
      simp only [List.length_append]
      omega
    have hfix : (s.flatMap (escChar '\'') ++ ['\'']) ++ w =
        s.flatMap (escChar '\'') ++ ('\'' :: w) := by
      simp [List.append_assoc]
    rw [hfix]
    rw [hfix] at hlen
    rw [scanStrBody_printed '\'' (Or.inl rfl) s _ w (by
      simp only [List.length_append] at hlen ⊢
      omega)]
    rfl


/-- `contOk` for a comma continuation. -/
theorem contOk_comma (r : Str) : contOk (',' :: r) :=
  Or.inr ⟨',', r, rfl, Or.inl rfl⟩

/-- `contOk` for a closing-bracket continuation. -/
theorem contOk_rbrack (r : Str) : contOk (']' :: r) :=
  Or.inr ⟨']', r, rfl, Or.inr (Or.inl rfl)⟩

/-- `contOk` for a closing-brace continuation. -/
theorem contOk_rbrace (r : Str) : contOk ('}' :: r) :=
  Or.inr ⟨'}', r, rfl, Or.inr (Or.inr (Or.inl rfl))⟩

/-- `contOk` for a colon continuation. -/
theorem contOk_colon (r : Str) : contOk (':' :: r) :=
  Or.inr ⟨':', r, rfl, Or.inr (Or.inr (Or.inr (Or.inr rfl)))⟩

/-- One step of the literal parser on a nonempty list display, given the
parse of its element sequence. -/
theorem list_step (F : Nat) (r : Str) (c : Char) (t : Str) (xs : List Value)
    (rest : Str) (hr : skipWs r = c :: t) (hc : ¬c = ']')
    (hrec : parseSeq F ']' r = some (xs, rest)) :
    parseLit (F + 1) ('[' :: r) = some (.vlist xs, rest) := by
  rw [PL_lbrack, hr]
  split
  · rename_i r2 heq
    rw [List.cons.injEq] at heq
    exact absurd heq.1 hc
  · rw [hrec]
    rfl

/-- One step of the sequence-tail parser when the closer follows the
element. -/
theorem seq_step_close (F : Nat) (close : Char) (s : Str) (x : Value)
    (rx r2 : Str) (hx : parseLit F s = some (x, rx))
    (hrx : skipWs rx = close :: r2) :
    parseSeq (F + 1) close s = some ([x], r2) := by
  rw [parseSeq_succ_eval, hx]
  dsimp only
  rw [hrx]
  dsimp only
  rw [if_pos rfl]

/-- One step of the sequence-tail parser when a comma and more elements
follow. -/
theorem seq_step_cons (F : Nat) (close : Char) (s : Str) (x : Value)
    (rx r2 : Str) (c2 : Char) (t2 : Str) (xs : List Value) (rest : Str)
    (hclose : ¬(',' : Char) = close)
    (hx : parseLit F s = some (x, rx)) (hrx : skipWs rx = ',' :: r2)
    (hr2 : skipWs r2 = c2 :: t2) (hc2 : ¬c2 = close)
    (hrec : parseSeq F close r2 = some (xs, rest)) :
    parseSeq (F + 1) close s = some (x :: xs, rest) := by
  rw [parseSeq_succ_eval, hx]
  dsimp only
  rw [hrx]
  dsimp only
  rw [if_neg hclose, if_pos rfl, hr2]
  split
  · rename_i c2h r3 heq
    rw [List.cons.injEq] at heq
    rw [if_neg (by rw [← heq.1]; exact hc2), hrec]
    rfl
  · rename_i heq
    exact List.noConfusion heq

/-- One step of the dict-tail parser on a final pair. -/
theorem pairs_step_last (F : Nat) (s : Str) (k : Value) (rk r3 : Str)
    (v : Value) (rv r4 : Str)
    (hk : parseLit F s = some (k, rk)) (hrk : skipWs rk = ':' :: r3)
    (hv : parseLit F r3 = some (v, rv)) (hrv : skipWs rv = '}' :: r4) :
    parsePairs (F + 1) s = some ([(k, v)], r4) := by
  rw [parsePairs_succ_eval, hk]
  dsimp only
  rw [hrk]
  split
  · rename_i r2h heq
    rw [List.cons.injEq] at heq
    obtain ⟨-, h2⟩ := heq
    subst h2
    rw [hv]
    dsimp only
    rw [hrv]
    split
    · rename_i r4h heq2
      rw [List.cons.injEq] at heq2
      obtain ⟨-, h4⟩ := heq2
      subst h4
      rfl
    · rename_i r4h heq2
      rw [List.cons.injEq] at heq2
      exact absurd heq2.1 (by decide)
    · rename_i h1 h2
      exact (h1 r4 rfl).elim
  · rename_i h1
    exact (h1 r3 rfl).elim

/-- One step of the dict-tail parser when a comma and more pairs follow. -/
theorem pairs_step_cons (F : Nat) (s : Str) (k : Value) (rk r3 : Str)
    (v : Value) (rv r4 : Str) (c4 : Char) (t4 : Str)
    (ps : List (Value × Value)) (rest : Str)
    (hk : parseLit F s = some (k, rk)) (hrk : skipWs rk = ':' :: r3)
    (hv : parseLit F r3 = some (v, rv)) (hrv : skipWs rv = ',' :: r4)
    (hr4 : skipWs r4 = c4 :: t4) (hc4 : ¬c4 = '}')
    (hrec : parsePairs F r4 = some (ps, rest)) :
    parsePairs (F + 1) s = some ((k, v) :: ps, rest) := by
  rw [parsePairs_succ_eval, hk]
  dsimp only
  rw [hrk]
  split
  · rename_i r2h heq
    rw [List.cons.injEq] at heq
    obtain ⟨-, h2⟩ := heq
    subst h2
    rw [hv]
    dsimp only
    rw [hrv]
    split
    · rename_i r4h heq2
      rw [List.cons.injEq] at heq2
      exact absurd heq2.1 (by decide)
    · rename_i r4h heq2
      rw [List.cons.injEq] at heq2
      obtain ⟨-, h4⟩ := heq2
      subst h4
      rw [hr4]
      split
      · rename_i r5 heq3
        rw [List.cons.injEq] at heq3
        exact absurd heq3.1 hc4
      · rw [hrec]
        rfl
    · rename_i h1 h2
      exact (h2 r4 rfl).elim
  · rename_i h1
    exact (h1 r3 rfl).elim

/-- One step of the literal parser on a single-pair dict display. -/
theorem dict_step_last (F : Nat) (r : Str) (c : Char) (t : Str)
    (k : Value) (rk r3 : Str) (v : Value) (rv r5 : Str)
    (hr : skipWs r = c :: t) (hcb : ¬c = '}')
    (hk : parseLit F r = some (k, rk)) (hrk : skipWs rk = ':' :: r3)
    (hv : parseLit F r3 = some (v, rv)) (hrv : skipWs rv = '}' :: r5) :
    parseLit (F + 1) ('{' :: r) = some (.vdict [(k, v)], r5) := by
  rw [PL_lbrace, hr]
  split
  · rename_i r2 heq
    rw [List.cons.injEq] at heq
    exact absurd heq.1 hcb
  · rw [hk]
    dsimp only
    rw [hrk]
    split
    · rename_i r3h heq
      rw [List.cons.injEq] at heq
      obtain ⟨-, h3⟩ := heq
      subst h3
      rw [hv]
      dsimp only
      rw [hrv]
      split
      · rename_i r5h heq2
        rw [List.cons.injEq] at heq2
        obtain ⟨-, h5⟩ := heq2
        subst h5
        rfl
      · rename_i r5h heq2
        rw [List.cons.injEq] at heq2
        exact absurd heq2.1 (by decide)
      · rename_i h1 h2
        exact (h1 r5 rfl).elim
    · rename_i r3h heq
      rw [List.cons.injEq] at heq
      exact absurd heq.1 (by decide)
    · rename_i r3h heq
      rw [List.cons.injEq] at heq
      exact absurd heq.1 (by decide)
    · rename_i h1 h2 h3
      exact (h1 r3 rfl).elim

/-- One step of the literal parser on a dict display with at least two
pairs. -/
theorem dict_step_cons (F : Nat) (r : Str) (c : Char) (t : Str)
    (k : Value) (rk r3 : Str) (v : Value) (rv r5 : Str) (c5 : Char) (t5 : Str)
    (ps : List (Value × Value)) (rest : Str)
    (hr : skipWs r = c :: t) (hcb : ¬c = '}')
    (hk : parseLit F r = some (k, rk)) (hrk : skipWs rk = ':' :: r3)
    (hv : parseLit F r3 = some (v, rv)) (hrv : skipWs rv = ',' :: r5)
    (hr5 : skipWs r5 = c5 :: t5) (hc5 : ¬c5 = '}')
    (hrec : parsePairs F r5 = some (ps, rest)) :
    parseLit (F + 1) ('{' :: r) = some (.vdict ((k, v) :: ps), rest) := by
  rw [PL_lbrace, hr]
  split
  · rename_i r2 heq
    rw [List.cons.injEq] at heq
    exact absurd heq.1 hcb
  · rw [hk]
    dsimp only
    rw [hrk]
    split
    · rename_i r3h heq
      rw [List.cons.injEq] at heq
      obtain ⟨-, h3⟩ := heq
      subst h3
      rw [hv]
      dsimp only
      rw [hrv]
      split
      · rename_i r5h heq2
        rw [List.cons.injEq] at heq2
        exact absurd heq2.1 (by decide)
      · rename_i r5h heq2
        rw [List.cons.injEq] at heq2
        obtain ⟨-, h5⟩ := heq2
        subst h5
        rw [hr5]
        split
        · rename_i r6 heq3
          rw [List.cons.injEq] at heq3
          exact absurd heq3.1 hc5
        · rw [hrec]
          rfl
      · rename_i h1 h2
        exact (h2 r5 rfl).elim
    · rename_i r3h heq
      rw [List.cons.injEq] at heq
      exact absurd heq.1 (by decide)
    · rename_i r3h heq
      rw [List.cons.injEq] at heq
      exact absurd heq.1 (by decide)
    · rename_i h1 h2 h3
      exact (h1 r3 rfl).elim


/-- The literal parser reads back `repr` of every `reprSafe` value, and the
sequence/pair tail parsers read back printed element lists, given enough
fuel, leading whitespace, and a safe continuation. -/
theorem lit_round : ∀ fuel : Nat,
    (∀ (v : Value) (sp w : Str), reprSafe v = true →
      (∀ c ∈ sp, isPySpace c = true) → contOk w → vsize v < fuel →
      parseLit fuel (sp ++ (pyRepr v ++ w)) = some (v, w)) ∧
    (∀ (xs : List Value) (sp w : Str), xs ≠ [] → reprSafeList xs = true →
      (∀ c ∈ sp, isPySpace c = true) → vsizeList xs < fuel →
      parseSeq fuel ']' (sp ++ (pyReprSeq xs ++ (']' :: w))) = some (xs, w)) ∧
    (∀ (ps : List (Value × Value)) (sp w : Str), ps ≠ [] →
      reprSafePairs ps = true → (∀ c ∈ sp, isPySpace c = true) →
      vsizePairs ps < fuel →
      parsePairs fuel (sp ++ (pyReprPairs ps ++ ('}' :: w))) = some (ps, w)) := by
  intro fuel
  induction fuel with
  | zero =>
    refine ⟨?_, ?_, ?_⟩
    · intro v sp w _ _ _ hf
      omega
    · intro xs sp w _ _ _ hf
      omega
    · intro ps sp w _ _ _ hf
      omega
  | succ F IH =>
    obtain ⟨IHlit, IHseq, IHpairs⟩ := IH
    refine ⟨?_, ?_, ?_⟩
    · intro v sp w hsafe hsp hw hf
      match v with
      | .vint n => exact parseLit_intStr F n sp w hsp hw
      | .vbool true => exact parseLit_true F sp w hsp
      | .vbool false => exact parseLit_false F sp w hsp
      | .vnone => exact parseLit_noneLit F sp w hsp
      | .vstr s => exact parseLit_strRepr F s sp w hsp
      | .vfloat (.fin neg ds e) =>
        have hcan : pyFloatParse (pyFloatStr (.fin false ds e)) =
            some (.fin false ds e) := by
          have h2 : decide (pyFloatParse (pyFloatStr (.fin false ds e)) =
              some (.fin false ds e)) = true := hsafe
          exact of_decide_eq_true h2
        exact parseLit_floatStr F neg ds e sp w hsp hw hcan
      | .vfloat (.inf b) => exact Bool.noConfusion (show false = true from hsafe)
      | .vfloat .nan => exact Bool.noConfusion (show false = true from hsafe)
      | .vtuple xs => exact Bool.noConfusion (show false = true from hsafe)
      | .vset xs => exact Bool.noConfusion (show false = true from hsafe)
      | .vlist xs =>
        rw [show pyRepr (.vlist xs) = '[' :: (pyReprSeq xs ++ [']']) from rfl,
          parseLit_ws (F + 1) sp _ hsp, List.cons_append]
        match xs, hsafe, hf with
        | [], _, _ =>
          rw [PL_lbrack,
            show pyReprSeq ([] : List Value) = [] from rfl,
            show ((([] : Str) ++ [']']) ++ w) = ']' :: w from rfl,
            skipWs_cons ']' w (by decide)]
          rfl
        | x :: rest, hsafe, hf =>
          have hsl : reprSafeList (x :: rest) = true := hsafe
          obtain ⟨c, t, hct, hcw, hc1, hc2, hc3, hc4, hc5⟩ :=
            reprSeq_shape (x :: rest) (by simp) hsl
          have hrn : (pyReprSeq (x :: rest) ++ [']']) ++ w =
              pyReprSeq (x :: rest) ++ (']' :: w) := by
            simp [List.append_assoc]
          refine list_step F _ c (t ++ (']' :: w)) (x :: rest) w ?_ hc1 ?_
          · rw [hrn, hct, List.cons_append]
            exact skipWs_cons c _ hcw
          · rw [hrn]
            exact IHseq (x :: rest) [] w (by simp) hsl (by simp) (by
              have he : vsize (.vlist (x :: rest)) = 1 + vsizeList (x :: rest) := rfl
              omega)
      | .vdict ps =>
        rw [show pyRepr (.vdict ps) = '{' :: (pyReprPairs ps ++ ['}']) from rfl,
          parseLit_ws (F + 1) sp _ hsp, List.cons_append]
        match ps, hsafe, hf with
        | [], _, _ =>
          rw [PL_lbrace,
            show pyReprPairs ([] : List (Value × Value)) = [] from rfl,
            show ((([] : Str) ++ ['}']) ++ w) = '}' :: w from rfl,
            skipWs_cons '}' w (by decide)]
          rfl
        | (k, kv) :: rest, hsafe, hf =>
          have hsl : reprSafePairs ((k, kv) :: rest) = true := hsafe
          have h2 : (reprSafe k && reprSafe kv && reprSafePairs rest) = true := hsl
          have hsk : reprSafe k = true := band_left (band_left h2)
          have hskv : reprSafe kv = true := band_right (band_left h2)
          have hsrest : reprSafePairs rest = true := band_right h2
          have hsz : vsize (.vdict ((k, kv) :: rest)) =
              1 + (1 + vsize k + vsize kv + vsizePairs rest) := rfl
          obtain ⟨ck, tk, hctk, hcwk, hck1, hck2, hck3, hck4, hck5⟩ :=
            repr_shape k hsk
          match rest, hsrest with
          | [], _ =>
            have hrn : (pyReprPairs [(k, kv)] ++ ['}']) ++ w =
                pyRepr k ++ (pystr ": " ++ (pyRepr kv ++ ('}' :: w))) := by
              rw [pyReprPairs]
              simp [List.append_assoc]
            rw [hrn]
            refine dict_step_last F _ ck (tk ++ (pystr ": " ++ (pyRepr kv ++ ('}' :: w))))
              k (pystr ": " ++ (pyRepr kv ++ ('}' :: w)))
              (' ' :: (pyRepr kv ++ ('}' :: w))) kv ('}' :: w) w
              ?_ hck2 ?_ ?_ ?_ ?_
            · rw [hctk, List.cons_append]
              exact skipWs_cons ck _ hcwk
            · exact IHlit k [] _ hsk (by simp)
                (show contOk (':' :: (' ' :: (pyRepr kv ++ ('}' :: w)))) from
                  contOk_colon _)
                (by omega)
            · exact skipWs_cons ':' _ (by decide)
            · exact IHlit kv [' '] _ hskv (by decide) (contOk_rbrace w) (by omega)
            · exact skipWs_cons '}' w (by decide)
          | p2 :: r2, hsrest2 =>
            obtain ⟨cp, tp, hctp, hcwp, hcp1, hcp2, hcp3, hcp4, hcp5⟩ :=
              reprPairs_shape (p2 :: r2) (by simp) hsrest2
            have hrn : (pyReprPairs ((k, kv) :: p2 :: r2) ++ ['}']) ++ w =
                pyRepr k ++ (pystr ": " ++ (pyRepr kv ++ (pystr ", " ++
                  (pyReprPairs (p2 :: r2) ++ ('}' :: w))))) := by
              rw [pyReprPairs]
              simp [List.append_assoc]
            rw [hrn]
            refine dict_step_cons F _ ck
              (tk ++ (pystr ": " ++ (pyRepr kv ++ (pystr ", " ++
                (pyReprPairs (p2 :: r2) ++ ('}' :: w))))))
              k (pystr ": " ++ (pyRepr kv ++ (pystr ", " ++
                (pyReprPairs (p2 :: r2) ++ ('}' :: w)))))
              (' ' :: (pyRepr kv ++ (pystr ", " ++
                (pyReprPairs (p2 :: r2) ++ ('}' :: w)))))
              kv (pystr ", " ++ (pyReprPairs (p2 :: r2) ++ ('}' :: w)))
              (' ' :: (pyReprPairs (p2 :: r2) ++ ('}' :: w)))
              cp (tp ++ ('}' :: w)) (p2 :: r2) w
              ?_ hck2 ?_ ?_ ?_ ?_ ?_ hcp2 ?_
            · rw [hctk, List.cons_append]
              exact skipWs_cons ck _ hcwk
            · exact IHlit k [] _ hsk (by simp)
                (show contOk (':' :: (' ' :: (pyRepr kv ++ (pystr ", " ++
                  (pyReprPairs (p2 :: r2) ++ ('}' :: w)))))) from contOk_colon _)
                (by omega)
            · exact skipWs_cons ':' _ (by decide)
            · exact IHlit kv [' '] _ hskv (by decide)
                (show contOk (',' :: (' ' :: (pyReprPairs (p2 :: r2) ++ ('}' :: w))))
                  from contOk_comma _)
                (by omega)
            · exact skipWs_cons ',' _ (by decide)
            · rw [show (' ' :: (pyReprPairs (p2 :: r2) ++ ('}' :: w)) : Str) =
                [' '] ++ (pyReprPairs (p2 :: r2) ++ ('}' :: w)) from rfl,
                skipWs_sp [' '] _ (by decide), hctp, List.cons_append]
              exact skipWs_cons cp _ hcwp
            · exact IHpairs (p2 :: r2) [' '] w (by simp) hsrest2 (by decide) (by
                have he2 : vsizePairs ((k, kv) :: p2 :: r2) =
                  1 + vsize k + vsize kv + vsizePairs (p2 :: r2) := rfl
                have he3 : vsize (.vdict ((k, kv) :: p2 :: r2)) =
                  1 + vsizePairs ((k, kv) :: p2 :: r2) := rfl
                omega)
    · intro xs sp w hx hsl hsp hf
      match xs, hx, hsl, hf with
      | [x], _, hsl, hf =>
        have hsx : reprSafe x = true :=
          band_left (show (reprSafe x && reprSafeList []) = true from hsl)
        refine seq_step_close F ']' _ x (']' :: w) w ?_ ?_
        · rw [show pyReprSeq [x] = pyRepr x from rfl]
          exact IHlit x sp (']' :: w) hsx hsp (contOk_rbrack w) (by
            have he : vsizeList [x] = 1 + vsize x + vsizeList [] := rfl
            have he2 : vsizeList ([] : List Value) = 0 := rfl
            omega)
        · exact skipWs_cons ']' w (by decide)
      | x :: y :: r2, _, hsl, hf =>
        have h2 : (reprSafe x && reprSafeList (y :: r2)) = true := hsl
        have hsx : reprSafe x = true := band_left h2
        have hsrest : reprSafeList (y :: r2) = true := band_right h2
        obtain ⟨cs, ts, hcts, hcws, hcs1, hcs2, hcs3, hcs4, hcs5⟩ :=
          reprSeq_shape (y :: r2) (by simp) hsrest
        have hrn : pyReprSeq (x :: y :: r2) ++ (']' :: w) =
            pyRepr x ++ (pystr ", " ++ (pyReprSeq (y :: r2) ++ (']' :: w))) := by
          rw [pyReprSeq]
          simp [List.append_assoc]
        rw [hrn]
        refine seq_step_cons F ']' _ x
          (pystr ", " ++ (pyReprSeq (y :: r2) ++ (']' :: w)))
          (' ' :: (pyReprSeq (y :: r2) ++ (']' :: w)))
          cs (ts ++ (']' :: w)) (y :: r2) w (by decide) ?_ ?_ ?_ hcs1 ?_
        · exact IHlit x sp _ hsx hsp
            (show contOk (',' :: (' ' :: (pyReprSeq (y :: r2) ++ (']' :: w))))
              from contOk_comma _)
            (by
              have he : vsizeList (x :: y :: r2) =
                1 + vsize x + vsizeList (y :: r2) := rfl
              omega)
        · exact skipWs_cons ',' _ (by decide)
        · rw [show (' ' :: (pyReprSeq (y :: r2) ++ (']' :: w)) : Str) =
            [' '] ++ (pyReprSeq (y :: r2) ++ (']' :: w)) from rfl,
            skipWs_sp [' '] _ (by decide), hcts, List.cons_append]
          exact skipWs_cons cs _ hcws
        · exact IHseq (y :: r2) [' '] w (by simp) hsrest (by decide) (by
            have he : vsizeList (x :: y :: r2) =
              1 + vsize x + vsizeList (y :: r2) := rfl
            omega)
    · intro ps sp w hx hsl hsp hf
      match ps, hx, hsl, hf with
      | [(k, kv)], _, hsl, hf =>
        have h2 : (reprSafe k && reprSafe kv && reprSafePairs []) = true := hsl
        have hsk : reprSafe k = true := band_left (band_left h2)
        have hskv : reprSafe kv = true := band_right (band_left h2)
        have hsz : vsizePairs [(k, kv)] =
            1 + vsize k + vsize kv + vsizePairs [] := rfl
        have hrn : pyReprPairs [(k, kv)] ++ ('}' :: w) =
            pyRepr k ++ (pystr ": " ++ (pyRepr kv ++ ('}' :: w))) := by
          rw [pyReprPairs]
          simp [List.append_assoc]
        rw [hrn]
        refine pairs_step_last F _ k (pystr ": " ++ (pyRepr kv ++ ('}' :: w)))
          (' ' :: (pyRepr kv ++ ('}' :: w))) kv ('}' :: w) w ?_ ?_ ?_ ?_
        · exact IHlit k sp _ hsk hsp
            (show contOk (':' :: (' ' :: (pyRepr kv ++ ('}' :: w)))) from
              contOk_colon _)
            (by omega)
        · exact skipWs_cons ':' _ (by decide)
        · exact IHlit kv [' '] _ hskv (by decide) (contOk_rbrace w) (by omega)
        · exact skipWs_cons '}' w (by decide)
      | (k, kv) :: p2 :: r2, _, hsl, hf =>
        have h2 : (reprSafe k && reprSafe kv && reprSafePairs (p2 :: r2)) = true := hsl
        have hsk : reprSafe k = true := band_left (band_left h2)
        have hskv : reprSafe kv = true := band_right (band_left h2)
        have hsrest : reprSafePairs (p2 :: r2) = true := band_right h2
        have hsz : vsizePairs ((k, kv) :: p2 :: r2) =
            1 + vsize k + vsize kv + vsizePairs (p2 :: r2) := rfl
        obtain ⟨cp, tp, hctp, hcwp, hcp1, hcp2, hcp3, hcp4, hcp5⟩ :=
          reprPairs_shape (p2 :: r2) (by simp) hsrest
        have hrn : pyReprPairs ((k, kv) :: p2 :: r2) ++ ('}' :: w) =
            pyRepr k ++ (pystr ": " ++ (pyRepr kv ++ (pystr ", " ++
              (pyReprPairs (p2 :: r2) ++ ('}' :: w))))) := by
          rw [pyReprPairs]
          simp [List.append_assoc]
        rw [hrn]
        refine pairs_step_cons F _ k
          (pystr ": " ++ (pyRepr kv ++ (pystr ", " ++
            (pyReprPairs (p2 :: r2) ++ ('}' :: w)))))
          (' ' :: (pyRepr kv ++ (pystr ", " ++
            (pyReprPairs (p2 :: r2) ++ ('}' :: w)))))
          kv (pystr ", " ++ (pyReprPairs (p2 :: r2) ++ ('}' :: w)))
          (' ' :: (pyReprPairs (p2 :: r2) ++ ('}' :: w)))
          cp (tp ++ ('}' :: w)) (p2 :: r2) w
          ?_ ?_ ?_ ?_ ?_ hcp2 ?_
        · exact IHlit k sp _ hsk hsp
            (show contOk (':' :: (' ' :: (pyRepr kv ++ (pystr ", " ++
              (pyReprPairs (p2 :: r2) ++ ('}' :: w)))))) from contOk_colon _)
            (by omega)
        · exact skipWs_cons ':' _ (by decide)
        · exact IHlit kv [' '] _ hskv (by decide)
            (show contOk (',' :: (' ' :: (pyReprPairs (p2 :: r2) ++ ('}' :: w))))
              from contOk_comma _)
            (by omega)
        · exact skipWs_cons ',' _ (by decide)
        · rw [show (' ' :: (pyReprPairs (p2 :: r2) ++ ('}' :: w)) : Str) =
            [' '] ++ (pyReprPairs (p2 :: r2) ++ ('}' :: w)) from rfl,
            skipWs_sp [' '] _ (by decide), hctp, List.cons_append]
          exact skipWs_cons cp _ hcwp
        · exact IHpairs (p2 :: r2) [' '] w (by simp) hsrest (by decide) (by omega)


/-- `lower` of a cons differs from a word when the heads differ after
lowering. -/
theorem lower_ne_of_head {c : Char} {r : Str} {d : Char} {ds : Str}
    (h : ¬c.toLower = d) : ¬pyLower (c :: r) = d :: ds :=
  fun he => h (pyLower_cons_eq he)

/-- A find from 0 lands past 0 when the pattern misses the head. -/
theorem find_ge_one (pat t : Str) (i : Nat)
    (hpre : pat.isPrefixOf t = false) (h : pyFindFrom pat t 0 = some i) :
    1 ≤ i := by
  unfold pyFindFrom at h
  rw [List.drop_zero] at h
  match t with
  | [] =>
    unfold pyFindFrom.go at h
    rw [if_neg (by simp [hpre])] at h
    exact absurd h (by simp)
  | c :: rest =>
    unfold pyFindFrom.go at h
    rw [if_neg (by simp [hpre])] at h
    exact pyFindFrom_go_ge pat rest 1 i h

/-- The underscore-digit check fails on a non-digit head. -/
theorem digitsOk_head_false {c : Char} (r : Str) (h : c.isDigit = false) :
    digitsUnderscoreOk (c :: r) = false := by
  unfold digitsUnderscoreOk
  dsimp only
  rw [h]
  simp

/-- `digitGroup` fails on a non-digit head. -/
theorem digitGroup_head_none {c : Char} (r : Str) (h : c.isDigit = false) :
    digitGroup (c :: r) = none := by
  unfold digitGroup
  rw [digitsOk_head_false r h]
  simp

/-- The mantissa parse fails when the head is neither a digit nor a
decimal point. -/
theorem mantissaParse_none_head (neg : Bool) {c : Char} (m : Str) (ev : Int)
    (h6 : c.isDigit = false) (h8 : ¬c = '.') :
    mantissaParse neg (c :: m) ev = none := by
  have hpre : (pystr ".").isPrefixOf (c :: m) = false := by
    simp [pystr, List.isPrefixOf]
    intro he
    exact absurd he.symm h8
  match hfind : pyFindFrom (pystr ".") (c :: m) 0 with
  | none =>
    unfold mantissaParse
    rw [hfind]
    rw [digitGroup_head_none m h6]
  | some i =>
    have hge := find_ge_one _ _ i hpre hfind
    obtain ⟨j, rfl⟩ : ∃ j, i = j + 1 := ⟨i - 1, by omega⟩
    unfold mantissaParse
    rw [hfind]
    split
    · rename_i i2 heq
      rw [Option.some.injEq] at heq
      subst heq
      dsimp only
      rw [show ((c :: m).take (j + 1)) = c :: m.take j from rfl,
        if_neg (by simp), if_neg (by simp),
        digitGroup_head_none (m.take j) h6]
    · rename_i heq
      exact absurd heq (by simp)

/-- `float()` fails on any stripped string whose head rules out every
branch of the grammar. -/
theorem pyFloatParse_none_head {c : Char} (r : Str)
    (hstrip : pyStrip (c :: r) = c :: r)
    (h1 : ¬c = '-') (h2 : ¬c = '+') (h3 : ¬c.toLower = 'i')
    (h4 : ¬c.toLower = 'n') (h5 : ¬c.toLower = 'e')
    (h6 : c.isDigit = false) (h8 : ¬c = '.') :
    pyFloatParse (c :: r) = none := by
  rw [pyFloatParse_eval, hstrip, signSplit_other r h1 h2,
    show ((false, c :: r) : Bool × Str).2 = c :: r from rfl,
    show ((false, c :: r) : Bool × Str).1 = false from rfl,
    if_neg (by
      rintro (he | he)
      · exact lower_ne_of_head h3 (by
          rw [show (pystr "inf" : Str) = 'i' :: pystr "nf" from rfl] at he
          exact he)
      · exact lower_ne_of_head h3 (by
          rw [show (pystr "infinity" : Str) = 'i' :: pystr "nfinity" from rfl] at he
          exact he)),
    if_neg (lower_ne_of_head h4 ∘ (by
      intro he
      rw [show (pystr "nan" : Str) = 'n' :: pystr "an" from rfl] at he
      exact he))]
  by_cases hok : (expSplit (c :: r)).2.1 = false
  · rw [hok]
    rfl
  · rw [show (!(expSplit (c :: r)).2.1) = false from by
      cases hq : (expSplit (c :: r)).2.1
      · exact absurd hq hok
      · rfl]
    rw [if_neg (by simp)]
    have hepre : (pystr "e").isPrefixOf (pyLower (c :: r)) = false := by
      rw [show pyLower (c :: r) = c.toLower :: pyLower r from rfl]
      simp [pystr, List.isPrefixOf]
      intro he
      exact absurd he.symm h5
    have hmant : ∃ m, (expSplit (c :: r)).1 = c :: m := by
      unfold expSplit
      match hfind : pyFindFrom (pystr "e") (pyLower (c :: r)) 0 with
      | none => exact ⟨r, rfl⟩
      | some i =>
        have hge := find_ge_one _ _ i hepre hfind
        obtain ⟨j, rfl⟩ : ∃ j, i = j + 1 := ⟨i - 1, by omega⟩
        dsimp only
        split
        · exact ⟨r.take j, rfl⟩
        · exact ⟨r.take j, rfl⟩
    obtain ⟨m, hm⟩ := hmant
    rw [hm]
    exact mantissaParse_none_head false m _ h6 h8

/-- `strip` keeps a string wrapped in non-whitespace characters. -/
theorem pyStrip_wrap {c d : Char} (x : Str) (hc : isPySpace c = false)
    (hd : isPySpace d = false) : pyStrip (c :: (x ++ [d])) = c :: (x ++ [d]) :=
  pyStrip_cons_of_last (x ++ [d]) hc hd (List.getLast?_concat x)

/-- Sizes are bounded by printed lengths (fuel-indexed mutual bound). -/
theorem repr_len : ∀ n : Nat,
    (∀ v : Value, vsize v ≤ n → vsize v ≤ (pyRepr v).length) ∧
    (∀ xs : List Value, xs ≠ [] → vsizeList xs ≤ n →
      vsizeList xs ≤ (pyReprSeq xs).length + 1) ∧
    (∀ ps : List (Value × Value), ps ≠ [] → vsizePairs ps ≤ n →
      vsizePairs ps ≤ (pyReprPairs ps).length + 1) := by
  intro n
  induction n with
  | zero =>
    refine ⟨?_, ?_, ?_⟩
    · intro v hv
      have := vsize_pos v
      omega
    · intro xs hx hv
      match xs, hx with
      | x :: r, _ =>
        have h1 : vsizeList (x :: r) = 1 + vsize x + vsizeList r := rfl
        omega
    · intro ps hx hv
      match ps, hx with
      | (k, kv) :: r, _ =>
        have h1 : vsizePairs ((k, kv) :: r) = 1 + vsize k + vsize kv + vsizePairs r := rfl
        omega
  | succ n IH =>
    obtain ⟨IHlit, IHseq, IHpairs⟩ := IH
    refine ⟨?_, ?_, ?_⟩
    · intro v hv
      match v with
      | .vstr s =>
        rw [show pyRepr (.vstr s) = reprStr s from rfl, reprStr_eval]
        have h1 : vsize (.vstr s) = 1 := rfl
        simp
        omega
      | .vint n2 =>
        have h1 : vsize (.vint n2) = 1 := rfl
        have h2 : (pyRepr (.vint n2)) ≠ [] := intStr_ne_nil n2
        have h3 := List.length_pos.mpr h2
        omega
      | .vfloat (.fin neg ds e) =>
        have h1 : vsize (.vfloat (.fin neg ds e)) = 1 := rfl
        have h2 : (pyRepr (.vfloat (.fin neg ds e))) ≠ [] := floatStr_ne_nil neg ds e
        have h3 := List.length_pos.mpr h2
        omega
      | .vfloat (.inf true) => decide
      | .vfloat (.inf false) => decide
      | .vfloat .nan => decide
      | .vbool true => decide
      | .vbool false => decide
      | .vnone => decide
      | .vlist [] => decide
      | .vtuple [] => decide
      | .vset [] => decide
      | .vlist (x :: r) =>
        have h1 : vsize (.vlist (x :: r)) = 1 + vsizeList (x :: r) := rfl
        have h2 := IHseq (x :: r) (by simp) (by omega)
        have h3 : (pyRepr (.vlist (x :: r))).length =
            (pyReprSeq (x :: r)).length + 2 := by
          rw [show pyRepr (.vlist (x :: r)) =
            '[' :: (pyReprSeq (x :: r) ++ [']']) from rfl]
          simp
        omega
      | .vset (x :: r) =>
        have h1 : vsize (.vset (x :: r)) = 1 + vsizeList (x :: r) := rfl
        have h2 := IHseq (x :: r) (by simp) (by omega)
        have h3 : (pyRepr (.vset (x :: r))).length =
            (pyReprSeq (x :: r)).length + 2 := by
          rw [show pyRepr (.vset (x :: r)) =
            '{' :: (pyReprSeq (x :: r) ++ ['}']) from rfl]
          simp
        omega
      | .vtuple [x] =>
        have h1 : vsize (.vtuple [x]) = 1 + vsizeList [x] := rfl
        have h2 : vsizeList [x] = 1 + vsize x + 0 := rfl
        have h3 := IHlit x (by
          have h4 : vsize (.vtuple [x]) = 1 + (1 + vsize x + 0) := rfl
          omega)
        have h5 : (pyRepr (.vtuple [x])).length = (pyRepr x).length + 3 := by
          rw [show pyRepr (.vtuple [x]) = '(' :: (pyRepr x ++ pystr ",)") from rfl]
          simp [pystr]
        omega
      | .vtuple (x :: y :: r) =>
        have h1 : vsize (.vtuple (x :: y :: r)) = 1 + vsizeList (x :: y :: r) := rfl
        have h2 := IHseq (x :: y :: r) (by simp) (by omega)
        have h3 : (pyRepr (.vtuple (x :: y :: r))).length =
            (pyReprSeq (x :: y :: r)).length + 2 := by
          rw [show pyRepr (.vtuple (x :: y :: r)) =
            '(' :: (pyReprSeq (x :: y :: r) ++ [')']) from rfl]
          simp
        omega
      | .vdict [] => decide
      | .vdict ((k, kv) :: r) =>
        have h1 : vsize (.vdict ((k, kv) :: r)) = 1 + vsizePairs ((k, kv) :: r) := rfl
        have h2 := IHpairs ((k, kv) :: r) (by simp) (by omega)
        have h3 : (pyRepr (.vdict ((k, kv) :: r))).length =
            (pyReprPairs ((k, kv) :: r)).length + 2 := by
          rw [show pyRepr (.vdict ((k, kv) :: r)) =
            '{' :: (pyReprPairs ((k, kv) :: r) ++ ['}']) from rfl]
          simp
        omega
    · intro xs hx hv
      match xs, hx with
      | [x], _ =>
        have h1 : vsizeList [x] = 1 + vsize x + 0 := rfl
        have h2 := IHlit x (by omega)
        have h3 : (pyReprSeq [x]).length = (pyRepr x).length := by
          rw [show pyReprSeq [x] = pyRepr x from rfl]
        omega
      | x :: y :: r, _ =>
        have h1 : vsizeList (x :: y :: r) = 1 + vsize x + vsizeList (y :: r) := rfl
        have h2 := IHlit x (by omega)
        have h3 := IHseq (y :: r) (by simp) (by omega)
        have h4 : (pyReprSeq (x :: y :: r)).length =
            (pyRepr x).length + 2 + (pyReprSeq (y :: r)).length := by
          rw [pyReprSeq]
          simp [pystr]
          omega
        omega
    · intro ps hx hv
      match ps, hx with
      | [(k, kv)], _ =>
        have h1 : vsizePairs [(k, kv)] = 1 + vsize k + vsize kv + 0 := rfl
        have h2 := IHlit k (by omega)
        have h3 := IHlit kv (by omega)
        have h4 : (pyReprPairs [(k, kv)]).length =
            (pyRepr k).length + 2 + (pyRepr kv).length := by
          rw [pyReprPairs]
          simp [pystr]
          omega
        omega
      | (k, kv) :: p :: r, _ =>
        have h1 : vsizePairs ((k, kv) :: p :: r) =
            1 + vsize k + vsize kv + vsizePairs (p :: r) := rfl
        have h2 := IHlit k (by omega)
        have h3 := IHlit kv (by omega)
        have h4 := IHpairs (p :: r) (by simp) (by omega)
        have h5 : (pyReprPairs ((k, kv) :: p :: r)).length =
            (pyRepr k).length + 2 + (pyRepr kv).length + 2 +
              (pyReprPairs (p :: r)).length := by
          rw [pyReprPairs]
          simp [pystr]
          omega
        omega

/-- `ast.literal_eval` reads back `repr` of every `reprSafe` value. -/
theorem literalEval_repr (v : Value) (h : reprSafe v = true) :
    literalEval (pyRepr v) = some v := by
  have hlen : vsize v ≤ (pyRepr v).length :=
    (repr_len (vsize v)).1 v (le_refl _)
  have hp := (lit_round ((pyRepr v).length + 1)).1 v [] [] h (by simp)
    (Or.inl rfl) (by omega)
  rw [List.nil_append, List.append_nil] at hp
  unfold literalEval
  rw [hp]
  rfl


/-- A conservative decidable check that `parse_value` returns a plain string
unchanged: already stripped, not a boolean spelling, not a number, and not a
list/dict literal. -/
def strOkB (s : Str) : Bool :=
  decide (pyStrip s = s) &&
  !(decide (pyLower s = pystr "true")) &&
  !(decide (pyLower s = pystr "false")) &&
  (pyIntParse s).isNone &&
  (pyFloatParse s).isNone &&
  (match literalEval s with
   | some (.vlist _) => false
   | some (.vdict _) => false
   | _ => true)

/-- `parse_value` fixes any string passing `strOkB`. -/
theorem parseValue_strOk (s : Str) (h : strOkB s = true) :
    parseValue s = .vstr s := by
  unfold strOkB at h
  have h1 : pyStrip s = s := of_decide_eq_true (band_left (band_left (band_left (band_left (band_left h)))))
  have h2 : ¬pyLower s = pystr "true" := by
    have h2b := band_right (band_left (band_left (band_left (band_left h))))
    simp only [Bool.not_eq_true'] at h2b
    exact of_decide_eq_false h2b
  have h3 : ¬pyLower s = pystr "false" := by
    have h3b := band_right (band_left (band_left (band_left h)))
    simp only [Bool.not_eq_true'] at h3b
    exact of_decide_eq_false h3b
  have h4 : pyIntParse s = none :=
    Option.isNone_iff_eq_none.mp (band_right (band_left (band_left h)))
  have h5 : pyFloatParse s = none :=
    Option.isNone_iff_eq_none.mp (band_right (band_left h))
  have h6 := band_right h
  rw [parseValue_eval, h1, if_neg h2, if_neg h3, h4, h5]
  match hle : literalEval s with
  | none => rfl
  | some (.vlist xs) =>
    rw [hle] at h6
    cases h6
  | some (.vdict ps) =>
    rw [hle] at h6
    cases h6
  | some (.vstr t) => rfl
  | some (.vint n) => rfl
  | some (.vfloat f) => rfl
  | some (.vbool b) => rfl
  | some .vnone => rfl
  | some (.vtuple xs) => rfl
  | some (.vset xs) => rfl

/-- `parse_value` reads back `repr` of a `reprSafe` list. -/
theorem parseValue_listRepr (xs : List Value) (h : reprSafe (.vlist xs) = true) :
    parseValue (pyRepr (.vlist xs)) = .vlist xs := by
  have hshape : pyRepr (.vlist xs) = '[' :: (pyReprSeq xs ++ [']']) := rfl
  have hstrip : pyStrip (pyRepr (.vlist xs)) = pyRepr (.vlist xs) := by
    rw [hshape]
    exact pyStrip_wrap _ (by decide) (by decide)
  have hle : literalEval (pyRepr (.vlist xs)) = some (.vlist xs) :=
    literalEval_repr _ h
  rw [parseValue_eval, hstrip, hshape,
    if_neg (show ¬pyLower ('[' :: (pyReprSeq xs ++ [']'])) = pystr "true" from
      lower_ne_of_head (by decide)),
    if_neg (show ¬pyLower ('[' :: (pyReprSeq xs ++ [']'])) = pystr "false" from
      lower_ne_of_head (by decide)),
    pyIntParse_none_of_mark (show '[' ∈ '[' :: (pyReprSeq xs ++ [']']) from by simp)
      (by decide) (by decide) (by decide) (by decide) (by decide),
    pyFloatParse_none_head _ (by rw [← hshape]; exact hstrip) (by decide) (by decide)
      (by decide) (by decide) (by decide) (by decide) (by decide),
    ← hshape, hle]

/-- `parse_value` reads back `repr` of a `reprSafe` dict. -/
theorem parseValue_dictRepr (ps : List (Value × Value))
    (h : reprSafe (.vdict ps) = true) :
    parseValue (pyRepr (.vdict ps)) = .vdict ps := by
  have hshape : pyRepr (.vdict ps) = '{' :: (pyReprPairs ps ++ ['}']) := rfl
  have hstrip : pyStrip (pyRepr (.vdict ps)) = pyRepr (.vdict ps) := by
    rw [hshape]
    exact pyStrip_wrap _ (by decide) (by decide)
  have hle : literalEval (pyRepr (.vdict ps)) = some (.vdict ps) :=
    literalEval_repr _ h
  rw [parseValue_eval, hstrip, hshape,
    if_neg (show ¬pyLower ('{' :: (pyReprPairs ps ++ ['}'])) = pystr "true" from
      lower_ne_of_head (by decide)),
    if_neg (show ¬pyLower ('{' :: (pyReprPairs ps ++ ['}'])) = pystr "false" from
      lower_ne_of_head (by decide)),
    pyIntParse_none_of_mark (show '{' ∈ '{' :: (pyReprPairs ps ++ ['}']) from by simp)
      (by decide) (by decide) (by decide) (by decide) (by decide),
    pyFloatParse_none_head _ (by rw [← hshape]; exact hstrip) (by decide) (by decide)
      (by decide) (by decide) (by decide) (by decide) (by decide),
    ← hshape, hle]

/-- Which argument values round-trip through the XML format: strings that
`parse_value` fixes, integers, booleans, floats whose printed form parses
back, and `reprSafe` lists/dicts — in every case the serialized text must
also survive the builder's escape / extractor's unescape pair. -/
def xmlValueOk (v : Value) : Bool :=
  (match v with
   | .vstr s => strOkB s
   | .vint _ => true
   | .vbool _ => true
   | .vfloat f => decide (pyFloatParse (pyFloatStr f) = some f)
   | .vlist xs => reprSafe (.vlist xs)
   | .vdict ps => reprSafe (.vdict ps)
   | _ => false) &&
  decide (xmlUnescape (xmlEscape (pyStr v)) = pyStr v)

/-- `parse_value` undoes `str` on every `xmlValueOk` value. -/
theorem parseValue_pyStr (v : Value) (h : xmlValueOk v = true) :
    parseValue (pyStr v) = v := by
  have hbase := band_left h
  match v with
  | .vstr s => exact parseValue_strOk s hbase
  | .vint n => exact parseValue_intStr n
  | .vbool true => exact parseValue_true
  | .vbool false => exact parseValue_false
  | .vfloat f => exact parseValue_floatStr f (of_decide_eq_true hbase)
  | .vlist xs => exact parseValue_listRepr xs hbase
  | .vdict ps => exact parseValue_dictRepr ps hbase
  | .vnone => cases hbase
  | .vtuple xs => cases hbase
  | .vset xs => cases hbase

/-- Unescape undoes escape on the `str` form of every `xmlValueOk` value. -/
theorem unescape_escape_pyStr (v : Value) (h : xmlValueOk v = true) :
    xmlUnescape (xmlEscape (pyStr v)) = pyStr v :=
  of_decide_eq_true (band_right h)


/-- `pat` never matches at a position strictly inside `x`, whatever text
follows. -/
def noHit (pat x : Str) : Prop :=
  ∀ (y : Str) (j : Nat), j < x.length → pat.isPrefixOf ((x ++ y).drop j) = false

/-- The empty chunk has no hits. -/
theorem noHit_nil (pat : Str) : noHit pat [] := by
  intro y j hj
  simp at hj

/-- `noHit` is closed under concatenation. -/
theorem noHit_append {pat x1 x2 : Str} (h1 : noHit pat x1) (h2 : noHit pat x2) :
    noHit pat (x1 ++ x2) := by
  intro y j hj
  by_cases hlt : j < x1.length
  · rw [List.append_assoc]
    exact h1 (x2 ++ y) j hlt
  · have hj2 : j - x1.length < x2.length := by
      rw [List.length_append] at hj
      omega
    have hsplit : j = x1.length + (j - x1.length) := by omega
    rw [List.append_assoc, hsplit, List.drop_append]
    exact h2 y (j - x1.length) hj2

/-- The tail of a `noHit` chunk is `noHit`. -/
theorem noHit_tail {pat : Str} {c : Char} {x : Str} (h : noHit pat (c :: x)) :
    noHit pat x := by
  intro y j hj
  have h2 := h y (j + 1) (by simp; omega)
  rw [List.cons_append, List.drop_succ_cons] at h2
  exact h2

/-- A chunk without `<` has no hits for a `<`-headed pattern. -/
theorem noHit_noLt (p' : Str) (x : Str) (hx : ∀ c ∈ x, ¬c = '<') :
    noHit ('<' :: p') x := by
  induction x with
  | nil => exact noHit_nil _
  | cons c xr ih =>
    intro y j hj
    match j with
    | 0 =>
      rw [List.cons_append, List.drop_zero]
      simp [List.isPrefixOf]
      intro he
      exact absurd he.symm (hx c (by simp))
    | j + 1 =>
      rw [List.cons_append, List.drop_succ_cons]
      exact ih (fun c2 hc2 => hx c2 (by simp [hc2])) y j (by simp at hj; omega)

/-- A `<`-headed token has no hits when its head fails the pattern and its
tail has no `<`. -/
theorem noHit_token {p' tb : Str}
    (hhd : ∀ y : Str, (('<' :: p').isPrefixOf ('<' :: (tb ++ y))) = false)
    (htb : ∀ c ∈ tb, ¬c = '<') : noHit ('<' :: p') ('<' :: tb) := by
  intro y j hj
  match j with
  | 0 =>
    rw [List.cons_append, List.drop_zero]
    exact hhd y
  | j + 1 =>
    rw [List.cons_append, List.drop_succ_cons]
    exact noHit_noLt p' tb htb y j (by simp at hj; omega)

/-- A tag-character run followed by `>` determines itself: if one such
pattern prefixes another, the runs are equal. -/
theorem tagrun_eq : ∀ (q k : Str) (r : Str),
    (∀ c ∈ q, isTagChar c = true) → (∀ c ∈ k, isTagChar c = true) →
    (q ++ ['>']).isPrefixOf (k ++ '>' :: r) = true → q = k := by
  intro q
  induction q with
  | nil =>
    intro k r _ hk h
    match k with
    | [] => rfl
    | d :: k2 =>
      exfalso
      rw [List.nil_append] at h
      simp only [List.isPrefixOf, Bool.and_eq_true, beq_iff_eq] at h
      have h2 := hk d (by simp)
      rw [← h.1] at h2
      exact absurd h2 (by decide)
  | cons c q2 ih =>
    intro k r hq hk h
    match k with
    | [] =>
      exfalso
      rw [List.nil_append, List.cons_append] at h
      simp only [List.isPrefixOf, Bool.and_eq_true, beq_iff_eq] at h
      have h2 := hq c (by simp)
      rw [h.1] at h2
      exact absurd h2 (by decide)
    | d :: k2 =>
      rw [List.cons_append, List.cons_append] at h
      simp only [List.isPrefixOf, Bool.and_eq_true, beq_iff_eq] at h
      obtain ⟨he, h2⟩ := h
      subst he
      rw [ih k2 r (fun c2 hc2 => hq c2 (by simp [hc2]))
        (fun c2 hc2 => hk c2 (by simp [hc2])) h2]

/-- Scanning for the first match walks straight past a `noHit` chunk. -/
theorem go_of_noHit (pat : Str) : ∀ (x y : Str) (i : Nat), noHit pat x →
    pyFindFrom.go pat (x ++ y) i = pyFindFrom.go pat y (i + x.length) := by
  intro x
  induction x with
  | nil =>
    intro y i _
    rfl
  | cons c xr ih =>
    intro y i h
    have h0 := h y 0 (by simp)
    rw [List.drop_zero, List.cons_append] at h0
    rw [List.cons_append]
    conv_lhs => unfold pyFindFrom.go
    rw [if_neg (by simp [h0])]
    dsimp only
    rw [ih y (i + 1) (noHit_tail h)]
    rw [show i + 1 + xr.length = i + (c :: xr).length from by simp; omega]

/-- Counting matches walks straight past a `noHit` chunk. -/
theorem countAux_of_noHit (pat : Str) : ∀ (x y : Str), noHit pat x →
    pyCountAux pat (x ++ y) 0 = pyCountAux pat y 0 := by
  intro x
  induction x with
  | nil =>
    intro y _
    rfl
  | cons c xr ih =>
    intro y h
    have h0 := h y 0 (by simp)
    rw [List.drop_zero, List.cons_append] at h0
    rw [List.cons_append, countAux_step pat c (xr ++ y) h0]
    exact ih y (noHit_tail h)

/-- The scan stops at a position where the pattern matches. -/
theorem go_here {pat t : Str} (i : Nat) (h : pat.isPrefixOf t = true) :
    pyFindFrom.go pat t i = some i := by
  unfold pyFindFrom.go
  rw [if_pos (by simp [h])]

/-- The scan fails on an empty remainder for a nonempty pattern. -/
theorem go_nil {c : Char} (pr : Str) (i : Nat) :
    pyFindFrom.go (c :: pr) [] i = none := by
  unfold pyFindFrom.go
  rw [if_neg (by simp [List.isPrefixOf])]

/-- A pattern prefixes itself plus anything. -/
theorem isPrefixOf_append_self (pat y : Str) :
    pat.isPrefixOf (pat ++ y) = true := by
  rw [List.isPrefixOf_iff_prefix]
  exact ⟨y, rfl⟩


/-- The default start marker of `XMLToolCallExtractor`/`Builder`. -/
def tcStart : Str := pystr "<tool_call>"

/-- The default end marker of `XMLToolCallExtractor`/`Builder`. -/
def tcEnd : Str := pystr "</tool_call>"

/-- One `<key>escaped(str(value))</key>` line of the XML builder. -/
def argLine (kv : Str × Value) : Str :=
  '<' :: kv.1 ++ '>' :: xmlEscape (pyStr kv.2) ++ '<' :: '/' :: kv.1 ++ [ '>' ]

/-- The newline-prefixed argument lines after the name line. -/
def argsTail : List (Str × Value) → Str
  | [] => []
  | kv :: rest => '\n' :: (argLine kv ++ argsTail rest)

/-- One builder argument is well-formed: nonempty tag-safe key that is not
the block tag itself, and a round-trippable value. -/
def argOk (kv : Str × Value) : Bool :=
  (!kv.1.isEmpty) && kv.1.all isTagChar &&
  !(decide (kv.1 = pystr "tool_call")) && xmlValueOk kv.2

/-- A tool call the XML format can represent faithfully. -/
def xmlRepresentable (c : ToolCall) : Bool :=
  (!c.name.isEmpty) && c.name.all isTagChar &&
  decide ((c.args.map Prod.fst).Nodup) &&
  c.args.all argOk

/-- `join` over a head line plus rendered argument lines. -/
theorem joinNl_args (x : Str) : ∀ args : List (Str × Value),
    joinNl (x :: args.map argLine) = x ++ argsTail args := by
  intro args
  induction args generalizing x with
  | nil => simp [joinNl, argsTail]
  | cons kv rest ih =>
    rw [List.map_cons,
      show joinNl (x :: argLine kv :: rest.map argLine) =
        x ++ '\n' :: joinNl (argLine kv :: rest.map argLine) from rfl,
      ih (argLine kv)]
    rfl

/-- Tag characters are not `<`. -/
theorem tagChar_not_lt {ch : Char} (h : isTagChar ch = true) : ¬ch = '<' := by
  intro he
  subst he
  exact absurd h (by decide)

/-- Tag characters are not `/`. -/
theorem tagChar_not_slash {ch : Char} (h : isTagChar ch = true) : ¬ch = '/' := by
  intro he
  subst he
  exact absurd h (by decide)

/-- Escaped text contains no `<`. -/
theorem escape_no_lt (s : Str) : ∀ ch ∈ xmlEscape s, ¬ch = '<' := by
  intro ch hch he
  subst he
  exact absurd hch (xmlEscape_no_angle s).1

/-- An open-tag pattern misses a differently-named open tag. -/
theorem noHit_open {q k : Str} (hq : ∀ ch ∈ q, isTagChar ch = true)
    (hk : ∀ ch ∈ k, isTagChar ch = true) (hne : ¬q = k) :
    noHit ('<' :: (q ++ ['>'])) ('<' :: (k ++ ['>'])) := by
  refine noHit_token ?_ ?_
  · intro y
    simp only [List.isPrefixOf, Bool.and_eq_true, beq_self_eq_true, true_and,
      Bool.and_eq_false_iff]
    cases hv : (q ++ ['>']).isPrefixOf ((k ++ ['>']) ++ y)
    · simp
    · exfalso
      rw [show ((k ++ ['>']) ++ y) = k ++ '>' :: y from by simp] at hv
      exact hne (tagrun_eq q k y hq hk hv)
  · intro ch hch
    rcases List.mem_append.mp hch with hm | hm
    · exact tagChar_not_lt (hk ch hm)
    · rw [List.mem_singleton.mp hm]
      decide

/-- A close-tag pattern misses a differently-named close tag. -/
theorem noHit_close {q k : Str} (hq : ∀ ch ∈ q, isTagChar ch = true)
    (hk : ∀ ch ∈ k, isTagChar ch = true) (hne : ¬q = k) :
    noHit ('<' :: ('/' :: (q ++ ['>']))) ('<' :: ('/' :: (k ++ ['>']))) := by
  refine noHit_token ?_ ?_
  · intro y
    rw [show (('/' :: (k ++ ['>'])) ++ y) = '/' :: ((k ++ ['>']) ++ y) from rfl]
    simp only [List.isPrefixOf, Bool.and_eq_true, beq_self_eq_true, true_and,
      Bool.and_eq_false_iff]
    cases hv : (q ++ ['>']).isPrefixOf ((k ++ ['>']) ++ y)
    · simp
    · exfalso
      rw [show ((k ++ ['>']) ++ y) = k ++ '>' :: y from by simp] at hv
      exact hne (tagrun_eq q k y hq hk hv)
  · intro ch hch
    rcases List.mem_cons.mp hch with hm | hm
    · rw [hm]
      decide
    · rcases List.mem_append.mp hm with hm2 | hm2
      · exact tagChar_not_lt (hk ch hm2)
      · rw [List.mem_singleton.mp hm2]
        decide

/-- A close-tag pattern misses any open tag. -/
theorem noHit_close_open {pr k : Str}
    (hk : ∀ ch ∈ k, isTagChar ch = true) (hkne : k ≠ []) :
    noHit ('<' :: ('/' :: pr)) ('<' :: (k ++ ['>'])) := by
  refine noHit_token ?_ ?_
  · intro y
    match k, hkne with
    | kc :: k2, _ =>
      rw [show ('<' :: (((kc :: k2) ++ ['>']) ++ y) : Str) =
          '<' :: (kc :: ((k2 ++ ['>']) ++ y)) from rfl,
        show (('<' :: ('/' :: pr)).isPrefixOf ('<' :: (kc :: ((k2 ++ ['>']) ++ y)))) =
          (('/' :: pr).isPrefixOf (kc :: ((k2 ++ ['>']) ++ y))) from by
          simp [List.isPrefixOf]]
      exact starts_false '/' pr kc _ (fun he =>
        tagChar_not_slash (hk kc (by simp)) he.symm)
  · intro ch hch
    rcases List.mem_append.mp hch with hm | hm
    · exact tagChar_not_lt (hk ch hm)
    · rw [List.mem_singleton.mp hm]
      decide

/-- An open-tag pattern misses any close tag. -/
theorem noHit_open_close {q tb : Str} (hq : ∀ ch ∈ q, isTagChar ch = true)
    (hqne : q ≠ []) (htb : ∀ ch ∈ tb, ¬ch = '<') :
    noHit ('<' :: (q ++ ['>'])) ('<' :: ('/' :: tb)) := by
  refine noHit_token ?_ ?_
  · intro y
    match q, hqne with
    | qc :: q2, _ =>
      rw [show ('<' :: (('/' :: tb) ++ y) : Str) = '<' :: ('/' :: (tb ++ y)) from rfl,
        show (((qc :: q2) ++ ['>']) : Str) = qc :: (q2 ++ ['>']) from rfl,
        show (('<' :: (qc :: (q2 ++ ['>']))).isPrefixOf ('<' :: ('/' :: (tb ++ y)))) =
          ((qc :: (q2 ++ ['>'])).isPrefixOf ('/' :: (tb ++ y))) from by
          simp [List.isPrefixOf]]
      exact starts_false qc (q2 ++ ['>']) '/' (tb ++ y)
        (tagChar_not_slash (hq qc (by simp)))
  · intro ch hch
    rcases List.mem_cons.mp hch with hm | hm
    · rw [hm]
      decide
    · exact htb ch hm


/-- Structural form of the start marker. -/
theorem tcStart_shape : tcStart = '<' :: (pystr "tool_call" ++ ['>']) := rfl

/-- Structural form of the end marker. -/
theorem tcEnd_shape : tcEnd = '<' :: ('/' :: (pystr "tool_call" ++ ['>'])) := rfl

/-- The block tag name is a tag-character run. -/
theorem tagchars_toolcall : ∀ ch ∈ (pystr "tool_call" : Str), isTagChar ch = true := by
  decide

/-- `name` is a tag-character run. -/
theorem tagchars_name : ∀ ch ∈ (pystr "name" : Str), isTagChar ch = true := by
  decide

/-- Unpack the per-argument guard. -/
theorem argOk_fields (kv : Str × Value) (h : argOk kv = true) :
    kv.1 ≠ [] ∧ (∀ ch ∈ kv.1, isTagChar ch = true) ∧
      ¬kv.1 = pystr "tool_call" ∧ xmlValueOk kv.2 = true := by
  unfold argOk at h
  refine ⟨?_, ?_, ?_, band_right h⟩
  · have h1 := band_left (band_left (band_left h))
    simp only [Bool.not_eq_true'] at h1
    intro hnil
    rw [hnil] at h1
    cases h1
  · have h2 := band_right (band_left (band_left h))
    exact fun ch hch => List.all_eq_true.mp h2 ch hch
  · have h3 := band_right (band_left h)
    simp only [Bool.not_eq_true'] at h3
    exact of_decide_eq_false h3

/-- Unpack the representability guard. -/
theorem xmlRep_fields (c : ToolCall) (h : xmlRepresentable c = true) :
    c.name ≠ [] ∧ (∀ ch ∈ c.name, isTagChar ch = true) ∧
      (c.args.map Prod.fst).Nodup ∧ c.args.all argOk = true := by
  unfold xmlRepresentable at h
  refine ⟨?_, ?_, ?_, band_right h⟩
  · have h1 := band_left (band_left (band_left h))
    simp only [Bool.not_eq_true'] at h1
    intro hnil
    rw [hnil] at h1
    cases h1
  · have h2 := band_right (band_left (band_left h))
    exact fun ch hch => List.all_eq_true.mp h2 ch hch
  · exact of_decide_eq_true (band_right (band_left h))

/-- Token decomposition of an argument line. -/
theorem argLine_shape (kv : Str × Value) :
    argLine kv = ('<' :: (kv.1 ++ ['>'])) ++
      (xmlEscape (pyStr kv.2) ++ ('<' :: ('/' :: (kv.1 ++ ['>'])))) := by
  unfold argLine
  simp [List.append_assoc]

/-- Token decomposition of the name line. -/
theorem nameLine_shape (nm : Str) :
    (pystr "<name>" ++ nm ++ pystr "</name>" : Str) =
      ('<' :: (pystr "name" ++ ['>'])) ++
        (nm ++ ('<' :: ('/' :: (pystr "name" ++ ['>']))))  := by
  simp [List.append_assoc]
  rfl

/-- The end marker never matches inside an argument line. -/
theorem noHit_argLine_end (kv : Str × Value) (h : argOk kv = true) :
    noHit tcEnd (argLine kv) := by
  obtain ⟨hne, htag, hnetc, -⟩ := argOk_fields kv h
  rw [argLine_shape kv, tcEnd_shape]
  exact noHit_append (noHit_close_open htag hne)
    (noHit_append (noHit_noLt _ _ (escape_no_lt _))
      (noHit_close tagchars_toolcall htag (fun he => hnetc he.symm)))

/-- The start marker never matches inside an argument line. -/
theorem noHit_argLine_start (kv : Str × Value) (h : argOk kv = true) :
    noHit tcStart (argLine kv) := by
  obtain ⟨hne, htag, hnetc, -⟩ := argOk_fields kv h
  rw [argLine_shape kv, tcStart_shape]
  refine noHit_append (noHit_open tagchars_toolcall htag (fun he => hnetc he.symm))
    (noHit_append (noHit_noLt _ _ (escape_no_lt _))
      (noHit_open_close tagchars_toolcall (by decide) ?_))
  intro ch hch
  rcases List.mem_append.mp hch with hm | hm
  · exact tagChar_not_lt (htag ch hm)
  · rw [List.mem_singleton.mp hm]
    decide

/-- The end marker never matches inside the argument lines. -/
theorem noHit_argsTail_end : ∀ args : List (Str × Value),
    args.all argOk = true → noHit tcEnd (argsTail args) := by
  intro args
  induction args with
  | nil =>
    intro _
    exact noHit_nil _
  | cons kv rest ih =>
    intro h
    rw [List.all_cons] at h
    rw [show argsTail (kv :: rest) = ['\n'] ++ (argLine kv ++ argsTail rest) from rfl,
      tcEnd_shape]
    refine noHit_append (noHit_noLt _ _ (by decide)) (noHit_append ?_ ?_)
    · rw [← tcEnd_shape]
      exact noHit_argLine_end kv (band_left h)
    · rw [← tcEnd_shape]
      exact ih (band_right h)

/-- The start marker never matches inside the argument lines. -/
theorem noHit_argsTail_start : ∀ args : List (Str × Value),
    args.all argOk = true → noHit tcStart (argsTail args) := by
  intro args
  induction args with
  | nil =>
    intro _
    exact noHit_nil _
  | cons kv rest ih =>
    intro h
    rw [List.all_cons] at h
    rw [show argsTail (kv :: rest) = ['\n'] ++ (argLine kv ++ argsTail rest) from rfl,
      tcStart_shape]
    refine noHit_append (noHit_noLt _ _ (by decide)) (noHit_append ?_ ?_)
    · rw [← tcStart_shape]
      exact noHit_argLine_start kv (band_left h)
    · rw [← tcStart_shape]
      exact ih (band_right h)

/-- The newline-wrapped interior of a built block. -/
def innerBody (c : ToolCall) : Str :=
  '\n' :: (((pystr "<name>" ++ c.name ++ pystr "</name>") ++ argsTail c.args) ++ ['\n'])

/-- A built call splits into marker, interior, marker. -/
theorem build_decomp (c : ToolCall) :
    xmlBuildCall tcStart tcEnd c = tcStart ++ (innerBody c ++ tcEnd) := by
  unfold xmlBuildCall innerBody
  dsimp only
  rw [show (c.args.map fun kv =>
      '<' :: kv.1 ++ '>' :: xmlEscape (pyStr kv.2) ++ '<' :: '/' :: kv.1 ++ [ '>' ]) =
    c.args.map argLine from rfl, joinNl_args]
  simp [List.append_assoc]

/-- The end marker never matches inside the interior. -/
theorem noHit_inner_end (c : ToolCall) (h : xmlRepresentable c = true) :
    noHit tcEnd (innerBody c) := by
  obtain ⟨hne, htag, -, hargs⟩ := xmlRep_fields c h
  rw [show innerBody c = ['\n'] ++
      (((pystr "<name>" ++ c.name ++ pystr "</name>") ++ argsTail c.args) ++ ['\n'])
    from rfl, nameLine_shape c.name, tcEnd_shape]
  refine noHit_append (noHit_noLt _ _ (by decide))
    (noHit_append (noHit_append ?_ ?_) (noHit_noLt _ _ (by decide)))
  · exact noHit_append (noHit_close_open tagchars_name (by decide))
      (noHit_append (noHit_noLt _ _ (fun ch hch => tagChar_not_lt (htag ch hch)))
        (noHit_close tagchars_toolcall tagchars_name (by decide)))
  · rw [← tcEnd_shape]
    exact noHit_argsTail_end c.args hargs

/-- The start marker never matches inside the interior. -/
theorem noHit_inner_start (c : ToolCall) (h : xmlRepresentable c = true) :
    noHit tcStart (innerBody c) := by
  obtain ⟨hne, htag, -, hargs⟩ := xmlRep_fields c h
  rw [show innerBody c = ['\n'] ++
      (((pystr "<name>" ++ c.name ++ pystr "</name>") ++ argsTail c.args) ++ ['\n'])
    from rfl, nameLine_shape c.name, tcStart_shape]
  refine noHit_append (noHit_noLt _ _ (by decide))
    (noHit_append (noHit_append ?_ ?_) (noHit_noLt _ _ (by decide)))
  · exact noHit_append (noHit_open tagchars_toolcall tagchars_name (by decide))
      (noHit_append (noHit_noLt _ _ (fun ch hch => tagChar_not_lt (htag ch hch)))
        (noHit_open_close tagchars_toolcall (by decide) (by decide)))
  · rw [← tcStart_shape]
    exact noHit_argsTail_start c.args hargs

/-- The start marker never matches inside the end marker. -/
theorem noHit_start_in_end : noHit tcStart tcEnd := by
  rw [tcStart_shape, tcEnd_shape]
  exact noHit_open_close tagchars_toolcall (by decide) (by decide)

/-- The end marker never matches inside the start marker. -/
theorem noHit_end_in_start : noHit tcEnd tcStart := by
  rw [tcStart_shape, tcEnd_shape]
  exact noHit_close_open tagchars_toolcall (by decide)


/-- Count of the start marker in a built block: exactly one. -/
theorem count_ts_build (c : ToolCall) (h : xmlRepresentable c = true) :
    pyCount tcStart (tcStart ++ (innerBody c ++ tcEnd)) = 1 := by
  unfold pyCount
  rw [if_neg (by decide)]
  rw [show (tcStart ++ (innerBody c ++ tcEnd) : Str) =
    '<' :: (pystr "tool_call>" ++ (innerBody c ++ tcEnd)) from rfl]
  rw [show pyCountAux tcStart ('<' :: (pystr "tool_call>" ++ (innerBody c ++ tcEnd))) 0 =
    pyCountAux ('<' :: pystr "tool_call>")
      ('<' :: (pystr "tool_call>" ++ (innerBody c ++ tcEnd))) 0 from rfl]
  rw [countAux_match '<' (pystr "tool_call>") (innerBody c ++ tcEnd)]
  rw [show pyCountAux ('<' :: pystr "tool_call>") (innerBody c ++ tcEnd) 0 =
    pyCountAux tcStart (innerBody c ++ tcEnd) 0 from rfl]
  rw [countAux_of_noHit tcStart (innerBody c) tcEnd (noHit_inner_start c h)]
  decide

/-- Count of the end marker in a built block: exactly one. -/
theorem count_te_build (c : ToolCall) (h : xmlRepresentable c = true) :
    pyCount tcEnd (tcStart ++ (innerBody c ++ tcEnd)) = 1 := by
  unfold pyCount
  rw [if_neg (by decide)]
  rw [countAux_of_noHit tcEnd tcStart (innerBody c ++ tcEnd) noHit_end_in_start,
    countAux_of_noHit tcEnd (innerBody c) tcEnd (noHit_inner_end c h)]
  decide

/-- The tag-balance pre-check passes on a built block. -/
theorem tagBalance_build (c : ToolCall) (h : xmlRepresentable c = true) :
    tagBalance tcStart tcEnd (tcStart ++ (innerBody c ++ tcEnd)) = none := by
  unfold tagBalance adjEnds
  rw [count_ts_build c h, count_te_build c h,
    show pyContains tcEnd tcStart = false from by decide]
  simp

/-- A block-finder step when the scan is already past every marker. -/
theorem findBlocksF_none (ts te text : Str) (f pos : Nat)
    (hfind : pyFindFrom ts text pos = none) :
    findBlocksF ts te text f pos = [] := by
  match f with
  | 0 => rfl
  | f + 1 =>
    unfold findBlocksF
    split
    · rfl
    · rw [hfind]

/-- The find-from-zero of the start marker in a built block. -/
theorem find_ts_build (c : ToolCall) :
    pyFindFrom tcStart (tcStart ++ (innerBody c ++ tcEnd)) 0 = some 0 := by
  unfold pyFindFrom
  rw [List.drop_zero]
  exact go_here 0 (isPrefixOf_append_self tcStart (innerBody c ++ tcEnd))

/-- The find of the end marker after the start marker in a built block. -/
theorem find_te_build (c : ToolCall) (h : xmlRepresentable c = true) :
    pyFindFrom tcEnd (tcStart ++ (innerBody c ++ tcEnd)) tcStart.length =
      some (tcStart.length + (innerBody c).length) := by
  unfold pyFindFrom
  rw [List.drop_left]
  rw [go_of_noHit tcEnd (innerBody c) tcEnd tcStart.length (noHit_inner_end c h)]
  exact go_here _ (by decide)

/-- The find of the start marker from the end of a built block. -/
theorem find_ts_end_build (c : ToolCall) :
    pyFindFrom tcStart (tcStart ++ (innerBody c ++ tcEnd))
      (tcStart ++ (innerBody c ++ tcEnd)).length = none := by
  unfold pyFindFrom
  rw [List.drop_length]
  rw [show (tcStart : Str) = '<' :: pystr "tool_call>" from rfl]
  exact go_nil _ _

/-- The block finder on a built block: one span covering the whole text. -/
theorem findBlocks_build (c : ToolCall) (h : xmlRepresentable c = true) :
    findBlocks tcStart tcEnd (tcStart ++ (innerBody c ++ tcEnd)) =
      [(0, innerBody c, tcStart.length + (innerBody c).length + tcEnd.length)] := by
  unfold findBlocks
  rw [show ((tcStart ++ (innerBody c ++ tcEnd) : Str).length + 1) =
    ((tcStart ++ (innerBody c ++ tcEnd) : Str).length) + 1 from rfl]
  unfold findBlocksF
  rw [if_neg (by decide), find_ts_build c]
  dsimp only
  rw [show (0 + tcStart.length) = tcStart.length from by omega, find_te_build c h]
  dsimp only
  rw [findBlocksF_none tcStart tcEnd _ _ _ (by
    rw [show (tcStart.length + (innerBody c).length + tcEnd.length) =
      (tcStart ++ (innerBody c ++ tcEnd) : Str).length from by
      simp [List.length_append]
      omega]
    exact find_ts_end_build c)]
  rw [show ((tcStart ++ (innerBody c ++ tcEnd) : Str).take
      (tcStart.length + (innerBody c).length)).drop tcStart.length =
    innerBody c from by
    rw [show (tcStart ++ (innerBody c ++ tcEnd) : Str) =
      (tcStart ++ innerBody c) ++ tcEnd from by simp [List.append_assoc],
      List.take_left' (by simp [List.length_append]),
      List.drop_left]]


/-- Push the last element through a cons. -/
theorem getLast?_cons_of_last {c d : Char} {x : Str} (h : x.getLast? = some d) :
    (c :: x).getLast? = some d := by
  match x, h with
  | a :: t, h =>
    rw [List.getLast?_cons_cons]
    exact h

/-- Push the last element through an append. -/
theorem getLast?_append_right {x y : Str} {d : Char} (h : y.getLast? = some d) :
    (x ++ y).getLast? = some d := by
  have hne : y ≠ [] := by
    intro hnil
    rw [hnil] at h
    simp at h
  obtain ⟨e, hdec, -⟩ := exists_last_decomp y hne
  have he : e = d := by
    rw [hdec, List.getLast?_concat] at h
    exact Option.some.inj h
  subst he
  rw [hdec, ← List.append_assoc, List.getLast?_concat]

/-- An argument line ends in `>`. -/
theorem argLine_last (kv : Str × Value) : (argLine kv).getLast? = some '>' := by
  unfold argLine
  exact List.getLast?_concat _

/-- Nonempty rendered argument lines end in `>`. -/
theorem argsTail_last : ∀ args : List (Str × Value), args ≠ [] →
    (argsTail args).getLast? = some '>' := by
  intro args
  induction args with
  | nil =>
    intro h
    exact absurd rfl h
  | cons kv rest ih =>
    intro _
    rw [show argsTail (kv :: rest) = '\n' :: (argLine kv ++ argsTail rest) from rfl]
    match rest with
    | [] =>
      rw [show argsTail ([] : List (Str × Value)) = [] from rfl, List.append_nil]
      exact getLast?_cons_of_last (argLine_last kv)
    | r1 :: r2 =>
      exact getLast?_cons_of_last (getLast?_append_right (ih (by simp)))

/-- The name line ends in `>`. -/
theorem nameLine_last (nm : Str) :
    ((pystr "<name>" ++ nm ++ pystr "</name>") : Str).getLast? = some '>' :=
  getLast?_append_right (by decide)

/-- `rstrip` drops a trailing whitespace character. -/
theorem pyRstrip_ws {d : Char} (y : Str) (h : isPySpace d = true) :
    pyRstrip (y ++ [d]) = pyRstrip y := by
  unfold pyRstrip
  rw [List.reverse_append]
  rw [show ([d] : Str).reverse = [d] from rfl, List.singleton_append,
    List.dropWhile_cons_of_pos (by simp [h])]

/-- `rstrip` keeps a string whose last character is not whitespace. -/
theorem pyRstrip_of_last {d : Char} (x : Str) (hx : x.getLast? = some d)
    (hd : isPySpace d = false) : pyRstrip x = x := by
  have hne : x ≠ [] := by
    intro hnil
    rw [hnil] at hx
    simp at hx
  obtain ⟨e, hdec, -⟩ := exists_last_decomp x hne
  have he : e = d := by
    rw [hdec, List.getLast?_concat] at hx
    exact Option.some.inj hx
  subst he
  rw [hdec]
  exact pyRstrip_concat _ hd

/-- Stripping the interior of a built block leaves the joined lines. -/
theorem strip_inner (c : ToolCall) :
    pyStrip (innerBody c) =
      (pystr "<name>" ++ c.name ++ pystr "</name>") ++ argsTail c.args := by
  have hlast : (((pystr "<name>" ++ c.name ++ pystr "</name>") ++ argsTail c.args) :
      Str).getLast? = some '>' := by
    match c.args with
    | [] =>
      rw [show argsTail ([] : List (Str × Value)) = [] from rfl, List.append_nil]
      exact nameLine_last c.name
    | kv :: rest =>
      exact getLast?_append_right (argsTail_last (kv :: rest) (by simp))
  unfold pyStrip
  rw [show pyLstrip (innerBody c) =
      pyLstrip (((pystr "<name>" ++ c.name ++ pystr "</name>") ++ argsTail c.args)
        ++ ['\n']) from List.dropWhile_cons_of_pos (by decide)]
  rw [show ((((pystr "<name>" ++ c.name ++ pystr "</name>") ++ argsTail c.args)
      ++ ['\n']) : Str) =
    '<' :: ((((pystr "name>" ++ c.name) ++ pystr "</name>") ++ argsTail c.args)
      ++ ['\n']) from by simp [List.append_assoc]; rfl]
  rw [pyLstrip_cons _ (by decide)]
  rw [show ('<' :: ((((pystr "name>" ++ c.name) ++ pystr "</name>") ++ argsTail c.args)
      ++ ['\n']) : Str) =
    (((pystr "<name>" ++ c.name ++ pystr "</name>") ++ argsTail c.args) ++ ['\n'])
    from by simp [List.append_assoc]; rfl]
  rw [pyRstrip_ws _ (by decide)]
  exact pyRstrip_of_last _ hlast (by decide)


/-- The element scan consumes its skip counter. -/
theorem FE_skip : ∀ (x s : Str) (k : Nat),
    findElementsAux (x ++ s) (x.length + k) = findElementsAux s k := by
  intro x
  induction x with
  | nil =>
    intro s k
    rw [List.nil_append, show ([] : Str).length + k = k from by simp]
  | cons c xr ih =>
    intro s k
    rw [List.cons_append,
      show (c :: xr).length + k = (xr.length + k) + 1 from by simp; omega,
      show findElementsAux (c :: (xr ++ s)) ((xr.length + k) + 1) =
        findElementsAux (xr ++ s) (xr.length + k) from rfl]
    exact ih s k

/-- The element scan steps over a non-`<` character. -/
theorem FE_step {c : Char} (rest : Str) (h : ¬c = '<') :
    findElementsAux (c :: rest) 0 = findElementsAux rest 0 := by
  conv_lhs => unfold findElementsAux
  rw [if_neg h]

/-- The element scan reads one well-formed element and continues after its
close tag. -/
theorem FE_element (k e tail2 : Str) (hk : ∀ ch ∈ k, isTagChar ch = true)
    (hkne : k ≠ []) (he : ∀ ch ∈ e, ¬ch = '<') :
    findElementsAux
      ('<' :: (k ++ ('>' :: (e ++ (('<' :: ('/' :: (k ++ ['>']))) ++ tail2))))) 0 =
      (k, e) :: findElementsAux tail2 0 := by
  conv_lhs => unfold findElementsAux
  rw [if_pos rfl]
  dsimp only
  rw [takeWhile_append_stop isTagChar k ('>' :: (e ++ (('<' :: ('/' :: (k ++ ['>']))) ++ tail2)))
    hk (fun c2 hc2 => by
      rw [show ('>' :: (e ++ (('<' :: ('/' :: (k ++ ['>']))) ++ tail2))).head? = some '>'
        from rfl] at hc2
      rw [← Option.some.inj hc2]
      decide)]
  rw [if_neg (fun hemp => hkne (List.isEmpty_iff.mp hemp))]
  rw [List.drop_left]
  split
  · rename_i r2 heq
    rw [List.cons.injEq] at heq
    obtain ⟨-, h2⟩ := heq
    subst h2
    rw [show ((('<' :: ('/' :: k)) ++ ['>']) : Str) = '<' :: ('/' :: (k ++ ['>']))
      from by simp]
    have hfind : pyFindFrom ('<' :: ('/' :: (k ++ ['>'])))
        (e ++ (('<' :: ('/' :: (k ++ ['>']))) ++ tail2)) 0 = some (0 + e.length) := by
      unfold pyFindFrom
      rw [List.drop_zero, go_of_noHit _ e _ 0 (noHit_noLt _ e he)]
      exact go_here _ (isPrefixOf_append_self _ tail2)
    rw [hfind]
    split
    · rename_i j heq2
      rw [Option.some.injEq] at heq2
      subst heq2
      rw [Nat.zero_add, List.take_left]
      rw [show (k ++ ('>' :: (e ++ (('<' :: ('/' :: (k ++ ['>']))) ++ tail2))) : Str) =
        (k ++ ('>' :: (e ++ ('<' :: ('/' :: (k ++ ['>'])))))) ++ tail2 from by
          simp [List.append_assoc]]
      rw [show k.length + 1 + e.length +
          ('<' :: ('/' :: (k ++ ['>'])) : Str).length =
        ((k ++ ('>' :: (e ++ ('<' :: ('/' :: (k ++ ['>'])))))) : Str).length + 0 from by
          simp
          omega]
      rw [FE_skip]
    · rename_i heq2
      exact absurd heq2 (by simp)
  · rename_i h1
    exact (h1 (e ++ (('<' :: ('/' :: (k ++ ['>']))) ++ tail2)) rfl).elim

/-- The element scan over the rendered argument lines. -/
theorem FE_argsTail : ∀ args : List (Str × Value), args.all argOk = true →
    findElementsAux (argsTail args) 0 =
      args.map (fun kv => (kv.1, xmlEscape (pyStr kv.2))) := by
  intro args
  induction args with
  | nil =>
    intro _
    rfl
  | cons kv rest ih =>
    intro h
    rw [List.all_cons] at h
    obtain ⟨hkne, htag, -, -⟩ := argOk_fields kv (band_left h)
    rw [show argsTail (kv :: rest) = '\n' :: (argLine kv ++ argsTail rest) from rfl,
      FE_step _ (by decide),
      show (argLine kv ++ argsTail rest : Str) =
        '<' :: (kv.1 ++ ('>' :: (xmlEscape (pyStr kv.2) ++
          (('<' :: ('/' :: (kv.1 ++ ['>']))) ++ argsTail rest)))) from by
        unfold argLine
        simp [List.append_assoc],
      FE_element kv.1 (xmlEscape (pyStr kv.2)) (argsTail rest) htag hkne
        (escape_no_lt _),
      ih (band_right h), List.map_cons]


/-- Tag characters are not whitespace. -/
theorem tagChar_not_ws {ch : Char} (h : isTagChar ch = true) :
    isPySpace ch = false := by
  cases hv : isPySpace ch
  · rfl
  · exfalso
    simp [isPySpace] at hv
    rcases hv with ((((hw | hw) | hw) | hw) | hw) | hw <;>
      (subst hw; exact absurd h (by decide))

/-- Tag characters are not ampersands. -/
theorem tagChar_not_amp {ch : Char} (h : isTagChar ch = true) : ¬ch = '&' := by
  intro he
  subst he
  exact absurd h (by decide)

/-- One step of the argument-collection loop. -/
theorem collect_step (nm tag content : Str) (es : List (Str × Str))
    (seen : List Str) (acc : List (Str × Value)) :
    xmlCollectArgs nm ((tag, content) :: es) seen acc =
      (if seen.contains tag then .error .dup
       else xmlCollectArgs nm es (tag :: seen)
         (acc ++ [(tag, parseValue (xmlUnescape content))])) := rfl

/-- The argument-collection loop over rendered arguments returns them in
order. -/
theorem collect_args : ∀ (args : List (Str × Value)) (nm : Str)
    (seen : List Str) (acc : List (Str × Value)),
    args.all argOk = true →
    (args.map Prod.fst).Nodup →
    (∀ k ∈ args.map Prod.fst, seen.contains k = false) →
    xmlCollectArgs nm (args.map (fun kv => (kv.1, xmlEscape (pyStr kv.2)))) seen acc =
      .ok ⟨nm, acc ++ args⟩ := by
  intro args
  induction args with
  | nil =>
    intro nm seen acc _ _ _
    rw [List.map_nil, show xmlCollectArgs nm [] seen acc = .ok ⟨nm, acc⟩ from rfl,
      List.append_nil]
  | cons kv rest ih =>
    intro nm seen acc hall hnd hseen
    rw [List.all_cons] at hall
    have hvok : xmlValueOk kv.2 = true := (argOk_fields kv (band_left hall)).2.2.2
    rw [List.map_cons, collect_step,
      if_neg (by
        intro hcc
        rw [hseen kv.1 (by rw [List.map_cons]; exact List.mem_cons_self _ _)] at hcc
        cases hcc),
      unescape_escape_pyStr kv.2 hvok, parseValue_pyStr kv.2 hvok]
    rw [List.map_cons, List.nodup_cons] at hnd
    rw [ih nm (kv.1 :: seen) (acc ++ [(kv.1, kv.2)]) (band_right hall) hnd.2
      (fun k hk => by
        simp only [List.contains_cons, Bool.or_eq_false_iff]
        constructor
        · rw [beq_eq_false_iff_ne]
          intro he
          exact hnd.1 (he ▸ hk)
        · exact hseen k (by rw [List.map_cons]; exact List.mem_cons_of_mem _ hk))]
    simp

/-- `_parse_single_call` on the stripped interior of a built block. -/
theorem parse_single_build (c : ToolCall) (h : xmlRepresentable c = true) :
    xmlParseSingleCall
      ((pystr "<name>" ++ c.name ++ pystr "</name>") ++ argsTail c.args) = .ok c := by
  obtain ⟨hne, htag, hnd, hargs⟩ := xmlRep_fields c h
  have hFE : findElements
      ((pystr "<name>" ++ c.name ++ pystr "</name>") ++ argsTail c.args) =
      (pystr "name", c.name) ::
        c.args.map (fun kv => (kv.1, xmlEscape (pyStr kv.2))) := by
    unfold findElements
    rw [show (((pystr "<name>" ++ c.name ++ pystr "</name>") ++ argsTail c.args) : Str) =
      '<' :: (pystr "name" ++ ('>' :: (c.name ++
        (('<' :: ('/' :: (pystr "name" ++ ['>']))) ++ argsTail c.args)))) from by
      simp [List.append_assoc]
      rfl]
    rw [FE_element (pystr "name") c.name (argsTail c.args) tagchars_name (by decide)
      (fun ch hch => tagChar_not_lt (htag ch hch)),
      FE_argsTail c.args hargs]
  unfold xmlParseSingleCall
  rw [hFE]
  dsimp only
  rw [if_neg (show ¬(pystr "name" ≠ pystr "name") from fun hne2 => hne2 rfl)]
  rw [pyStrip_noop_of_all (fun ch hch => tagChar_not_ws (htag ch hch)),
    xmlUnescape_noop c.name (fun hamp => tagChar_not_amp (htag '&' hamp) rfl)]
  rw [if_neg (fun hemp => hne (List.isEmpty_iff.mp hemp))]
  rw [collect_args c.args c.name [] [] hargs hnd (fun k _ => rfl)]
  rw [List.nil_append]

/-- The per-match loop on the single block of a built call. -/
theorem process_single (c : ToolCall) (h : xmlRepresentable c = true) (L : Nat) :
    xmlProcessMatches [(0, innerBody c, L)] = ([c], []) := by
  unfold xmlProcessMatches
  dsimp only
  rw [strip_inner c]
  rw [if_neg (by
    intro hemp
    have : ((pystr "<name>" ++ c.name ++ pystr "</name>") ++ argsTail c.args : Str) = [] :=
      List.isEmpty_iff.mp hemp
    simp [pystr] at this)]
  rw [parse_single_build c h]
  rfl


/-- A built single-call message is the rendered call itself. -/
theorem xmlBuild_single (c : ToolCall) :
    xmlBuild tcStart tcEnd [c] = tcStart ++ (innerBody c ++ tcEnd) := by
  unfold xmlBuild
  rw [List.map_cons, List.map_nil,
    show joinNl [xmlBuildCall tcStart tcEnd c] = xmlBuildCall tcStart tcEnd c from rfl,
    build_decomp]

/-- C1 (amended): extracting a built single-record message with the default
XML markers returns empty leading text, exactly that record, and no errors,
for every record the format can represent (tag-safe distinct argument names
and round-trippable values). -/
theorem xml_round_trip_representable (c : ToolCall)
    (h : xmlRepresentable c = true) :
    xmlExtract tcStart tcEnd (xmlBuild tcStart tcEnd [c]) = ([], [c], []) := by
  rw [xmlBuild_single c]
  unfold xmlExtract
  rw [tagBalance_build c h]
  dsimp only
  rw [findBlocks_build c h]
  dsimp only
  rw [show takeContiguous (tcStart ++ (innerBody c ++ tcEnd))
      (tcStart.length + (innerBody c).length + tcEnd.length) [] = [] from rfl]
  rw [process_single c h]
  dsimp only
  rw [show ((tcStart ++ (innerBody c ++ tcEnd) : Str).take 0) = [] from rfl,
    show pyStrip ([] : Str) = [] from rfl]
  rfl


/-- C1: the XML round-trip law fails as stated: the record
`{"name": "t", "arguments": {"a": "5"}}` — a string argument, which the
claim lists as representable — is built and then extracted back with its
argument coerced to the integer `5`, not the original string `"5"`. -/
theorem xml_round_trip_counterexample :
    (xmlExtract tcStart tcEnd (xmlBuild tcStart tcEnd
        [⟨pystr "t", [(pystr "a", .vstr (pystr "5"))]⟩])).2.1 =
      [⟨pystr "t", [(pystr "a", .vint 5)]⟩] ∧
    ¬(Value.vint 5 = Value.vstr (pystr "5")) :=
  ⟨rfl, fun hne => Value.noConfusion hne⟩

/-- Witness: a concrete representable record — string, integer, boolean,
list and dict arguments — round-trips exactly. -/
theorem xml_round_trip_representable_witness :
    xmlRepresentable ⟨pystr "get_weather",
      [(pystr "city", .vstr (pystr "Paris")),
       (pystr "n", .vint 3),
       (pystr "ok", .vbool true),
       (pystr "xs", .vlist [.vint 1, .vstr (pystr "a")]),
       (pystr "m", .vdict [(.vstr (pystr "k"), .vint 2)])]⟩ = true ∧
    xmlExtract tcStart tcEnd (xmlBuild tcStart tcEnd
      [⟨pystr "get_weather",
        [(pystr "city", .vstr (pystr "Paris")),
         (pystr "n", .vint 3),
         (pystr "ok", .vbool true),
         (pystr "xs", .vlist [.vint 1, .vstr (pystr "a")]),
         (pystr "m", .vdict [(.vstr (pystr "k"), .vint 2)])]⟩]) =
      ([], [⟨pystr "get_weather",
        [(pystr "city", .vstr (pystr "Paris")),
         (pystr "n", .vint 3),
         (pystr "ok", .vbool true),
         (pystr "xs", .vlist [.vint 1, .vstr (pystr "a")]),
         (pystr "m", .vdict [(.vstr (pystr "k"), .vint 2)])]⟩], []) :=
  ⟨by decide, xml_round_trip_representable _ (by decide)⟩


end Agent2
